import Mathlib

/-! FAT32 path resolution (`fat32.c`): a shallow embedding.

Memory is modelled by lists of byte values.  A C pointer into an object is
modelled by the list of the bytes from the pointed position to the end of the
object (`p + k` is `List.drop k`), or by a buffer together with an offset where
the source moves a pointer backwards.  A read outside the object is a `Fault`;
C `int` values are `Int`, unsigned values are `Nat` reduced modulo `2 ^ w` where
the source arithmetic can wrap.  Loops are functions by recursion on a bound of
the number of iterations; for each of them a theorem shows that the bound is
never the reason for a result, or the result says that the loop is still
running.

Assumptions of the embedding: a little-endian host with 8-bit bytes (the
source overlays its structs on the raw bytes), the C locale (the program never
calls `setlocale`), an LP64 `long` for `fseek`, and a signed 8-bit `char` (the
x86-64 Linux ABI): a `char` holding a byte from `0x80` on is promoted to a
negative `int`.  Two `char` values, or a `char` and a character constant, are
equal exactly when their bytes are, so these comparisons are made on the
bytes; the one comparison of a `char` with the result of `toupper`
(`short_form_cmp`) is made on the promoted values.

Layout of the file: the embedding of the source, the reference notions and
the concrete directories used to state the properties, then the theorems.
-/

namespace Fat32

/-! ## Execution results -/

/-- Behaviour of the C program that the source does not define. -/
inductive Fault where
  /-- a read outside the `cluster_size` bytes of `cluster_buff` -/
  | cluster_oob
  /-- a read outside the path string (`argv[2]`) -/
  | token_oob
  /-- a read of a local variable that has never been assigned
      and whose address is never taken -/
  | uninit
  /-- a read of `fat32_array` outside the entries loaded from the disk -/
  | fat_oob
  /-- an `int` product that does not fit in an `int` -/
  | int_overflow
deriving DecidableEq, Repr

/-- Result of running a piece of the program: a value, or a fault. -/
inductive Exec (α : Type) where
  | ok (a : α)
  | fault (f : Fault)
deriving DecidableEq, Repr

/-- Sequencing: a fault aborts the rest. -/
def Exec.bind {α β : Type} (x : Exec α) (f : α → Exec β) : Exec β :=
  match x with
  | .ok a => f a
  | .fault e => .fault e

instance : Monad Exec where
  pure := Exec.ok
  bind := Exec.bind

/-- Read of the byte `l[i]`; outside the object the read is the fault `e`. -/
def rd (e : Fault) (l : List Nat) (i : Nat) : Exec Nat :=
  match l[i]? with
  | some v => .ok v
  | none => .fault e

/-- Read of a little-endian `uint16_t` of the cluster buffer. -/
def rd16 (buf : List Nat) (off : Nat) : Exec Nat := do
  let b0 ← rd .cluster_oob buf off
  let b1 ← rd .cluster_oob buf (off + 1)
  return b0 + 256 * b1

/-- Read of a little-endian `uint32_t` of the cluster buffer. -/
def rd32 (buf : List Nat) (off : Nat) : Exec Nat := do
  let b0 ← rd .cluster_oob buf off
  let b1 ← rd .cluster_oob buf (off + 1)
  let b2 ← rd .cluster_oob buf (off + 2)
  let b3 ← rd .cluster_oob buf (off + 3)
  return b0 + 256 * b1 + 65536 * b2 + 16777216 * b3

/-! ## Constants and macros of the source -/

/-- `#define DIRECTORY_ENTRY 0` -/
def DIRECTORY_ENTRY : Int := 0

/-- `#define FILE_ENTRY 1` -/
def FILE_ENTRY : Int := 1

/-- `#define DIR_ENTRY_SIZE 32` -/
def DIR_ENTRY_SIZE : Nat := 32

/-- `#define DIR_ENTRY_ATTR 11` -/
def DIR_ENTRY_ATTR : Nat := 11

/-- `#define SHORT_NAME_SIZE 8` -/
def SHORT_NAME_SIZE : Nat := 8

/-- `#define SHORT_EXT_SIZE 3` -/
def SHORT_EXT_SIZE : Nat := 3

/-- The end-of-chain value `0xfffffff` tested by the cluster walk in `main`. -/
def END_OF_CHAIN : Nat := 0xfffffff

/-- `#define GET_CLUSTER(high, low) (((high) << 16) + (low))` on two `uint16_t`
fields, stored in a `uint32_t`: the value modulo `2 ^ 32` (what the compilers
give also when the shift reaches the sign bit of the promoted `int`). -/
def GET_CLUSTER (high low : Nat) : Nat := ((high <<< 16) + low) % 2 ^ 32

/-- `#define IS_DIRECTORY(flags) ((flags) & (1 << 4))` -/
def IS_DIRECTORY (flags : Nat) : Nat := flags &&& (1 <<< 4)

/-- The `int` to which a `char` holding the byte `b` is promoted: `char` is
signed, so the bytes `0x80` to `0xff` are the values -128 to -1. -/
def char_val (b : Nat) : Int := if 128 ≤ b ∧ b < 256 then (b : Int) - 256 else (b : Int)

/-- `toupper` of `<ctype.h>` in the C locale, on the `int` it receives: the
lower-case ASCII letters are moved to upper case; `EOF` (-1), the other values
from 0 to 255 and the values outside -128..255 are returned unchanged.  For the
values -128 to -2 (a promoted `char` from `0x80` to `0xfe`), where the C
standard leaves the call undefined, the result is the one of the table lookup
of the GNU C library: the value of the byte, `c + 256`. -/
def toupper (c : Int) : Int :=
  if 97 ≤ c ∧ c ≤ 122 then c - 32 else if -128 ≤ c ∧ c < -1 then c + 256 else c

/-! ## Field offsets of the two overlaid structs

`struct short_form_entry`: `name` 0, `ext` 8, `flags` 11,
`fat_cluster_num_high` 20, `fat_cluster_num_low` 26, `file_size` 28.
`struct long_form_entry`: `entry_num` 0, `name_1_5` 1, `flags` 11,
`name_6_11` 14, `name_12_13` 28.  Both structs are 32 bytes long. -/

/-- Offset of `name_1_5` in `struct long_form_entry`. -/
def NAME_1_5 : Nat := 1

/-- Offset of `name_6_11` in `struct long_form_entry`. -/
def NAME_6_11 : Nat := 14

/-- Offset of `name_12_13` in `struct long_form_entry`. -/
def NAME_12_13 : Nat := 28

/-! ## `short_form_cmp` -/

/-- The final test of `short_form_cmp`:
`if ((b[i] == '.' || b[i] == '\0') && (a[i] == ' ' || i == maxlen)) return i;
 else return -1;`. -/
def short_form_exit (a b : List Nat) (maxlen i : Nat) : Exec Int := do
  let bi ← rd .token_oob b i
  if bi = 46 ∨ bi = 0 then
    let ai ← rd .cluster_oob a i
    if ai = 32 ∨ i = maxlen then return (i : Int) else return -1
  else return -1

/-- The `for` loop of `short_form_cmp`, from index `i`, with `n` bounding the
number of iterations left (`n = maxlen - i`).
`for (i = 0; i < maxlen && a[i] != ' ' && b[i] != '.' && b[i] != '\0'; ++i)
   if (a[i] != toupper(b[i])) return -1;`
Both `a` and `b` are `char *`: `toupper` receives the promoted `b[i]`, and its
`int` result is compared with the promoted `a[i]`. -/
def short_form_loop (a b : List Nat) (maxlen : Nat) : Nat → Nat → Exec Int
  | 0, i => short_form_exit a b maxlen i
  | n + 1, i =>
    if i < maxlen then do
      let ai ← rd .cluster_oob a i
      if ai ≠ 32 then do
        let bi ← rd .token_oob b i
        if bi ≠ 46 ∧ bi ≠ 0 then
          if char_val ai ≠ toupper (char_val bi) then return -1
          else short_form_loop a b maxlen n (i + 1)
        else short_form_exit a b maxlen i
      else short_form_exit a b maxlen i
    else short_form_exit a b maxlen i

/-- `int short_form_cmp(char *a, char *b, int maxlen)`: `a` is a field of a
directory record (a view of the cluster buffer), `b` a view of the token. -/
def short_form_cmp (a b : List Nat) (maxlen : Nat) : Exec Int :=
  short_form_loop a b maxlen maxlen 0

/-! ## `long_form_cmp` -/

/-- The code after one of the first two loops of `long_form_cmp`:
`if (i < lim) { if (a->frag[i] != b[ret]) return -1; else return ret; }`;
`Sum.inl v` is `return v`, `Sum.inr ret` falls through to the next fragment. -/
def long_form_after (a b : List Nat) (base lim i ret : Nat) : Exec (Int ⊕ Nat) :=
  if i < lim then do
    let ai ← rd .cluster_oob a (base + i)
    let br ← rd .token_oob b ret
    if ai ≠ br then return Sum.inl (-1) else return Sum.inl (ret : Int)
  else return Sum.inr ret

/-- One of the first two loops of `long_form_cmp` with the `if` that follows
it, for the fragment at offset `base` of `lim` bytes; `n` bounds the iterations
left.
`for (i = 0; i < lim && a->frag[i] != '\0' && b[ret] != '\0'; i += 2, ++ret)
   if (b[ret] != a->frag[i]) return -1;` -/
def long_form_frag (a b : List Nat) (base lim : Nat) : Nat → Nat → Nat → Exec (Int ⊕ Nat)
  | 0, i, ret => long_form_after a b base lim i ret
  | n + 1, i, ret =>
    if i < lim then do
      let ai ← rd .cluster_oob a (base + i)
      if ai ≠ 0 then do
        let br ← rd .token_oob b ret
        if br ≠ 0 then
          if br ≠ ai then return Sum.inl (-1)
          else long_form_frag a b base lim n (i + 2) (ret + 1)
        else long_form_after a b base lim i ret
      else long_form_after a b base lim i ret
    else long_form_after a b base lim i ret

/-- The last part of `long_form_cmp` (characters 12 and 13). -/
def long_form_tail (a b : List Nat) (ret : Nat) : Exec Int := do
  let a0 ← rd .cluster_oob a NAME_12_13
  let b0 ← rd .token_oob b ret
  if a0 ≠ b0 then return -1
  else if b0 = 0 then return ((ret + 1 : Nat) : Int)
  else do
    let a2 ← rd .cluster_oob a (NAME_12_13 + 2)
    let b1 ← rd .token_oob b (ret + 1)
    if a2 ≠ b1 then return -1 else return ((ret + 1 + 1 : Nat) : Int)

/-- `int long_form_cmp(struct long_form_entry *a, char *b)`: `a` is the view of
the cluster buffer from the first byte of the record, `b` a view of the token. -/
def long_form_cmp (a b : List Nat) : Exec Int := do
  match ← long_form_frag a b NAME_1_5 10 5 0 0 with
  | Sum.inl v => return v
  | Sum.inr ret =>
    match ← long_form_frag a b NAME_6_11 12 6 0 ret with
    | Sum.inl v => return v
    | Sum.inr ret => long_form_tail a b ret

/-! ## `get_entry_start_cluster` -/

/-- The globals set by `read_fat32_metadata` that path resolution reads. -/
structure Geometry where
  /-- `uint64_t clusters_area_offset` -/
  clusters_area_offset : Nat
  /-- `uint32_t cluster_size` (in bytes) -/
  cluster_size : Nat
  /-- `fat32_info.root_rep` -/
  root_rep : Nat
deriving DecidableEq, Repr

/-- What `get_entry_start_cluster` leaves behind: its return value and the
contents of `*cur_cluster` and `*size`. -/
structure EntryResult where
  ret : Int
  cur_cluster : Nat
  size : Nat
deriving DecidableEq, Repr

/-- The byte offset passed to `fseek`:
`clusters_area_offset + ((dir_cluster - 2) * cluster_size)`, the product in
`uint32_t`, the sum in `uint64_t`. -/
def cluster_offset (g : Geometry) (dir_cluster : Nat) : Nat :=
  (g.clusters_area_offset +
    ((dir_cluster + 2 ^ 32 - 2) % 2 ^ 32 * g.cluster_size) % 2 ^ 32) % 2 ^ 64

/-- The `fseek` and `fread` of `get_entry_start_cluster` on a disk image given
by its bytes: `none` when one of them fails (negative offset, or fewer than
`cluster_size` bytes at the offset, or an item size of zero), else the new
contents of `cluster_buff`. -/
def read_cluster (disk : List Nat) (g : Geometry) (dir_cluster : Nat) : Option (List Nat) :=
  let off := cluster_offset g dir_cluster
  if 2 ^ 63 ≤ off then none
  else if g.cluster_size = 0 then none
  else if off + g.cluster_size ≤ disk.length then some ((disk.drop off).take g.cluster_size)
  else none

/-- The assignments and the return shared by the two successful exits:
`*cur_cluster = GET_CLUSTER(e->fat_cluster_num_high, e->fat_cluster_num_low);
 *size = e->file_size;
 if (IS_DIRECTORY(e->flags)) return DIRECTORY_ENTRY; else return FILE_ENTRY;`
for the short-form record at offset `off`. -/
def entry_result (buf : List Nat) (off : Nat) : Exec EntryResult := do
  let high ← rd16 buf (off + 20)
  let low ← rd16 buf (off + 26)
  let file_size ← rd32 buf (off + 28)
  let flags ← rd .cluster_oob buf (off + DIR_ENTRY_ATTR)
  return ⟨if IS_DIRECTORY flags ≠ 0 then DIRECTORY_ENTRY else FILE_ENTRY,
    GET_CLUSTER high low, file_size⟩

/-- The inner loop over a long-form run that starts at `pos`:
`for (i = 0; i < nb_entries; ++i, --entry) {
   ret = long_form_cmp(entry, token + tok_pos);
   if (ret == -1) break;
   tok_pos += ret; }`.
The first argument is `nb_entries - i`; `entry` starts at the record
`nb_entries - 1` of the run and moves one record down per iteration, so it is
the record `nb_entries - 1 - i`.  `ret` is `none` while it is unassigned.
Yields the final `ret` and `tok_pos`. -/
def long_run (buf token : List Nat) (pos : Nat) : Nat → Option Int → Nat → Exec (Int × Nat)
  | 0, none, _ => .fault .uninit
  | 0, some ret, tok_pos => .ok (ret, tok_pos)
  | n + 1, _, tok_pos => do
    let ret ← long_form_cmp (buf.drop (pos + n * DIR_ENTRY_SIZE)) (token.drop tok_pos)
    if ret = -1 then return (ret, tok_pos)
    else long_run buf token pos n (some ret) (tok_pos + ret.toNat)

/-- Outcome of one iteration of the scan loop. -/
inductive Step where
  /-- a `return` inside the loop body -/
  | done (r : EntryResult)
  /-- the loop goes on at `buff_ptr = cluster_buff + pos` with `token` -/
  | next (pos : Nat) (token : List Nat)
  /-- the loop condition `*buff_ptr != 0` is false -/
  | stop
deriving DecidableEq, Repr

/-- The long-form branch of the scan loop body (`buff_ptr[DIR_ENTRY_ATTR] == 0x0f`). -/
def long_branch (buf token : List Nat) (pos b0 : Nat) : Exec Step := do
  let nb_entries := b0 &&& 0x1f
  let (ret, tok_pos) ← long_run buf token pos nb_entries none 0
  if ret ≠ -1 then
    let c ← rd .token_oob token tok_pos
    if c = 0 then
      let r ← entry_result buf (pos + nb_entries * DIR_ENTRY_SIZE)
      return Step.done r
    else return Step.next (pos + nb_entries * DIR_ENTRY_SIZE + DIR_ENTRY_SIZE) token
  else return Step.next (pos + nb_entries * DIR_ENTRY_SIZE + DIR_ENTRY_SIZE) token

/-- The short-form branch of the scan loop body.  The source advances `token`
itself when the name part is followed by a dot (`token++`), and the loop goes
on with the advanced pointer. -/
def short_branch (buf token : List Nat) (pos : Nat) : Exec Step := do
  let ret ← short_form_cmp (buf.drop pos) token SHORT_NAME_SIZE
  if ret ≠ -1 then
    let c ← rd .token_oob token ret.toNat
    let token1 := if c = 46 then token.drop 1 else token
    let ret2 ← short_form_cmp (buf.drop (pos + SHORT_NAME_SIZE)) (token1.drop ret.toNat)
      SHORT_EXT_SIZE
    if ret2 ≠ -1 then
      let r ← entry_result buf pos
      return Step.done r
    else return Step.next (pos + DIR_ENTRY_SIZE) token1
  else return Step.next (pos + DIR_ENTRY_SIZE) token

/-- One iteration of
`for (buff_ptr = cluster_buff; *buff_ptr != 0; buff_ptr += DIR_ENTRY_SIZE)`,
condition, body and increment, at `buff_ptr = cluster_buff + pos`. -/
def scan_step (buf token : List Nat) (pos : Nat) : Exec Step := do
  let b0 ← rd .cluster_oob buf pos
  if b0 = 0 then return Step.stop
  else if b0 = 0xe5 then return Step.next (pos + DIR_ENTRY_SIZE) token
  else do
    let attr ← rd .cluster_oob buf (pos + DIR_ENTRY_ATTR)
    if attr = 0x0f then long_branch buf token pos b0
    else short_branch buf token pos

/-- The scan loop of `get_entry_start_cluster` and the `return -1` after it.
Every iteration moves `pos` forward by at least one record and reads
`buf[pos]`, so an iteration count above `buf.length` can only be reached by a
read outside the buffer. -/
def scan_entries (buf : List Nat) (cur_cluster size : Nat) : Nat → Nat → List Nat → Exec EntryResult
  | 0, _, _ => .fault .cluster_oob
  | n + 1, pos, token => do
    match ← scan_step buf token pos with
    | Step.done r => return r
    | Step.stop => return ⟨-1, cur_cluster, size⟩
    | Step.next pos1 token1 => scan_entries buf cur_cluster size n pos1 token1

/-- `int get_entry_start_cluster(FILE *disk, char *token, uint32_t *cur_cluster,
uint32_t *size)`; `cur_cluster` and `size` are the contents of the two
out-parameters at the call. -/
def get_entry_start_cluster (disk : List Nat) (g : Geometry) (token : List Nat)
    (cur_cluster size : Nat) : Exec EntryResult :=
  match read_cluster disk g cur_cluster with
  | none => .ok ⟨-1, cur_cluster, size⟩
  | some buf => scan_entries buf cur_cluster size (buf.length + 1) 0 token

/-! ## `strtok` and `get_file_start_cluster` -/

/-- Library function `strtok(s, "/")` on the view `s` of the path buffer from
the current position (`s` is the first argument on the first call and the
saved pointer on the calls with `NULL`).  Yields `none` for a `NULL` result,
else the view of the token after the delimiter that ends it has been
overwritten by NUL, and the saved view for the next call. -/
def strtok (s : List Nat) : Exec (Option (List Nat × List Nat)) :=
  let s1 := s.dropWhile (fun c => c = 47)
  match s1.head? with
  | none => .fault .token_oob
  | some c =>
    if c = 0 then .ok none
    else
      let tok := s1.takeWhile (fun c => c ≠ 47 ∧ c ≠ 0)
      match s1.dropWhile (fun c => c ≠ 47 ∧ c ≠ 0) with
      | [] => .fault .token_oob
      | d :: rest => .ok (some (tok ++ 0 :: rest, if d = 0 then 0 :: rest else rest))

/-- The `while (token != NULL)` loop of `get_file_start_cluster` and the two
statements after it.  `tok` is the current `token` with the saved `strtok`
position (`none` for `NULL`), `fs0` the content of `*ret_file_size` at the
call, the first argument bounds the number of iterations.  Yields the return
value and the final content of `*ret_file_size`. -/
def get_file_loop (disk : List Nat) (g : Geometry) (fs0 : Nat) :
    Nat → Option (List Nat × List Nat) → Nat → Nat → Exec (Nat × Nat)
  | _, none, cur_cluster, size => .ok (cur_cluster, size)
  | 0, some _, _, _ => .fault .token_oob
  | n + 1, some (token, saved), cur_cluster, size => do
    let r ← get_entry_start_cluster disk g token cur_cluster size
    if r.ret = -1 then return (0, fs0)
    else do
      let next ← strtok saved
      if (next = none ∧ r.ret = DIRECTORY_ENTRY) ∨ (next ≠ none ∧ r.ret = FILE_ENTRY) then
        return (0, fs0)
      else get_file_loop disk g fs0 n next r.cur_cluster r.size

/-- `uint32_t get_file_start_cluster(FILE *disk, char *filepath,
uint32_t *ret_file_size)`.  `filepath` is the path buffer (with its
terminating NUL), `size0` the indeterminate initial value of the local `size`
(its address is taken, so reading it is not undefined), `fs0` the content of
`*ret_file_size` at the call.  Every token takes at least two bytes of the
buffer, so `filepath.length` iterations are never exceeded. -/
def get_file_start_cluster (disk : List Nat) (g : Geometry) (filepath : List Nat)
    (size0 fs0 : Nat) : Exec (Nat × Nat) := do
  let token ← strtok filepath
  get_file_loop disk g fs0 filepath.length token g.root_rep size0

/-! ## The cluster walk of `main` -/

/-- The loop
`while (start_cluster != 0xfffffff) { printf("%d\n", start_cluster);
   start_cluster = fat32_array[start_cluster]; nb_clusters++; }`
run for at most the given number of iterations: `none` when the loop is still
running after them, else the clusters printed from here on and the final
`nb_clusters`.  `fat` is the list of the FAT entries loaded from the disk.
The counter is an `int` in the source; a chain that ends visits every entry at
most once and the FAT has fewer than `2 ^ 30` entries, so it does not
overflow. -/
def cluster_walk (fat : List Nat) : Nat → Nat → Nat → Option (Exec (List Nat × Nat))
  | 0, _, _ => none
  | n + 1, start_cluster, nb_clusters =>
    if start_cluster ≠ END_OF_CHAIN then
      match fat[start_cluster]? with
      | none => some (.fault .fat_oob)
      | some nxt =>
        match cluster_walk fat n nxt (nb_clusters + 1) with
        | none => none
        | some (.fault e) => some (.fault e)
        | some (.ok (emitted, nb)) => some (.ok (start_cluster :: emitted, nb))
    else some (.ok ([], nb_clusters))

/-- What `main` prints after the two tables are loaded. -/
inductive Report where
  /-- `File not found.` -/
  | file_not_found
  /-- the clusters, `Number of clusters` and `File size` -/
  | clusters (emitted : List Nat) (nb_clusters : Nat) (file_size : Nat)
deriving DecidableEq, Repr

/-- Lines 196 to 215 of `main`: resolve `argv[2]`, then either report that the
file was not found or walk the chain (for at most `fuel` iterations). -/
def main_report (disk : List Nat) (g : Geometry) (fat : List Nat) (filepath : List Nat)
    (size0 fuel : Nat) : Option (Exec Report) :=
  match get_file_start_cluster disk g filepath size0 0 with
  | .fault e => some (.fault e)
  | .ok (start_cluster, file_size) =>
    if start_cluster = 0 then some (.ok Report.file_not_found)
    else
      match cluster_walk fat fuel start_cluster 0 with
      | none => none
      | some (.fault e) => some (.fault e)
      | some (.ok (emitted, nb)) => some (.ok (Report.clusters emitted nb file_size))

/-! ## `read_fat32_metadata` -/

/-- The fields of `struct bios_param` that the program uses, at the offsets 0,
2, 3 and 5 of the packed struct. -/
structure bios_param where
  /-- `uint16_t sector_size` -/
  sector_size : Nat
  /-- `uint8_t cluster_size` (sectors per cluster) -/
  cluster_size : Nat
  /-- `uint16_t nb_reserved_sectors` -/
  nb_reserved_sectors : Nat
  /-- `uint8_t nb_fats` -/
  nb_fats : Nat
deriving DecidableEq, Repr

/-- The fields of `struct fat32_info` that the program uses, at the offsets 0
and 8 of the packed struct. -/
structure fat32_info where
  /-- `uint32_t fat32_nb_sectors` -/
  fat32_nb_sectors : Nat
  /-- `uint32_t root_rep` -/
  root_rep : Nat
deriving DecidableEq, Repr

/-- The globals that `read_fat32_metadata` sets. -/
structure Metadata where
  /-- the global `bios_param` -/
  bios : bios_param
  /-- the global `fat32_info` -/
  info : fat32_info
  /-- `uint32_t fat32_size` -/
  fat32_size : Nat
  /-- `uint64_t clusters_area_offset` -/
  clusters_area_offset : Nat
  /-- `uint32_t cluster_size` -/
  cluster_size : Nat
deriving DecidableEq, Repr

/-- Product of two operands promoted to `int` (both are unsigned fields of 8
or 16 bits): a value above `INT_MAX` is an overflow. -/
def int_mul (x y : Nat) : Exec Nat :=
  if x * y < 2 ^ 31 then .ok (x * y) else .fault .int_overflow

/-- The three assignments of `read_fat32_metadata`:
`cluster_size = bios_param.cluster_size * bios_param.sector_size;
 fat32_size = fat32_info.fat32_nb_sectors * bios_param.sector_size;
 clusters_area_offset = bios_param.sector_size * bios_param.nb_reserved_sectors
   + fat32_size * bios_param.nb_fats;`
The first product is an `int`; the second and the third have a `uint32_t`
operand and are computed in `uint32_t`, and so is the sum, which is then
stored in the `uint64_t`. -/
def set_geometry (bp : bios_param) (fi : fat32_info) : Exec Metadata := do
  let cs ← int_mul bp.cluster_size bp.sector_size
  let cluster_size := cs % 2 ^ 32
  let fat32_size := (fi.fat32_nb_sectors * bp.sector_size) % 2 ^ 32
  let reserved ← int_mul bp.sector_size bp.nb_reserved_sectors
  let clusters_area_offset := (reserved + (fat32_size * bp.nb_fats) % 2 ^ 32) % 2 ^ 32
  return ⟨bp, fi, fat32_size, clusters_area_offset, cluster_size⟩

/-- A little-endian field of two bytes of the image. -/
def le16 (disk : List Nat) (off : Nat) : Nat := disk.getD off 0 + 256 * disk.getD (off + 1) 0

/-- A little-endian field of four bytes of the image. -/
def le32 (disk : List Nat) (off : Nat) : Nat :=
  disk.getD off 0 + 256 * disk.getD (off + 1) 0 + 65536 * disk.getD (off + 2) 0
    + 16777216 * disk.getD (off + 3) 0

/-- `int read_fat32_metadata(FILE *disk)`: `none` for the return value -1 (one
of the two `fread` is short: the packed structs take the bytes 11 to 35 and 36
to 89 of the image), else the globals. -/
def read_fat32_metadata (disk : List Nat) : Exec (Option Metadata) :=
  if disk.length < 36 then .ok none
  else if disk.length < 90 then .ok none
  else do
    let m ← set_geometry ⟨le16 disk 11, disk.getD 13 0, le16 disk 14, disk.getD 16 0⟩
      ⟨le32 disk 36, le32 disk 44⟩
    return some m

/-- The geometry that path resolution reads from the globals. -/
def Metadata.geometry (m : Metadata) : Geometry :=
  ⟨m.clusters_area_offset, m.cluster_size, m.info.root_rep⟩

/-! ## Reference notions used to state the properties -/

/-- The cluster reached from `s` by following `k` FAT links. -/
def follow (fat : List Nat) : Nat → Nat → Option Nat
  | 0, s => some s
  | k + 1, s =>
    match fat[s]? with
    | none => none
    | some c => follow fat k c

/-- Bytes of an ASCII string. -/
def bytes (s : String) : List Nat := s.toList.map Char.toNat

/-- The memory of a C string: its bytes and the terminating NUL. -/
def cstr (s : String) : List Nat := bytes s ++ [0]

/-- The tokens that the successive `strtok` calls of `get_file_start_cluster`
yield: the first one is given, the others come from the saved position.  Each
token is the view that `get_entry_start_cluster` receives. -/
def tokens_from : Nat → Option (List Nat × List Nat) → Exec (List (List Nat))
  | _, none => .ok []
  | 0, some _ => .fault .token_oob
  | n + 1, some (token, saved) => do
    let next ← strtok saved
    let rest ← tokens_from n next
    return token :: rest

/-- The components of a path, as the views handed to `get_entry_start_cluster`. -/
def path_tokens (filepath : List Nat) : Exec (List (List Nat)) := do
  let first ← strtok filepath
  tokens_from filepath.length first

/-- Resolution of a list of components from the directory cluster
`cur_cluster`, by recursion on the list: the reference against which the loop
of `get_file_start_cluster` is compared. -/
def resolve_tokens (disk : List Nat) (g : Geometry) (fs0 : Nat) :
    List (List Nat) → Nat → Nat → Exec (Nat × Nat)
  | [], cur_cluster, size => .ok (cur_cluster, size)
  | t :: ts, cur_cluster, size => do
    let r ← get_entry_start_cluster disk g t cur_cluster size
    if r.ret = -1 then return (0, fs0)
    else if (ts = [] ∧ r.ret = DIRECTORY_ENTRY) ∨ (ts ≠ [] ∧ r.ret = FILE_ENTRY) then
      return (0, fs0)
    else resolve_tokens disk g fs0 ts r.cur_cluster r.size

/-- Descent through components that all match directory entries, from the
directory cluster `cur_cluster`: the cluster of the last directory, `none` when
a component does not match a directory entry. -/
def descend (disk : List Nat) (g : Geometry) : List (List Nat) → Nat → Option Nat
  | [], cur_cluster => some cur_cluster
  | t :: ts, cur_cluster =>
    match get_entry_start_cluster disk g t cur_cluster 0 with
    | .ok r => if r.ret = DIRECTORY_ENTRY then descend disk g ts r.cur_cluster else none
    | .fault _ => none

/-! ## Directory records as the format lays them out

These builders follow the record layout of the spec (data model, short form
and long form); the theorems use them for concrete directories. -/

/-- A 32-byte short-form record: name and extension padded with spaces, the
attribute byte, the two 16-bit halves of the start cluster and the 32-bit
size, little-endian. -/
def short_record (name ext : String) (flags high low size : Nat) : List Nat :=
  let n := bytes name
  let e := bytes ext
  n ++ List.replicate (8 - n.length) 32 ++ (e ++ List.replicate (3 - e.length) 32) ++
  [flags, 0, 0, 0, 0, 0, 0, 0, 0, high % 256, high / 256, 0, 0, 0, 0, low % 256, low / 256,
   size % 256, size / 256 % 256, size / 65536 % 256, size / 16777216 % 256]

/-- A record whose first byte is zero: the end of the entry list. -/
def term_record : List Nat := List.replicate 32 0

/-- Low byte of the code unit `i` of a stored long name: the character, then
the null terminator, then the pad value. -/
def lfn_unit (name : List Nat) (i : Nat) : Nat :=
  if i < name.length then name.getD i 0 else if i = name.length then 0 else 0xff

/-- High byte of the code unit `i` of a stored long name of single-byte
characters: zero up to the terminator, then the pad value. -/
def lfn_high (name : List Nat) (i : Nat) : Nat :=
  if i ≤ name.length then 0 else 0xff

/-- Number of long-form records of a name: `ceil(length / 13)`. -/
def lfn_count (name : List Nat) : Nat := (name.length + 12) / 13

/-- The long-form record with sequence number `q` (from 1) of a name, with
`seq_byte` as its first byte: 13 code units in the three fragments, attribute
`0x0f`. -/
def long_record (name : List Nat) (seq_byte q checksum : Nat) : List Nat :=
  let u := fun k => [lfn_unit name (13 * (q - 1) + k), lfn_high name (13 * (q - 1) + k)]
  [seq_byte] ++ u 0 ++ u 1 ++ u 2 ++ u 3 ++ u 4 ++ [0x0f, 0, checksum] ++
  u 5 ++ u 6 ++ u 7 ++ u 8 ++ u 9 ++ u 10 ++ [0, 0] ++ u 11 ++ u 12

/-- The records `q, q - 1, ..., 1` of a name in storage order; the record with
the highest sequence number carries the flag `0x40`. -/
def lfn_run_from (name : List Nat) (checksum : Nat) : Nat → List Nat
  | 0 => []
  | q + 1 =>
    long_record name (if q + 1 = lfn_count name then (q + 1) ||| 0x40 else q + 1) (q + 1) checksum
      ++ lfn_run_from name checksum q

/-- The well-formed long-form run of a name: descending sequence order. -/
def lfn_run (name : List Nat) (checksum : Nat) : List Nat :=
  lfn_run_from name checksum (lfn_count name)

/-- A list without its trailing spaces. -/
def strip_spaces (l : List Nat) : List Nat := (l.reverse.dropWhile (fun c => c = 32)).reverse

/-- The 8.3 name of a short-form record: the name field without its trailing
spaces, followed by a dot and the extension field without its trailing spaces
when the extension is not blank. -/
def name83 (record : List Nat) : List Nat :=
  let n := strip_spaces (record.take 8)
  let e := strip_spaces ((record.drop 8).take 3)
  if e = [] then n else n ++ 46 :: e

/-- A geometry whose cluster 2 starts at byte 0 of the image. -/
def geom (cluster_size : Nat) : Geometry := ⟨0, cluster_size, 2⟩

/-- An image of two clusters of 96 bytes.  Cluster 2, the root: directory
`DIR` (cluster 3) and file `FILE.TXT` (cluster 5, 1234 bytes).  Cluster 3:
file `A.TXT` (cluster 9, 4321 bytes) and directory `SUB` (cluster 4). -/
def tree_disk : List Nat :=
  short_record "DIR" "" 0x10 0 3 0 ++ short_record "FILE" "TXT" 0x20 0 5 1234 ++ term_record ++
  (short_record "A" "TXT" 0x20 0 9 4321 ++ short_record "SUB" "" 0x10 0 4 0 ++ term_record)

/-- A directory cluster of 96 bytes: files `FOO.TXT` (cluster 5) and `FOO.BAR`
(cluster 6), then the terminating record. -/
def foo_dir : List Nat :=
  short_record "FOO" "TXT" 0x20 0 5 1234 ++ short_record "FOO" "BAR" 0x20 0 6 99 ++ term_record

/-- A directory cluster of 96 bytes: files `FOO.TXT` (cluster 5) and `OO.BAR`
(cluster 6), then the terminating record. -/
def oo_dir : List Nat :=
  short_record "FOO" "TXT" 0x20 0 5 1234 ++ short_record "OO" "BAR" 0x20 0 6 99 ++ term_record

/-- A directory cluster of 64 bytes: the empty file `EMPTY.TXT`, which FAT32
stores with start cluster 0 and size 0, then the terminating record. -/
def empty_file_dir : List Nat :=
  short_record "EMPTY" "TXT" 0x20 0 0 0 ++ term_record

/-- A directory cluster of 96 bytes: the directory with the 11-character long
name `my_pictures` (one long-form record, then the short-form record
`MY_PIC~1`, cluster 9), then the terminating record. -/
def pictures_dir : List Nat :=
  lfn_run (bytes "my_pictures") 0 ++ short_record "MY_PIC~1" "" 0x10 0 9 0 ++ term_record

/-- A directory cluster of 128 bytes: the file with long name
`longfilename.txt` (two long-form records) and short alias `LONGFI~1.TXT`
(cluster 7, 4321 bytes), then the terminating record. -/
def longname_dir : List Nat :=
  lfn_run (bytes "longfilename.txt") 0 ++ short_record "LONGFI~1" "TXT" 0x20 0 7 4321 ++
    term_record

/-- A directory cluster made only of short-form records, live or deleted
(first byte not 0, attribute not `0x0f`), followed by a terminating record
(first byte 0), all inside the cluster. -/
def short_only_dir (buf : List Nat) : Prop :=
  ∃ n, n < buf.length ∧ 32 * n + 32 ≤ buf.length ∧ buf[32 * n]? = some 0 ∧
    ∀ k, k < n → buf[32 * k]? ≠ some 0 ∧ buf[32 * k + 11]? ≠ some 0x0f

instance (buf : List Nat) : Decidable (short_only_dir buf) := by
  unfold short_only_dir
  infer_instance

/-- ASCII upper-casing of a byte: the token with every ASCII letter
upper-cased is the token mapped by this function. -/
def ascii_upper (c : Nat) : Nat := if 97 ≤ c ∧ c ≤ 122 then c - 32 else c

/-- ASCII lower-casing of a byte. -/
def ascii_lower (c : Nat) : Nat := if 65 ≤ c ∧ c ≤ 90 then c + 32 else c

/-- A change of letter case of the token bytes, as far as the scan can tell:
`toupper` does not see it, and it neither makes nor removes a dot, a NUL or a
slash. -/
def case_change (f : Nat → Nat) : Prop :=
  (∀ c, toupper (char_val (f c)) = toupper (char_val c)) ∧ (∀ c, f c = 46 ↔ c = 46) ∧
    (∀ c, f c = 0 ↔ c = 0) ∧ (∀ c, f c = 47 ↔ c = 47)

/-- The token of a step outcome with `f` applied to its bytes. -/
def Step.map_token (f : Nat → Nat) : Step → Step
  | Step.done r => Step.done r
  | Step.next pos token => Step.next pos (token.map f)
  | Step.stop => Step.stop

/-- Offset, in a long-form record, of the low byte of its code unit `k`
(0 to 12): five units in `name_1_5`, six in `name_6_11`, two in `name_12_13`. -/
def lfn_slot (k : Nat) : Nat :=
  if k < 5 then NAME_1_5 + 2 * k
  else if k < 11 then NAME_6_11 + 2 * (k - 5)
  else NAME_12_13 + 2 * (k - 11)

/-- The cluster holds at offset `pos` a well-formed long-form run of `name`:
`ceil(length / 13)` records with attribute `0x0f`, sequence numbers descending
to 1, the first one flagged `0x40`, the code units of the name in order,
null-terminated and then padded with `0xffff`. -/
def long_run_at (buf : List Nat) (pos : Nat) (name : List Nat) : Prop :=
  buf[pos]? = some (lfn_count name ||| 0x40) ∧
  ∀ j, j < lfn_count name →
    buf[pos + 32 * j + 11]? = some 0x0f ∧
    (0 < j → buf[pos + 32 * j]? = some (lfn_count name - j)) ∧
    ∀ k, k < 13 →
      buf[pos + 32 * j + lfn_slot k]?
        = some (lfn_unit name (13 * (lfn_count name - 1 - j) + k)) ∧
      buf[pos + 32 * j + lfn_slot k + 1]?
        = some (lfn_high name (13 * (lfn_count name - 1 - j) + k))

instance (buf : List Nat) (pos : Nat) (name : List Nat) : Decidable (long_run_at buf pos name) := by
  unfold long_run_at
  infer_instance

/-- The state of the scan of a call with `token` after `k` iterations from the
start of the cluster, when none of them returned or ended the loop: the offset
of `buff_ptr` and the view at the `token` pointer (which the short-form branch
may have advanced) at the start of iteration `k`. -/
def scan_at (buf token : List Nat) : Nat → Option (Nat × List Nat)
  | 0 => some (0, token)
  | k + 1 =>
    match scan_at buf token k with
    | none => none
    | some (p, t) =>
      match scan_step buf t p with
      | .ok (Step.next p1 t1) => some (p1, t1)
      | _ => none

/-- The cluster `i` steps along the chain from `s`, as long as the walk of
`main` is still running there: `none` once the chain has reached `0xfffffff`
or left the FAT. -/
def chain_at (fat : List Nat) : Nat → Nat → Option Nat
  | 0, s => if s = END_OF_CHAIN then none else some s
  | i + 1, s =>
    if s = END_OF_CHAIN then none
    else
      match fat[s]? with
      | none => none
      | some c => chain_at fat i c

/-- The first record of the cluster with first byte 0 is the record `n`, and
the records before it are deleted records or live short-form records. -/
def terminated_at (buf : List Nat) (n : Nat) : Prop :=
  buf[32 * n]? = some 0 ∧
  ∀ k, k < n → buf[32 * k]? ≠ some 0 ∧
    (buf[32 * k]? = some 0xe5 ∨ buf[32 * k + 11]? ≠ some 0x0f)

instance (buf : List Nat) (n : Nat) : Decidable (terminated_at buf n) := by
  unfold terminated_at
  infer_instance

/-- The non-empty pieces of a path split on `/`: every token up to its NUL. -/
def pieces (filepath : List Nat) : Exec (List (List Nat)) := do
  let toks ← path_tokens filepath
  return toks.map (fun t => t.takeWhile (fun c => c ≠ 0))

/-- A directory cluster of 96 bytes: the file with the 12-character long name
`document.txt` (one long-form record, then the short-form record
`DOCUME~1.TXT`, cluster 7, 4321 bytes), then the terminating record. -/
def document_dir : List Nat :=
  lfn_run (bytes "document.txt") 0 ++ short_record "DOCUME~1" "TXT" 0x20 0 7 4321 ++ term_record

/-- A directory cluster of 64 bytes that is full: the files `A.TXT` and
`B.TXT`, no terminating record (the directory goes on in another cluster). -/
def full_dir : List Nat :=
  short_record "A" "TXT" 0x20 0 5 10 ++ short_record "B" "TXT" 0x20 0 6 20

/-- A directory cluster of 64 bytes whose first record is a long-form record
with sequence byte `0x43` (three records announced), followed by a
terminating record. -/
def overrun_dir : List Nat :=
  long_record (bytes "abc") 0x43 1 0 ++ term_record

/-- The first 90 bytes of a boot sector: 512-byte sectors, 8 sectors per
cluster, 32 reserved sectors, 4 FAT copies of 2097152 sectors each (the FAT of
a volume with the largest cluster count), root directory in cluster 2. -/
def boot_image : List Nat :=
  List.replicate 11 0 ++ [0x00, 0x02, 8, 32, 0, 4] ++ List.replicate 19 0 ++
  [0x00, 0x00, 0x20, 0x00, 0, 0, 0, 0, 2, 0, 0, 0] ++ List.replicate 42 0

/-- A directory cluster of 128 bytes with the bytes of `foo_dir` up to the
first byte of its terminating record, and other bytes after it: the rest of
the third record is not zero, and a fourth record `ZZ.TXT` follows. -/
def foo_dir_junk : List Nat :=
  foo_dir.take 65 ++ List.replicate 31 0x41 ++ short_record "ZZ" "TXT" 0x20 0 8 7

/-- The only faults of a run are reads outside the path string: every read of
the cluster buffer lies inside it and no unassigned variable is read. -/
def only_token_faults {α : Type} (x : Exec α) : Prop :=
  ∀ e, x = Exec.fault e → e = Fault.token_oob

/-- The records that the scan can visit from `pos` lie inside the buffer: the
scan positions are followed (they do not depend on the token) until a record
with first byte 0; every live record is whole, and every long-form record
announces at least one record and no more than fit, with the short-form
record after them, in the buffer. -/
def scan_bounded (buf : List Nat) : Nat → Nat → Bool
  | 0, _ => false
  | n + 1, pos =>
    match buf[pos]? with
    | none => false
    | some b0 =>
      if b0 = 0 then true
      else if b0 = 0xe5 then scan_bounded buf n (pos + 32)
      else if pos + 32 ≤ buf.length then
        if buf[pos + 11]? = some 0x0f then
          decide (1 ≤ b0 &&& 0x1f) && decide (pos + (b0 &&& 0x1f) * 32 + 32 ≤ buf.length)
            && scan_bounded buf n (pos + (b0 &&& 0x1f) * 32 + 32)
        else scan_bounded buf n (pos + 32)
      else false

/-- The directory clusters that the loop of `get_file_start_cluster` hands to
`get_entry_start_cluster`: the values of `cur_cluster` at the successive calls
of line 284, in order.  The recursion is the one of `get_file_loop`. -/
def scanned_from (disk : List Nat) (g : Geometry) :
    Nat → Option (List Nat × List Nat) → Nat → Nat → List Nat
  | _, none, _, _ => []
  | 0, some _, _, _ => []
  | n + 1, some (token, saved), cur_cluster, size =>
    cur_cluster ::
      match get_entry_start_cluster disk g token cur_cluster size with
      | .fault _ => []
      | .ok r =>
        if r.ret = -1 then []
        else
          match strtok saved with
          | .fault _ => []
          | .ok next =>
            if (next = none ∧ r.ret = DIRECTORY_ENTRY) ∨ (next ≠ none ∧ r.ret = FILE_ENTRY) then []
            else scanned_from disk g n next r.cur_cluster r.size

/-- The directory clusters that the resolution of a path scans. -/
def scanned_clusters (disk : List Nat) (g : Geometry) (filepath : List Nat) (size0 : Nat) :
    List Nat :=
  match strtok filepath with
  | .fault _ => []
  | .ok first => scanned_from disk g filepath.length first g.root_rep size0

/-- An image of three clusters of 96 bytes.  Cluster 2, the root: directory
`DIR` (cluster 3) and file `FOO.TXT` (cluster 4, 96 bytes).  Cluster 3: file
`FILE.TXT` (cluster 4, 96 bytes).  Cluster 4: file data, 96 bytes `0xff`. -/
def data_disk : List Nat :=
  short_record "DIR" "" 0x10 0 3 0 ++ short_record "FOO" "TXT" 0x20 0 4 96 ++ term_record ++
  (short_record "FILE" "TXT" 0x20 0 4 96 ++ term_record ++ term_record) ++
  List.replicate 96 0xff

/-- A directory cluster of 160 bytes: the file `README.TXT` (cluster 5), then
the file with long name `readme.markdown` (two long-form records) and short
alias `README~1.MAR` (cluster 6, 77 bytes), then the terminating record. -/
def readme_dir : List Nat :=
  short_record "README" "TXT" 0x20 0 5 10 ++
  (lfn_run (bytes "readme.markdown") 0 ++ short_record "README~1" "MAR" 0x20 0 6 77) ++
  term_record

/-- A directory cluster of 160 bytes: the file `NOTES.TXT` (cluster 5), then
the pair of `readme_dir`, then the terminating record. -/
def notes_dir : List Nat :=
  short_record "NOTES" "TXT" 0x20 0 5 10 ++
  (lfn_run (bytes "readme.markdown") 0 ++ short_record "README~1" "MAR" 0x20 0 6 77) ++
  term_record

/-! ## Theorems -/

@[simp] theorem Exec.ok_bind {α β : Type} (a : α) (f : α → Exec β) :
    (Exec.ok a >>= f) = f a := rfl

@[simp] theorem Exec.fault_bind {α β : Type} (e : Fault) (f : α → Exec β) :
    (Exec.fault e >>= f) = Exec.fault e := rfl

@[simp] theorem Exec.pure_eq {α : Type} (a : α) : (pure a : Exec α) = Exec.ok a := rfl

theorem rd_of_getElem? {e : Fault} {l : List Nat} {i v : Nat} (h : l[i]? = some v) :
    rd e l i = .ok v := by
  simp [rd, h]

theorem rd_drop (e : Fault) (l : List Nat) (k i : Nat) :
    rd e (l.drop k) i = rd e l (k + i) := by
  simp [rd, List.getElem?_drop]

/-! ### Paths without a component (C9) -/

theorem dropWhile_slashes (k : Nat) (l : List Nat) :
    (List.replicate k 47 ++ l).dropWhile (fun c => c = 47) = l.dropWhile (fun c => c = 47) := by
  induction k with
  | zero => simp
  | succ k ih => simp [List.replicate_succ, List.dropWhile_cons, ih]

theorem strtok_slashes (k : Nat) (rest : List Nat) :
    strtok (List.replicate k 47 ++ 0 :: rest) = .ok none := by
  simp [strtok, dropWhile_slashes, List.dropWhile_cons]

theorem get_file_loop_none (disk : List Nat) (g : Geometry) (fs0 n c s : Nat) :
    get_file_loop disk g fs0 n none c s = .ok (c, s) := by
  cases n <;> rfl

/-- C9: for a path buffer made only of `/` characters before its terminating
NUL (the empty string, `/`, `//`, ...), whatever the disk image and the
geometry, `get_file_start_cluster` returns `root_rep`; no directory is read,
and `*ret_file_size` receives the never-assigned local `size`. -/
theorem root_path_returns_root_rep (disk : List Nat) (g : Geometry) (k : Nat)
    (rest : List Nat) (size0 fs0 : Nat) :
    get_file_start_cluster disk g (List.replicate k 47 ++ 0 :: rest) size0 fs0
      = .ok (g.root_rep, size0) := by
  simp [get_file_start_cluster, strtok_slashes, get_file_loop_none]

/-! ### The cluster walk (C10) -/

theorem cluster_walk_chain (fat : List Nat) :
    ∀ (k s nb : Nat), s ≠ END_OF_CHAIN → follow fat k s = some END_OF_CHAIN →
      ∃ emitted : List Nat,
        (∀ fuel, k + 1 ≤ fuel →
          cluster_walk fat fuel s nb = some (.ok (emitted, nb + emitted.length))) ∧
        emitted.head? = some s ∧
        (∀ i c, emitted[i]? = some c → i + 1 < emitted.length → fat[c]? = emitted[i + 1]?) ∧
        END_OF_CHAIN ∉ emitted ∧
        (∃ last, emitted.getLast? = some last ∧ fat[last]? = some END_OF_CHAIN) ∧
        (fat[s]? = some END_OF_CHAIN → emitted = [s]) := by
  intro k
  induction k with
  | zero =>
    intro s nb hs hk
    simp [follow] at hk
    exact absurd hk hs
  | succ k ih =>
    intro s nb hs hk
    cases hfs : fat[s]? with
    | none => simp [follow, hfs] at hk
    | some c =>
      simp only [follow, hfs] at hk
      by_cases hc : c = END_OF_CHAIN
      · subst hc
        refine ⟨[s], ?_, rfl, ?_, ?_, ⟨s, rfl, hfs⟩, fun _ => rfl⟩
        · intro fuel hfuel
          obtain ⟨f1, rfl⟩ : ∃ f1, fuel = f1 + 1 := ⟨fuel - 1, by omega⟩
          obtain ⟨f2, rfl⟩ : ∃ f2, f1 = f2 + 1 := ⟨f1 - 1, by omega⟩
          simp [cluster_walk, hs, hfs]
        · intro i c hi hlt
          simp at hlt
        · simpa using Ne.symm hs
      · obtain ⟨em, hwalk, hhead, hchain, hnot, hlast, _⟩ := ih c (nb + 1) hc hk
        have hne : em ≠ [] := by
          intro h
          simp [h] at hhead
        refine ⟨s :: em, ?_, rfl, ?_, ?_, ?_, ?_⟩
        · intro fuel hfuel
          obtain ⟨f1, rfl⟩ : ∃ f1, fuel = f1 + 1 := ⟨fuel - 1, by omega⟩
          have h1 := hwalk f1 (by omega)
          simp only [cluster_walk, hs, hfs, h1, ne_eq, not_false_eq_true, if_true]
          simp
          omega
        · intro i d hi hlt
          cases i with
          | zero =>
            simp at hi
            subst hi
            cases em with
            | nil => exact absurd rfl hne
            | cons e es =>
              simp at hhead
              simp [hfs, hhead]
          | succ j =>
            simp at hi hlt
            simpa using hchain j d hi (by omega)
        · simp only [List.mem_cons, not_or]
          exact ⟨Ne.symm hs, hnot⟩
        · obtain ⟨last, hl, hfl⟩ := hlast
          refine ⟨last, ?_, hfl⟩
          cases em with
          | nil => exact absurd rfl hne
          | cons e es => simpa [List.getLast?_cons_cons] using hl
        · intro h
          exact absurd (Option.some.inj h) hc

/-- C10: for every FAT and every start cluster `s` other than `0xfffffff` from
which following FAT links reaches `0xfffffff`, the walk of `main`, given enough
iterations, ends with a list of printed clusters that starts with `s`, in which
every next cluster is the FAT entry of the one before, that does not contain
`0xfffffff`, whose last cluster has the FAT entry `0xfffffff`, and with a
counter equal to the number of clusters printed; when the FAT entry of `s` is
`0xfffffff` the list is exactly `[s]` (and the counter 1). -/
theorem cluster_walk_follows_chain (fat : List Nat) (s k : Nat) (hs : s ≠ END_OF_CHAIN)
    (hk : follow fat k s = some END_OF_CHAIN) :
    ∃ emitted : List Nat,
      (∃ n, ∀ fuel, n ≤ fuel →
        cluster_walk fat fuel s 0 = some (.ok (emitted, emitted.length))) ∧
      emitted.head? = some s ∧
      (∀ i c, emitted[i]? = some c → i + 1 < emitted.length → fat[c]? = emitted[i + 1]?) ∧
      END_OF_CHAIN ∉ emitted ∧
      (∃ last, emitted.getLast? = some last ∧ fat[last]? = some END_OF_CHAIN) ∧
      (fat[s]? = some END_OF_CHAIN → emitted = [s]) := by
  obtain ⟨em, hwalk, h2, h3, h4, h5, h6⟩ := cluster_walk_chain fat k s 0 hs hk
  refine ⟨em, ⟨k + 1, fun fuel hf => ?_⟩, h2, h3, h4, h5, h6⟩
  simpa using hwalk fuel hf

/-! ### The scan either finds a record or leaves the out-parameters alone -/

theorem Exec.bind_eq_ok {α β : Type} (x : Exec α) (f : α → Exec β) (b : β) :
    (x >>= f) = Exec.ok b ↔ ∃ a, x = Exec.ok a ∧ f a = Exec.ok b := by
  cases x <;> simp

theorem rd_eq_ok {e : Fault} {l : List Nat} {i v : Nat} :
    rd e l i = .ok v ↔ l[i]? = some v := by
  unfold rd
  cases l[i]? <;> simp

/-- The record fields read by a successful exit. -/
theorem entry_result_ok {buf : List Nat} {off : Nat} {r : EntryResult}
    (h : entry_result buf off = .ok r) :
    ∃ h0 h1 l0 l1 s0 s1 s2 s3 flags,
      buf[off + 20]? = some h0 ∧ buf[off + 21]? = some h1 ∧
      buf[off + 26]? = some l0 ∧ buf[off + 27]? = some l1 ∧
      buf[off + 28]? = some s0 ∧ buf[off + 29]? = some s1 ∧
      buf[off + 30]? = some s2 ∧ buf[off + 31]? = some s3 ∧
      buf[off + 11]? = some flags ∧
      r = ⟨if IS_DIRECTORY flags ≠ 0 then DIRECTORY_ENTRY else FILE_ENTRY,
        GET_CLUSTER (h0 + 256 * h1) (l0 + 256 * l1),
        s0 + 256 * s1 + 65536 * s2 + 16777216 * s3⟩ := by
  simp only [entry_result, rd16, rd32, Exec.bind_eq_ok, Exec.pure_eq, rd_eq_ok,
    DIR_ENTRY_ATTR, Exec.ok.injEq] at h
  obtain ⟨_, ⟨h0, hh0, h1, hh1, rfl⟩, _, ⟨l0, hl0, l1, hl1, rfl⟩, _,
    ⟨s0, hs0, s1, hs1, s2, hs2, s3, hs3, rfl⟩, fl, hfl, rfl⟩ := h
  exact ⟨h0, h1, l0, l1, s0, s1, s2, s3, fl, hh0, hh1, hl0, hl1, hs0, hs1, hs2, hs3, hfl, rfl⟩

theorem entry_result_ret {buf : List Nat} {off : Nat} {r : EntryResult}
    (h : entry_result buf off = .ok r) : r.ret = DIRECTORY_ENTRY ∨ r.ret = FILE_ENTRY := by
  obtain ⟨h0, h1, l0, l1, s0, s1, s2, s3, fl, -, -, -, -, -, -, -, -, -, rfl⟩ :=
    entry_result_ok h
  by_cases hd : IS_DIRECTORY fl = 0 <;> simp [hd]

theorem entry_result_ret_ne {buf : List Nat} {off : Nat} {r : EntryResult}
    (h : entry_result buf off = .ok r) : r.ret ≠ -1 := by
  rcases entry_result_ret h with h1 | h1 <;> rw [h1] <;> decide

theorem long_branch_done {buf token : List Nat} {pos b0 : Nat} {r : EntryResult}
    (h : long_branch buf token pos b0 = .ok (Step.done r)) :
    ∃ off, entry_result buf off = .ok r := by
  simp only [long_branch, Exec.bind_eq_ok] at h
  obtain ⟨⟨ret, tok_pos⟩, -, h⟩ := h
  by_cases hr : ret = -1
  · simp [hr] at h
  · simp only [hr, ne_eq, not_false_eq_true, if_true, Exec.bind_eq_ok] at h
    obtain ⟨c, -, h⟩ := h
    by_cases hc : c = 0
    · simp only [hc, if_true, Exec.bind_eq_ok, Exec.pure_eq, Exec.ok.injEq, Step.done.injEq] at h
      obtain ⟨r1, h1, rfl⟩ := h
      exact ⟨_, h1⟩
    · simp [hc] at h

theorem short_branch_done {buf token : List Nat} {pos : Nat} {r : EntryResult}
    (h : short_branch buf token pos = .ok (Step.done r)) :
    ∃ off, entry_result buf off = .ok r := by
  simp only [short_branch, Exec.bind_eq_ok] at h
  obtain ⟨ret, -, h⟩ := h
  by_cases hr : ret = -1
  · simp [hr] at h
  · simp only [hr, ne_eq, not_false_eq_true, if_true, Exec.bind_eq_ok] at h
    obtain ⟨c, -, ret2, -, h⟩ := h
    by_cases hr2 : ret2 = -1
    · simp [hr2] at h
    · simp only [hr2, not_false_eq_true, if_true, Exec.bind_eq_ok, Exec.pure_eq, Exec.ok.injEq,
        Step.done.injEq] at h
      obtain ⟨r1, h1, rfl⟩ := h
      exact ⟨_, h1⟩

theorem scan_step_done {buf token : List Nat} {pos : Nat} {r : EntryResult}
    (h : scan_step buf token pos = .ok (Step.done r)) :
    ∃ off, entry_result buf off = .ok r := by
  simp only [scan_step, Exec.bind_eq_ok] at h
  obtain ⟨b0, -, h⟩ := h
  by_cases hb : b0 = 0
  · simp [hb] at h
  · by_cases hd : b0 = 0xe5
    · simp [hd] at h
    · simp only [hb, hd, if_false, Exec.bind_eq_ok] at h
      obtain ⟨attr, -, h⟩ := h
      by_cases ha : attr = 0x0f
      · simp only [ha, if_true] at h
        exact long_branch_done h
      · simp only [ha, if_false] at h
        exact short_branch_done h

/-- Outcomes of the scan, independently of the contents of the out-parameters
at the call: a fault, no match (the out-parameters keep their contents), or the
fields of a record of the cluster. -/
theorem scan_entries_cases (buf : List Nat) :
    ∀ (n pos : Nat) (token : List Nat),
      (∃ e, ∀ c1 s1, scan_entries buf c1 s1 n pos token = .fault e) ∨
      (∀ c1 s1, scan_entries buf c1 s1 n pos token = .ok ⟨-1, c1, s1⟩) ∨
      (∃ r off, entry_result buf off = .ok r ∧
        ∀ c1 s1, scan_entries buf c1 s1 n pos token = .ok r) := by
  intro n
  induction n with
  | zero =>
    intro pos token
    exact Or.inl ⟨_, fun _ _ => rfl⟩
  | succ n ih =>
    intro pos token
    cases hstep : scan_step buf token pos with
    | fault e =>
      left
      exact ⟨e, fun c1 s1 => by simp [scan_entries, hstep]⟩
    | ok st =>
      cases st with
      | done r =>
        right; right
        obtain ⟨off, hoff⟩ := scan_step_done hstep
        exact ⟨r, off, hoff, fun c1 s1 => by simp [scan_entries, hstep]⟩
      | stop =>
        right; left
        intro c1 s1
        simp [scan_entries, hstep]
      | next pos1 token1 =>
        rcases ih pos1 token1 with ⟨e, h⟩ | h | ⟨r, off, hoff, h⟩
        · left
          exact ⟨e, fun c1 s1 => by simp [scan_entries, hstep, h]⟩
        · right; left
          intro c1 s1
          simp [scan_entries, hstep, h]
        · right; right
          exact ⟨r, off, hoff, fun c1 s1 => by simp [scan_entries, hstep, h]⟩

/-- Outcomes of `get_entry_start_cluster`: a fault, `-1` with the
out-parameters unchanged, or the fields of a record of the directory cluster;
the contents of `*size` at the call matter only in the second case. -/
theorem get_entry_cases (disk : List Nat) (g : Geometry) (token : List Nat) (cur : Nat) :
    (∃ e, ∀ s, get_entry_start_cluster disk g token cur s = .fault e) ∨
    (∀ s, get_entry_start_cluster disk g token cur s = .ok ⟨-1, cur, s⟩) ∨
    (∃ r buf off, read_cluster disk g cur = some buf ∧ entry_result buf off = .ok r ∧
      ∀ s, get_entry_start_cluster disk g token cur s = .ok r) := by
  cases hrd : read_cluster disk g cur with
  | none =>
    right; left
    intro s
    simp [get_entry_start_cluster, hrd]
  | some buf =>
    rcases scan_entries_cases buf (buf.length + 1) 0 token with ⟨e, h⟩ | h | ⟨r, off, hoff, h⟩
    · left
      exact ⟨e, fun s => by simp [get_entry_start_cluster, hrd, h]⟩
    · right; left
      intro s
      simp [get_entry_start_cluster, hrd, h]
    · right; right
      exact ⟨r, buf, off, rfl, hoff, fun s => by simp [get_entry_start_cluster, hrd, h]⟩

/-- A result other than `-1` does not depend on the contents of `*size` at the
call and is read from a record of the directory cluster. -/
theorem get_entry_found {disk : List Nat} {g : Geometry} {token : List Nat} {cur s : Nat}
    {r : EntryResult} (h : get_entry_start_cluster disk g token cur s = .ok r)
    (hr : r.ret ≠ -1) :
    (∃ buf off, read_cluster disk g cur = some buf ∧ entry_result buf off = .ok r) ∧
    ∀ s1, get_entry_start_cluster disk g token cur s1 = .ok r := by
  rcases get_entry_cases disk g token cur with ⟨e, h1⟩ | h1 | ⟨r1, buf, off, hb, hoff, h1⟩
  · rw [h1 s] at h
    cases h
  · rw [h1 s] at h
    cases h
    exact absurd rfl hr
  · rw [h1 s] at h
    cases h
    exact ⟨⟨buf, off, hb, hoff⟩, h1⟩

/-! ### The loop of `get_file_start_cluster` against the list recursion -/

theorem tokens_from_none (n : Nat) : tokens_from n none = .ok [] := by
  cases n <;> rfl

theorem tokens_from_some_ne_nil {n : Nat} {p : List Nat × List Nat} {toks : List (List Nat)}
    (h : tokens_from n (some p) = .ok toks) : toks ≠ [] := by
  cases n with
  | zero => cases h
  | succ n =>
    obtain ⟨token, saved⟩ := p
    simp only [tokens_from, Exec.bind_eq_ok, Exec.pure_eq, Exec.ok.injEq] at h
    obtain ⟨_, _, _, _, rfl⟩ := h
    simp

theorem get_file_loop_eq (disk : List Nat) (g : Geometry) (fs0 : Nat) :
    ∀ (n : Nat) (p : Option (List Nat × List Nat)) (toks : List (List Nat)) (cur size : Nat),
      tokens_from n p = .ok toks →
      get_file_loop disk g fs0 n p cur size = resolve_tokens disk g fs0 toks cur size := by
  intro n
  induction n with
  | zero =>
    intro p toks cur size h
    cases p with
    | none =>
      cases h
      rfl
    | some p => cases h
  | succ n ih =>
    intro p toks cur size h
    cases p with
    | none =>
      cases h
      rfl
    | some p =>
      obtain ⟨token, saved⟩ := p
      simp only [tokens_from, Exec.bind_eq_ok, Exec.pure_eq, Exec.ok.injEq] at h
      obtain ⟨next, hnext, rest, hrest, rfl⟩ := h
      have hnil : next = none ↔ rest = [] := by
        cases next with
        | none =>
          rw [tokens_from_none] at hrest
          cases hrest
          simp
        | some q => simpa using tokens_from_some_ne_nil hrest
      simp only [get_file_loop, resolve_tokens, hnext, Exec.ok_bind, Exec.pure_eq, ne_eq, hnil]
      cases get_entry_start_cluster disk g token cur size with
      | fault e => rfl
      | ok r =>
        simp only [Exec.ok_bind]
        by_cases h1 : r.ret = -1
        · simp [h1]
        · simp only [h1, if_false]
          split
          · rfl
          · exact ih next rest _ _ hrest

theorem get_file_start_cluster_eq {disk : List Nat} {g : Geometry} {filepath : List Nat}
    {toks : List (List Nat)} (size0 fs0 : Nat) (h : path_tokens filepath = .ok toks) :
    get_file_start_cluster disk g filepath size0 fs0
      = resolve_tokens disk g fs0 toks g.root_rep size0 := by
  simp only [path_tokens, Exec.bind_eq_ok] at h
  obtain ⟨first, hfirst, h⟩ := h
  simp only [get_file_start_cluster, hfirst, Exec.ok_bind]
  exact get_file_loop_eq disk g fs0 _ _ _ _ _ h

theorem resolve_descend (disk : List Nat) (g : Geometry) (fs0 : Nat) :
    ∀ (pre : List (List Nat)) (cur size d : Nat), descend disk g pre cur = some d →
      ∀ rest, rest ≠ [] →
        ∃ size1, resolve_tokens disk g fs0 (pre ++ rest) cur size
          = resolve_tokens disk g fs0 rest d size1 := by
  intro pre
  induction pre with
  | nil =>
    intro cur size d h rest _
    simp only [descend, Option.some.injEq] at h
    subst h
    exact ⟨size, rfl⟩
  | cons t ts ih =>
    intro cur size d h rest hrest
    simp only [descend] at h
    cases hg : get_entry_start_cluster disk g t cur 0 with
    | fault e => simp [hg] at h
    | ok r =>
      simp only [hg] at h
      by_cases hr : r.ret = DIRECTORY_ENTRY
      · simp only [hr, if_true] at h
        have hne : r.ret ≠ -1 := by rw [hr]; decide
        have hg1 := (get_entry_found hg hne).2 size
        obtain ⟨size1, h1⟩ := ih r.cur_cluster r.size d h rest hrest
        refine ⟨size1, ?_⟩
        have hf : ¬ (r.ret = FILE_ENTRY) := by rw [hr]; decide
        have hne2 : ts ++ rest ≠ [] := by simp [hrest]
        rw [← h1]
        simp only [List.cons_append, resolve_tokens, hg1, Exec.ok_bind, hne, if_false,
          hne2, false_and, hf, and_false, or_self, List.append_eq]
      · simp [hr] at h

theorem read_cluster_mem {disk : List Nat} {g : Geometry} {c : Nat} {buf : List Nat}
    (h : read_cluster disk g c = some buf) : ∀ v ∈ buf, v ∈ disk := by
  unfold read_cluster at h
  simp only at h
  split at h
  · cases h
  · split at h
    · cases h
    · split at h
      · cases h
        intro v hv
        exact List.mem_of_mem_drop (List.mem_of_mem_take hv)
      · cases h

theorem get_cluster_of_bytes {h0 h1 l0 l1 : Nat} (a : h0 < 256) (b : h1 < 256) (c : l0 < 256)
    (d : l1 < 256) :
    GET_CLUSTER (h0 + 256 * h1) (l0 + 256 * l1) = (h0 + 256 * h1) * 65536 + (l0 + 256 * l1) := by
  unfold GET_CLUSTER
  rw [Nat.shiftLeft_eq]
  omega

/-! ### Kind mismatches (C6) and the resolved file (C7) -/

/-- C6: when the components before `t` all match directory entries and `t`
matches an entry that is a file although components remain, or `t` is the last
component and matches an entry that is a directory, `get_file_start_cluster`
returns 0 and leaves `*ret_file_size` alone.  Nothing is assumed about the
remaining components or the clusters they would lead to: no further directory
is scanned.  The kind is the bit 4 of the attribute byte of a record of the
directory cluster. -/
theorem wrong_kind_returns_zero (disk : List Nat) (g : Geometry) (filepath : List Nat)
    (size0 fs0 : Nat) (pre : List (List Nat)) (t : List Nat) (post : List (List Nat))
    (d : Nat) (r : EntryResult)
    (htok : path_tokens filepath = .ok (pre ++ t :: post))
    (hdir : descend disk g pre g.root_rep = some d)
    (hent : get_entry_start_cluster disk g t d 0 = .ok r)
    (hkind : (post ≠ [] ∧ r.ret = FILE_ENTRY) ∨ (post = [] ∧ r.ret = DIRECTORY_ENTRY)) :
    get_file_start_cluster disk g filepath size0 fs0 = .ok (0, fs0) ∧
    ∃ buf off flags, read_cluster disk g d = some buf ∧ buf[off + 11]? = some flags ∧
      (r.ret = FILE_ENTRY ↔ IS_DIRECTORY flags = 0) ∧
      (r.ret = DIRECTORY_ENTRY ↔ IS_DIRECTORY flags ≠ 0) := by
  have hne : r.ret ≠ -1 := by
    rcases hkind with ⟨_, h⟩ | ⟨_, h⟩ <;> rw [h] <;> decide
  obtain ⟨⟨buf, off, hbuf, hres⟩, hall⟩ := get_entry_found hent hne
  constructor
  · rw [get_file_start_cluster_eq size0 fs0 htok]
    obtain ⟨size1, h1⟩ := resolve_descend disk g fs0 pre g.root_rep size0 d hdir (t :: post)
      (by simp)
    rw [h1]
    simp only [resolve_tokens, hall size1, Exec.ok_bind, hne, if_false]
    rcases hkind with ⟨hp, h⟩ | ⟨hp, h⟩
    · simp [hp, h]
    · simp [hp, h]
  · obtain ⟨h0, h1, l0, l1, s0, s1, s2, s3, fl, -, -, -, -, -, -, -, -, hfl, rfl⟩ :=
      entry_result_ok hres
    refine ⟨buf, off, fl, hbuf, hfl, ?_, ?_⟩
    · by_cases hd : IS_DIRECTORY fl = 0 <;> simp [hd, FILE_ENTRY, DIRECTORY_ENTRY]
    · by_cases hd : IS_DIRECTORY fl = 0 <;> simp [hd, FILE_ENTRY, DIRECTORY_ENTRY]

/-- C7: when the components before the last one all match directory entries,
starting from the root directory cluster, and the last component matches a file
entry `r` in the directory cluster `d` reached, `get_file_start_cluster`
returns the start cluster of `r` and stores the size of `r` in
`*ret_file_size`, whatever the sizes met on the way and the earlier contents of
the two variables; the cluster is `high * 65536 + low` for the two 16-bit
halves of a record of the cluster `d`, and the size is the 32-bit field of that
record. -/
theorem resolved_file_cluster_and_size (disk : List Nat) (g : Geometry) (filepath : List Nat)
    (size0 fs0 : Nat) (pre : List (List Nat)) (t : List Nat) (d : Nat) (r : EntryResult)
    (hbytes : ∀ b ∈ disk, b < 256)
    (htok : path_tokens filepath = .ok (pre ++ [t]))
    (hdir : descend disk g pre g.root_rep = some d)
    (hent : get_entry_start_cluster disk g t d 0 = .ok r)
    (hkind : r.ret = FILE_ENTRY) :
    get_file_start_cluster disk g filepath size0 fs0 = .ok (r.cur_cluster, r.size) ∧
    ∃ buf off high low, read_cluster disk g d = some buf ∧
      rd16 buf (off + 20) = .ok high ∧ rd16 buf (off + 26) = .ok low ∧
      rd32 buf (off + 28) = .ok r.size ∧ high < 65536 ∧ low < 65536 ∧
      r.cur_cluster = high * 65536 + low := by
  have hne : r.ret ≠ -1 := by rw [hkind]; decide
  obtain ⟨⟨buf, off, hbuf, hres⟩, hall⟩ := get_entry_found hent hne
  constructor
  · rw [get_file_start_cluster_eq size0 fs0 htok]
    obtain ⟨size1, h1⟩ := resolve_descend disk g fs0 pre g.root_rep size0 d hdir [t] (by simp)
    rw [h1]
    simp [resolve_tokens, hall size1, hne, hkind, FILE_ENTRY, DIRECTORY_ENTRY]
  · obtain ⟨h0, h1, l0, l1, s0, s1, s2, s3, fl, a0, a1, a2, a3, a4, a5, a6, a7, -, rfl⟩ :=
      entry_result_ok hres
    have hb : ∀ {i v : Nat}, buf[i]? = some v → v < 256 := fun {i v} hv =>
      hbytes v (read_cluster_mem hbuf v (List.getElem?_mem hv))
    have b0 := hb a0
    have b1 := hb a1
    have b2 := hb a2
    have b3 := hb a3
    refine ⟨buf, off, h0 + 256 * h1, l0 + 256 * l1, hbuf, ?_, ?_, ?_, by omega, by omega,
      get_cluster_of_bytes b0 b1 b2 b3⟩
    · simp [rd16, rd_of_getElem? a0, rd_of_getElem? a1]
    · simp [rd16, rd_of_getElem? a2, rd_of_getElem? a3]
    · simp [rd32, rd_of_getElem? a4, rd_of_getElem? a5, rd_of_getElem? a6, rd_of_getElem? a7]

/-- Witness of `wrong_kind_returns_zero`: in `tree_disk`, the path
`/FILE.TXT/x` names a file where a directory is needed. -/
theorem wrong_kind_returns_zero_witness :
    (path_tokens (cstr "/FILE.TXT/x")
        = .ok ([] ++ (bytes "FILE.TXT" ++ 0 :: cstr "x") :: [cstr "x"]) ∧
      descend tree_disk (geom 96) [] (geom 96).root_rep = some 2 ∧
      get_entry_start_cluster tree_disk (geom 96) (bytes "FILE.TXT" ++ 0 :: cstr "x") 2 0
        = .ok ⟨1, 5, 1234⟩) ∧
    (get_file_start_cluster tree_disk (geom 96) (cstr "/FILE.TXT/x") 7 8 = .ok (0, 8) ∧
      ∃ buf off flags, read_cluster tree_disk (geom 96) 2 = some buf ∧
        buf[off + 11]? = some flags ∧
        ((⟨1, 5, 1234⟩ : EntryResult).ret = FILE_ENTRY ↔ IS_DIRECTORY flags = 0) ∧
        ((⟨1, 5, 1234⟩ : EntryResult).ret = DIRECTORY_ENTRY ↔ IS_DIRECTORY flags ≠ 0)) :=
  ⟨⟨by decide!, by decide!, by decide!⟩,
    wrong_kind_returns_zero tree_disk (geom 96) (cstr "/FILE.TXT/x") 7 8 []
      (bytes "FILE.TXT" ++ 0 :: cstr "x") [cstr "x"] 2 ⟨1, 5, 1234⟩
      (by decide!) (by decide!) (by decide!) (Or.inl ⟨by decide, by decide⟩)⟩

/-- Witness of `resolved_file_cluster_and_size`: in `tree_disk`, the path
`/DIR/A.TXT` resolves to cluster 9 and 4321 bytes. -/
theorem resolved_file_cluster_and_size_witness :
    ((∀ b ∈ tree_disk, b < 256) ∧
      path_tokens (cstr "/DIR/A.TXT")
        = .ok ([bytes "DIR" ++ 0 :: cstr "A.TXT"] ++ [cstr "A.TXT"]) ∧
      descend tree_disk (geom 96) [bytes "DIR" ++ 0 :: cstr "A.TXT"] (geom 96).root_rep
        = some 3 ∧
      get_entry_start_cluster tree_disk (geom 96) (cstr "A.TXT") 3 0 = .ok ⟨1, 9, 4321⟩) ∧
    (get_file_start_cluster tree_disk (geom 96) (cstr "/DIR/A.TXT") 7 8 = .ok (9, 4321) ∧
      ∃ buf off high low, read_cluster tree_disk (geom 96) 3 = some buf ∧
        rd16 buf (off + 20) = .ok high ∧ rd16 buf (off + 26) = .ok low ∧
        rd32 buf (off + 28) = .ok 4321 ∧ high < 65536 ∧ low < 65536 ∧
        9 = high * 65536 + low) :=
  ⟨⟨by decide!, by decide!, by decide!, by decide!⟩,
    resolved_file_cluster_and_size tree_disk (geom 96) (cstr "/DIR/A.TXT") 7 8
      [bytes "DIR" ++ 0 :: cstr "A.TXT"] (cstr "A.TXT") 3 ⟨1, 9, 4321⟩
      (by decide!) (by decide!) (by decide!) (by decide!) (by decide)⟩

/-- Witness of `cluster_walk_follows_chain`: the chain 2, 3, 4. -/
theorem cluster_walk_follows_chain_witness :
    (2 ≠ END_OF_CHAIN ∧ follow [0, 0, 3, 4, 0xfffffff] 3 2 = some END_OF_CHAIN) ∧
    ∃ emitted : List Nat,
      (∃ n, ∀ fuel, n ≤ fuel →
        cluster_walk [0, 0, 3, 4, 0xfffffff] fuel 2 0 = some (.ok (emitted, emitted.length))) ∧
      emitted.head? = some 2 ∧
      (∀ i c, emitted[i]? = some c → i + 1 < emitted.length →
        [0, 0, 3, 4, 0xfffffff][c]? = emitted[i + 1]?) ∧
      END_OF_CHAIN ∉ emitted ∧
      (∃ last, emitted.getLast? = some last ∧
        [0, 0, 3, 4, 0xfffffff][last]? = some END_OF_CHAIN) ∧
      ([0, 0, 3, 4, 0xfffffff][2]? = some END_OF_CHAIN → emitted = [2]) :=
  ⟨⟨by decide, by decide⟩,
    cluster_walk_follows_chain [0, 0, 3, 4, 0xfffffff] 2 3 (by decide) (by decide)⟩

/-! ### Concrete directories on which the source departs from the claims -/

/-- C1 (failing input): the directory `my_pictures` (11 characters) is stored
as a well-formed long-form run followed by its short-form record.  For the
token `my_pictures` followed in the path by `a.txt`, `long_form_cmp` returns 12
(it counts the terminator met in the last fragment), `token[12]` is `a` and
not NUL, the run is not matched and `get_entry_start_cluster` returns -1; for
the token as the last component, `token[12]` lies after the terminating NUL of
the path string. -/
theorem long_name_of_11_chars_not_found :
    long_form_cmp pictures_dir (bytes "my_pictures" ++ 0 :: cstr "a.txt") = .ok 12 ∧
    get_entry_start_cluster pictures_dir (geom 96) (bytes "my_pictures" ++ 0 :: cstr "a.txt") 2 0
      = .ok ⟨-1, 2, 0⟩ ∧
    get_file_start_cluster pictures_dir (geom 96) (cstr "/my_pictures/a.txt") 0 0 = .ok (0, 0) ∧
    get_entry_start_cluster pictures_dir (geom 96) (cstr "my_pictures") 2 0
      = .fault .token_oob := by
  decide!

/-- C2 (failing input): in `foo_dir` the second record matches the token
`FOO.BAR` under short-form matching, and the first does not; but the first
record matches the name part, the source advances `token` past the dot, the
second record is compared with `OO.BAR`, and `get_entry_start_cluster`
returns -1. -/
theorem second_record_missed_after_token_shift :
    short_branch (short_record "FOO" "BAR" 0x20 0 6 99) (cstr "FOO.BAR") 0
      = .ok (Step.done ⟨1, 6, 99⟩) ∧
    scan_step foo_dir (cstr "FOO.BAR") 0 = .ok (Step.next 32 (cstr "OO.BAR")) ∧
    get_entry_start_cluster foo_dir (geom 96) (cstr "FOO.BAR") 2 0 = .ok ⟨-1, 2, 0⟩ := by
  decide!

/-- C3 (failing input): in `oo_dir` the 8.3 names are `FOO.TXT` and `OO.BAR`;
for the token `FOO.BAR`, `get_entry_start_cluster` returns the record `OO.BAR`
and `get_file_start_cluster` returns its cluster 6. -/
theorem record_returned_for_other_name :
    name83 (short_record "FOO" "TXT" 0x20 0 5 1234) = bytes "FOO.TXT" ∧
    name83 (short_record "OO" "BAR" 0x20 0 6 99) = bytes "OO.BAR" ∧
    (bytes "FOO.BAR").map ascii_upper = bytes "FOO.BAR" ∧
    get_entry_start_cluster oo_dir (geom 96) (cstr "FOO.BAR") 2 0 = .ok ⟨1, 6, 99⟩ ∧
    get_file_start_cluster oo_dir (geom 96) (cstr "/FOO.BAR") 0 0 = .ok (6, 99) := by
  decide!

/-- C4 (counterexample): in `longname_dir` the long name `longfilename.txt`
resolves to cluster 7 and 4321 bytes, and the short alias `LONGFI~1.TXT` of the
same pair is not found: the scan skips the short-form record together with the
run. -/
theorem short_alias_not_found :
    get_entry_start_cluster longname_dir (geom 128) (cstr "longfilename.txt") 2 0
      = .ok ⟨1, 7, 4321⟩ ∧
    scan_step longname_dir (cstr "LONGFI~1.TXT") 0 = .ok (Step.next 96 (cstr "LONGFI~1.TXT")) ∧
    get_entry_start_cluster longname_dir (geom 128) (cstr "LONGFI~1.TXT") 2 0
      = .ok ⟨-1, 2, 0⟩ := by
  decide!

/-- C8 (failing input): the existing empty file `EMPTY.TXT` is matched as a file
entry with start cluster 0, `get_file_start_cluster` returns 0 and `main`
prints `File not found.`. -/
theorem empty_file_reported_not_found :
    get_entry_start_cluster empty_file_dir (geom 64) (cstr "EMPTY.TXT") 2 0 = .ok ⟨FILE_ENTRY, 0, 0⟩ ∧
    get_file_start_cluster empty_file_dir (geom 64) (cstr "/EMPTY.TXT") 0 0 = .ok (0, 0) ∧
    main_report empty_file_dir (geom 64) [0xffffff8, 0xfffffff] (cstr "/EMPTY.TXT") 0 10
      = some (.ok Report.file_not_found) := by
  decide!

/-! ### Case-insensitivity of short-form resolution (C5) -/

theorem case_change_ascii_upper : case_change ascii_upper := by
  refine ⟨fun c => ?_, fun c => ?_, fun c => ?_, fun c => ?_⟩ <;>
    simp only [toupper, char_val, ascii_upper] <;> repeat (first | split | omega)

theorem case_change_ascii_lower : case_change ascii_lower := by
  refine ⟨fun c => ?_, fun c => ?_, fun c => ?_, fun c => ?_⟩ <;>
    simp only [toupper, char_val, ascii_lower] <;> repeat (first | split | omega)

theorem rd_map (e : Fault) (f : Nat → Nat) (b : List Nat) (i : Nat) :
    rd e (b.map f) i = (rd e b i >>= fun v => .ok (f v)) := by
  unfold rd
  rw [List.getElem?_map]
  cases b[i]? <;> rfl

theorem short_form_exit_map {f : Nat → Nat} (hf : case_change f) (a b : List Nat)
    (maxlen i : Nat) :
    short_form_exit a (b.map f) maxlen i = short_form_exit a b maxlen i := by
  unfold short_form_exit
  rw [rd_map]
  cases rd .token_oob b i with
  | fault e => rfl
  | ok v => simp only [Exec.ok_bind, hf.2.1, hf.2.2.1]

theorem short_form_loop_map {f : Nat → Nat} (hf : case_change f) (a b : List Nat)
    (maxlen : Nat) :
    ∀ n i, short_form_loop a (b.map f) maxlen n i = short_form_loop a b maxlen n i := by
  intro n
  induction n with
  | zero =>
    intro i
    simp only [short_form_loop, short_form_exit_map hf]
  | succ n ih =>
    intro i
    simp only [short_form_loop, short_form_exit_map hf, rd_map, ih]
    split
    · cases rd .cluster_oob a i with
      | fault e => rfl
      | ok ai =>
        simp only [Exec.ok_bind]
        split
        · cases rd .token_oob b i with
          | fault e => rfl
          | ok bi => simp only [Exec.ok_bind, hf.1, hf.2.1, hf.2.2.1, ne_eq]
        · rfl
    · rfl

theorem short_form_cmp_map {f : Nat → Nat} (hf : case_change f) (a b : List Nat)
    (maxlen : Nat) :
    short_form_cmp a (b.map f) maxlen = short_form_cmp a b maxlen :=
  short_form_loop_map hf a b maxlen maxlen 0

theorem short_branch_map {f : Nat → Nat} (hf : case_change f) (buf token : List Nat)
    (pos : Nat) :
    short_branch buf (token.map f) pos
      = (short_branch buf token pos >>= fun st => .ok (st.map_token f)) := by
  unfold short_branch
  rw [short_form_cmp_map hf]
  cases short_form_cmp (List.drop pos buf) token SHORT_NAME_SIZE with
  | fault e => rfl
  | ok ret =>
    simp only [Exec.ok_bind, rd_map]
    split
    · cases rd .token_oob token ret.toNat with
      | fault e => rfl
      | ok c =>
        simp only [Exec.ok_bind, hf.2.1]
        have hdrop : (if c = 46 then (token.map f).drop 1 else token.map f).drop ret.toNat
            = ((if c = 46 then token.drop 1 else token).drop ret.toNat).map f := by
          split <;> simp [List.map_drop]
        rw [hdrop, short_form_cmp_map hf]
        cases short_form_cmp (List.drop (pos + SHORT_NAME_SIZE) buf)
            ((if c = 46 then token.drop 1 else token).drop ret.toNat) SHORT_EXT_SIZE with
        | fault e => rfl
        | ok ret2 =>
          simp only [Exec.ok_bind]
          split
          · cases entry_result buf pos <;> rfl
          · simp only [Exec.pure_eq, Exec.ok_bind, Step.map_token]
            split <;> simp [List.map_drop]
    · rfl

theorem scan_step_map {f : Nat → Nat} (hf : case_change f) (buf token : List Nat) (pos : Nat)
    (hshort : buf[pos + 11]? ≠ some 0x0f) :
    scan_step buf (token.map f) pos
      = (scan_step buf token pos >>= fun st => .ok (st.map_token f)) := by
  unfold scan_step
  cases rd .cluster_oob buf pos with
  | fault e => rfl
  | ok b0 =>
    simp only [Exec.ok_bind]
    split
    · rfl
    · split
      · rfl
      · cases hattr : rd .cluster_oob buf (pos + DIR_ENTRY_ATTR) with
        | fault e => rfl
        | ok attr =>
          have hne : attr ≠ 0x0f := by
            intro h
            rw [rd_eq_ok, h] at hattr
            exact hshort hattr
          simp only [Exec.ok_bind, hne, if_false]
          exact short_branch_map hf buf token pos

theorem scan_entries_map {f : Nat → Nat} (hf : case_change f) (buf : List Nat) (cur size m : Nat)
    (hterm : buf[32 * m]? = some 0)
    (hrec : ∀ k, k < m → buf[32 * k]? ≠ some 0 ∧ buf[32 * k + 11]? ≠ some 0x0f) :
    ∀ (n k : Nat) (token : List Nat), k ≤ m →
      scan_entries buf cur size n (32 * k) (token.map f)
        = scan_entries buf cur size n (32 * k) token := by
  intro n
  induction n with
  | zero =>
    intro k token _
    rfl
  | succ n ih =>
    intro k token hk
    rcases Nat.lt_or_eq_of_le hk with hlt | heq
    · simp only [scan_entries, scan_step_map hf buf token (32 * k) (hrec k hlt).2]
      cases hstep : scan_step buf token (32 * k) with
      | fault e => rfl
      | ok st =>
        cases st with
        | done r => rfl
        | stop => rfl
        | next pos1 token1 =>
          have hpos : pos1 = 32 * (k + 1) := by
            have h0 := (hrec k hlt).1
            simp only [scan_step, Exec.bind_eq_ok, rd_eq_ok] at hstep
            obtain ⟨b0, hb0, hstep⟩ := hstep
            have hb : b0 ≠ 0 := by
              intro h
              rw [h] at hb0
              exact h0 hb0
            simp only [hb, if_false] at hstep
            split at hstep
            · simp only [Exec.pure_eq, Exec.ok.injEq, Step.next.injEq, DIR_ENTRY_SIZE] at hstep
              omega
            · simp only [Exec.bind_eq_ok, rd_eq_ok, DIR_ENTRY_ATTR] at hstep
              obtain ⟨attr, hattr, hstep⟩ := hstep
              have hne : attr ≠ 0x0f := by
                intro h
                rw [h] at hattr
                exact (hrec k hlt).2 hattr
              simp only [hne, if_false, short_branch, Exec.bind_eq_ok] at hstep
              obtain ⟨ret, -, hstep⟩ := hstep
              split at hstep
              · simp only [Exec.bind_eq_ok] at hstep
                obtain ⟨c, -, ret2, -, hstep⟩ := hstep
                split at hstep
                · simp only [Exec.bind_eq_ok, Exec.pure_eq, Exec.ok.injEq] at hstep
                  obtain ⟨_, _, h⟩ := hstep
                  cases h
                · simp only [Exec.pure_eq, Exec.ok.injEq, Step.next.injEq, DIR_ENTRY_SIZE] at hstep
                  omega
              · simp only [Exec.pure_eq, Exec.ok.injEq, Step.next.injEq, DIR_ENTRY_SIZE] at hstep
                omega
          subst hpos
          simp only [Exec.ok_bind, Step.map_token]
          exact ih (k + 1) token1 hlt
    · subst heq
      have hstop : ∀ t, scan_step buf t (32 * k) = .ok Step.stop := by
        intro t
        simp [scan_step, rd_of_getElem? hterm]
      simp only [scan_entries, hstop]

theorem get_entry_map {f : Nat → Nat} (hf : case_change f) (disk : List Nat) (g : Geometry)
    (token : List Nat) (cur size : Nat)
    (hdir : ∀ buf, read_cluster disk g cur = some buf → short_only_dir buf) :
    get_entry_start_cluster disk g (token.map f) cur size
      = get_entry_start_cluster disk g token cur size := by
  unfold get_entry_start_cluster
  cases hrd : read_cluster disk g cur with
  | none => rfl
  | some buf =>
    obtain ⟨m, -, -, hterm, hrec⟩ := hdir buf hrd
    exact scan_entries_map hf buf cur size m hterm hrec (buf.length + 1) 0 token (Nat.zero_le m)

theorem strtok_map {f : Nat → Nat} (hf : case_change f) (s : List Nat) :
    strtok (s.map f)
      = (strtok s >>= fun o => .ok (o.map (fun p => (p.1.map f, p.2.map f)))) := by
  have h47 : ((fun c => decide (c = 47)) ∘ f) = (fun c => decide (c = 47)) := by
    funext c
    simp [hf.2.2.2]
  have hsep : ((fun c => decide (c ≠ 47 ∧ c ≠ 0)) ∘ f) = (fun c => decide (c ≠ 47 ∧ c ≠ 0)) := by
    funext c
    simp [hf.2.2.2, hf.2.2.1]
  have hz : f 0 = 0 := (hf.2.2.1 0).2 rfl
  unfold strtok
  simp only [List.dropWhile_map, List.takeWhile_map, h47, hsep, List.head?_map]
  cases (s.dropWhile (fun c => decide (c = 47))).head? with
  | none => rfl
  | some c =>
    simp only [Option.map_some', hf.2.2.1]
    split
    · rfl
    · cases (s.dropWhile (fun c => decide (c = 47))).dropWhile
          (fun c => decide (c ≠ 47 ∧ c ≠ 0)) with
      | nil => rfl
      | cons d rest =>
        simp only [List.map_cons, hf.2.2.1, Exec.ok_bind, Option.map_some', List.map_append, hz]
        split <;> simp [hz]

theorem get_file_loop_map {f : Nat → Nat} (hf : case_change f) (disk : List Nat) (g : Geometry)
    (fs0 : Nat) :
    ∀ (n : Nat) (p : Option (List Nat × List Nat)) (cur size : Nat),
      (∀ c ∈ scanned_from disk g n p cur size,
        ∀ buf, read_cluster disk g c = some buf → short_only_dir buf) →
      get_file_loop disk g fs0 n (p.map (fun p => (p.1.map f, p.2.map f))) cur size
        = get_file_loop disk g fs0 n p cur size := by
  intro n
  induction n with
  | zero =>
    intro p cur size _
    cases p <;> rfl
  | succ n ih =>
    intro p cur size hdir
    cases p with
    | none => rfl
    | some p =>
      obtain ⟨token, saved⟩ := p
      have hcur : ∀ buf, read_cluster disk g cur = some buf → short_only_dir buf :=
        hdir cur (by simp [scanned_from])
      simp only [Option.map_some', get_file_loop, get_entry_map hf disk g token cur size hcur,
        strtok_map hf]
      cases hget : get_entry_start_cluster disk g token cur size with
      | fault e => rfl
      | ok r =>
        simp only [Exec.ok_bind]
        split
        · rfl
        · rename_i hret
          cases hnext : strtok saved with
          | fault e => rfl
          | ok next =>
            simp only [Exec.ok_bind]
            have hcond : ((Option.map (fun p => (List.map f p.1, List.map f p.2)) next = none ∧
                  r.ret = DIRECTORY_ENTRY) ∨
                (Option.map (fun p => (List.map f p.1, List.map f p.2)) next ≠ none ∧
                  r.ret = FILE_ENTRY)) ↔
                ((next = none ∧ r.ret = DIRECTORY_ENTRY) ∨ (next ≠ none ∧ r.ret = FILE_ENTRY)) := by
              cases next <;> simp
            simp only [hcond]
            split
            · rfl
            · rename_i hgo
              apply ih
              intro c hc
              apply hdir c
              simp only [scanned_from, hget, hret, if_false, hnext, hgo]
              exact List.mem_cons_of_mem _ hc

/-- C5: on a directory cluster made only of short-form records (live or
deleted) followed by a terminating record, `get_entry_start_cluster` gives the
same result for a token, for the token with its ASCII letters upper-cased and
for the token with its ASCII letters lower-cased; and when the directory
clusters that the resolution of a path scans are such directories,
`get_file_start_cluster` gives the same result for the path, for the path
upper-cased (`/DIR/FILE.TXT`) and for the path lower-cased (`/dir/file.txt`).
The other clusters of the image (file data) are arbitrary. -/
theorem short_form_resolution_ignores_case (disk : List Nat) (g : Geometry) :
    (∀ (token : List Nat) (cur size : Nat),
      (∀ buf, read_cluster disk g cur = some buf → short_only_dir buf) →
      get_entry_start_cluster disk g (token.map ascii_upper) cur size
        = get_entry_start_cluster disk g token cur size ∧
      get_entry_start_cluster disk g (token.map ascii_lower) cur size
        = get_entry_start_cluster disk g token cur size) ∧
    (∀ (filepath : List Nat) (size0 fs0 : Nat),
      (∀ c ∈ scanned_clusters disk g filepath size0,
        ∀ buf, read_cluster disk g c = some buf → short_only_dir buf) →
      get_file_start_cluster disk g (filepath.map ascii_upper) size0 fs0
        = get_file_start_cluster disk g filepath size0 fs0 ∧
      get_file_start_cluster disk g (filepath.map ascii_lower) size0 fs0
        = get_file_start_cluster disk g filepath size0 fs0) := by
  have hpath : ∀ {f : Nat → Nat}, case_change f → ∀ (filepath : List Nat) (size0 fs0 : Nat),
      (∀ c ∈ scanned_clusters disk g filepath size0,
        ∀ buf, read_cluster disk g c = some buf → short_only_dir buf) →
      get_file_start_cluster disk g (filepath.map f) size0 fs0
        = get_file_start_cluster disk g filepath size0 fs0 := by
    intro f hf filepath size0 fs0 hdir
    unfold get_file_start_cluster
    rw [strtok_map hf]
    cases hfirst : strtok filepath with
    | fault e => rfl
    | ok first =>
      simp only [Exec.ok_bind, List.length_map]
      apply get_file_loop_map hf disk g fs0
      intro c hc
      apply hdir c
      simp only [scanned_clusters, hfirst]
      exact hc
  refine ⟨fun token cur size hdir => ⟨?_, ?_⟩, fun filepath size0 fs0 hdir => ⟨?_, ?_⟩⟩
  · exact get_entry_map case_change_ascii_upper disk g token cur size hdir
  · exact get_entry_map case_change_ascii_lower disk g token cur size hdir
  · exact hpath case_change_ascii_upper filepath size0 fs0 hdir
  · exact hpath case_change_ascii_lower filepath size0 fs0 hdir

theorem data_disk_directories :
    (∀ buf, read_cluster data_disk (geom 96) 3 = some buf → short_only_dir buf) ∧
    (∀ c ∈ scanned_clusters data_disk (geom 96) (cstr "/Dir/File.Txt") 0,
      ∀ buf, read_cluster data_disk (geom 96) c = some buf → short_only_dir buf) := by
  have h2 : ∃ b, read_cluster data_disk (geom 96) 2 = some b ∧ short_only_dir b :=
    ⟨data_disk.take 96, by decide!, by decide!⟩
  have h3 : ∃ b, read_cluster data_disk (geom 96) 3 = some b ∧ short_only_dir b :=
    ⟨(data_disk.drop 96).take 96, by decide!, by decide!⟩
  have hs : scanned_clusters data_disk (geom 96) (cstr "/Dir/File.Txt") 0 = [2, 3] := by decide!
  obtain ⟨b2, e2, s2⟩ := h2
  obtain ⟨b3, e3, s3⟩ := h3
  refine ⟨fun buf h => ?_, fun c hc buf h => ?_⟩
  · rw [e3] at h
    cases h
    exact s3
  · rw [hs] at hc
    simp only [List.mem_cons, List.mem_singleton, List.not_mem_nil, or_false] at hc
    rcases hc with rfl | rfl
    · rw [e2] at h
      cases h
      exact s2
    · rw [e3] at h
      cases h
      exact s3

/-- Witness of `short_form_resolution_ignores_case`: the image `data_disk`,
whose cluster 4 is file data and not a directory; the token `File.Txt` in the
directory of cluster 3, and the path `/Dir/File.Txt`, which resolves to
cluster 4 and 96 bytes through the directories of clusters 2 and 3. -/
theorem short_form_resolution_ignores_case_witness :
    ((∀ buf, read_cluster data_disk (geom 96) 3 = some buf → short_only_dir buf) ∧
      (∀ c ∈ scanned_clusters data_disk (geom 96) (cstr "/Dir/File.Txt") 0,
        ∀ buf, read_cluster data_disk (geom 96) c = some buf → short_only_dir buf) ∧
      read_cluster data_disk (geom 96) 4 = some (List.replicate 96 0xff) ∧
      ¬ short_only_dir (List.replicate 96 0xff) ∧
      get_file_start_cluster data_disk (geom 96) (cstr "/Dir/File.Txt") 0 0 = .ok (4, 96)) ∧
    (get_entry_start_cluster data_disk (geom 96) ((cstr "File.Txt").map ascii_upper) 3 0
        = get_entry_start_cluster data_disk (geom 96) (cstr "File.Txt") 3 0 ∧
      get_entry_start_cluster data_disk (geom 96) ((cstr "File.Txt").map ascii_lower) 3 0
        = get_entry_start_cluster data_disk (geom 96) (cstr "File.Txt") 3 0) ∧
    (get_file_start_cluster data_disk (geom 96) ((cstr "/Dir/File.Txt").map ascii_upper) 0 0
        = get_file_start_cluster data_disk (geom 96) (cstr "/Dir/File.Txt") 0 0 ∧
      get_file_start_cluster data_disk (geom 96) ((cstr "/Dir/File.Txt").map ascii_lower) 0 0
        = get_file_start_cluster data_disk (geom 96) (cstr "/Dir/File.Txt") 0 0) :=
  ⟨⟨data_disk_directories.1, data_disk_directories.2, by decide!, by decide!, by decide!⟩,
    (short_form_resolution_ignores_case data_disk (geom 96)).1 (cstr "File.Txt") 3 0
      data_disk_directories.1,
    (short_form_resolution_ignores_case data_disk (geom 96)).2 (cstr "/Dir/File.Txt") 0 0
      data_disk_directories.2⟩

/-! ### `long_form_cmp` on a record whose code units are known -/

/-- A fragment loop whose `n` remaining units all match non-zero token
characters falls through to the next fragment. -/
theorem long_form_frag_all (a b : List Nat) (base lim : Nat) :
    ∀ (n i ret : Nat) (U : Nat → Nat), i + 2 * n = lim →
      (∀ j, j < n → a[base + i + 2 * j]? = some (U j) ∧ b[ret + j]? = some (U j) ∧ U j ≠ 0) →
      long_form_frag a b base lim n i ret = .ok (Sum.inr (ret + n)) := by
  intro n
  induction n with
  | zero =>
    intro i ret U hi _
    have : ¬ i < lim := by omega
    simp [long_form_frag, long_form_after, this]
  | succ n ih =>
    intro i ret U hi h
    obtain ⟨ha, hb, hu⟩ := h 0 (by omega)
    have hlt : i < lim := by omega
    simp only [Nat.mul_zero, Nat.add_zero] at ha hb
    simp only [long_form_frag, hlt, if_true, rd_of_getElem? ha, rd_of_getElem? hb, Exec.ok_bind,
      ne_eq, hu, not_false_eq_true, not_true_eq_false, if_false]
    rw [ih (i + 2) (ret + 1) (fun j => U (j + 1)) (by omega)]
    · congr 2
      omega
    · intro j hj
      obtain ⟨ha1, hb1, hu1⟩ := h (j + 1) (by omega)
      refine ⟨?_, ?_, hu1⟩
      · rw [← ha1]
        congr 1
        omega
      · rw [← hb1]
        congr 1
        omega

/-- A fragment loop that meets, after `m` matching units, a unit `x` and a
token character `y` of which one is zero or which differ, returns: the count
`ret + m` when both are zero, `-1` otherwise. -/
theorem long_form_frag_stop (a b : List Nat) (base lim : Nat) :
    ∀ (m n i ret : Nat) (U : Nat → Nat) (x y : Nat), i + 2 * n = lim → m < n →
      (∀ j, j < m → a[base + i + 2 * j]? = some (U j) ∧ b[ret + j]? = some (U j) ∧ U j ≠ 0) →
      a[base + i + 2 * m]? = some x → b[ret + m]? = some y → (x = 0 ∨ y = 0 ∨ x ≠ y) →
      long_form_frag a b base lim n i ret
        = .ok (Sum.inl (if x = y then ((ret + m : Nat) : Int) else -1)) := by
  intro m
  induction m with
  | zero =>
    intro n i ret U x y hi hm _ ha hb hstop
    obtain ⟨n, rfl⟩ : ∃ n1, n = n1 + 1 := ⟨n - 1, by omega⟩
    have hlt : i < lim := by omega
    simp only [Nat.mul_zero, Nat.add_zero] at ha hb
    simp only [long_form_frag, long_form_after, hlt, if_true, rd_of_getElem? ha,
      rd_of_getElem? hb, Exec.ok_bind, ne_eq, Exec.pure_eq, Nat.add_zero]
    by_cases hx : x = 0
    · subst hx
      by_cases hy : 0 = y
      · simp [hy]
      · simp [hy]
    · by_cases hy : y = 0
      · subst hy
        simp [hx]
      · have hxy : x ≠ y := by
          rcases hstop with h | h | h
          · exact absurd h hx
          · exact absurd h hy
          · exact h
        simp [hx, hy, hxy, Ne.symm hxy]
  | succ m ih =>
    intro n i ret U x y hi hm h ha hb hstop
    obtain ⟨n, rfl⟩ : ∃ n1, n = n1 + 1 := ⟨n - 1, by omega⟩
    obtain ⟨ha0, hb0, hu0⟩ := h 0 (by omega)
    have hlt : i < lim := by omega
    simp only [Nat.mul_zero, Nat.add_zero] at ha0 hb0
    simp only [long_form_frag, hlt, if_true, rd_of_getElem? ha0, rd_of_getElem? hb0, Exec.ok_bind,
      ne_eq, hu0, not_false_eq_true, not_true_eq_false, if_false]
    rw [ih n (i + 2) (ret + 1) (fun j => U (j + 1)) x y (by omega) (by omega)]
    · congr 3
      congr 1
      omega
    · intro j hj
      obtain ⟨ha1, hb1, hu1⟩ := h (j + 1) (by omega)
      refine ⟨?_, ?_, hu1⟩
      · rw [← ha1]
        congr 1
        omega
      · rw [← hb1]
        congr 1
        omega
    · rw [← ha]
      congr 1
      omega
    · rw [← hb]
      congr 1
      omega
    · exact hstop

theorem lfn_slot_first {k : Nat} (h : k < 5) : lfn_slot k = NAME_1_5 + 0 + 2 * k := by
  simp [lfn_slot, h]

theorem lfn_slot_second {k : Nat} (h : k < 6) : lfn_slot (k + 5) = NAME_6_11 + 0 + 2 * k := by
  have h1 : ¬ k + 5 < 5 := by omega
  have h2 : k + 5 < 11 := by omega
  simp [lfn_slot, h1, h2]

theorem long_form_first_all {a b : List Nat} {U : Nat → Nat}
    (h : ∀ k, k < 5 → a[lfn_slot k]? = some (U k) ∧ b[k]? = some (U k) ∧ U k ≠ 0) :
    long_form_frag a b NAME_1_5 10 5 0 0 = .ok (Sum.inr 5) := by
  have := long_form_frag_all a b NAME_1_5 10 5 0 0 U (by omega) (fun j hj => by
    obtain ⟨h1, h2, h3⟩ := h j hj
    rw [lfn_slot_first hj] at h1
    exact ⟨h1, by simpa using h2, h3⟩)
  simpa using this

theorem long_form_second_all {a b : List Nat} {U : Nat → Nat}
    (h : ∀ k, k < 11 → a[lfn_slot k]? = some (U k) ∧ b[k]? = some (U k) ∧ U k ≠ 0) :
    long_form_frag a b NAME_6_11 12 6 0 5 = .ok (Sum.inr 11) := by
  have := long_form_frag_all a b NAME_6_11 12 6 0 5 (fun j => U (j + 5)) (by omega) (fun j hj => by
    obtain ⟨h1, h2, h3⟩ := h (j + 5) (by omega)
    rw [lfn_slot_second hj] at h1
    exact ⟨h1, by rw [← h2]; congr 1; omega, h3⟩)
  simpa using this

/-- A record whose 13 code units are non-zero and equal to the first 13
characters of `b`: `long_form_cmp` returns 13. -/
theorem long_form_cmp_full {a b : List Nat} {U : Nat → Nat}
    (h : ∀ k, k < 13 → a[lfn_slot k]? = some (U k) ∧ b[k]? = some (U k) ∧ U k ≠ 0) :
    long_form_cmp a b = .ok 13 := by
  have h1 := long_form_first_all (fun k hk => h k (by omega))
  have h2 := long_form_second_all (fun k hk => h k (by omega))
  obtain ⟨a11, b11, u11⟩ := h 11 (by omega)
  obtain ⟨a12, b12, u12⟩ := h 12 (by omega)
  have s11 : lfn_slot 11 = NAME_12_13 := by decide
  have s12 : lfn_slot 12 = NAME_12_13 + 2 := by decide
  rw [s11] at a11
  rw [s12] at a12
  simp [long_form_cmp, h1, h2, long_form_tail, rd_of_getElem? a11, rd_of_getElem? b11,
    rd_of_getElem? a12, rd_of_getElem? b12, u11]

/-- A record and a token view `b` that agree on `m < 13` non-zero code units
and then show a unit `x` and a character `y` of which one is zero or which
differ: `long_form_cmp` returns `-1` unless both are zero; when both are zero
it returns `m` for a terminator in the first two fragments and `m + 1` for a
terminator in the last fragment. -/
theorem long_form_cmp_stop {a b : List Nat} {U : Nat → Nat} {m x y : Nat} (hm : m < 13)
    (h : ∀ k, k < m → a[lfn_slot k]? = some (U k) ∧ b[k]? = some (U k) ∧ U k ≠ 0)
    (ha : a[lfn_slot m]? = some x) (hb : b[m]? = some y) (hstop : x = 0 ∨ y = 0 ∨ x ≠ y) :
    long_form_cmp a b
      = .ok (if x = y then (if m < 11 then (m : Int) else ((m + 1 : Nat) : Int)) else -1) := by
  by_cases h5 : m < 5
  · have := long_form_frag_stop a b NAME_1_5 10 m 5 0 0 U x y (by omega) h5 (fun j hj => by
      obtain ⟨h1, h2, h3⟩ := h j hj
      rw [lfn_slot_first (by omega)] at h1
      exact ⟨h1, by simpa using h2, h3⟩) (by rw [← lfn_slot_first h5]; exact ha)
      (by simpa using hb) hstop
    have h11 : m < 11 := by omega
    simp only [long_form_cmp, this, Exec.ok_bind, Nat.zero_add, h11, if_true]
    rfl
  · have h1 := long_form_first_all (a := a) (b := b) (U := U) (fun k hk => h k (by omega))
    by_cases h11 : m < 11
    · obtain ⟨m1, rfl⟩ : ∃ m1, m = m1 + 5 := ⟨m - 5, by omega⟩
      have := long_form_frag_stop a b NAME_6_11 12 m1 6 0 5 (fun j => U (j + 5)) x y (by omega)
        (by omega) (fun j hj => by
          obtain ⟨h1, h2, h3⟩ := h (j + 5) (by omega)
          rw [lfn_slot_second (by omega)] at h1
          exact ⟨h1, by rw [← h2]; congr 1; omega, h3⟩)
        (by rw [← lfn_slot_second (by omega)]; exact ha)
        (by rw [← hb]; congr 1; omega) hstop
      simp only [long_form_cmp, h1, this, Exec.ok_bind, h11, if_true]
      have : ((5 + m1 : Nat) : Int) = ((m1 + 5 : Nat) : Int) := by
        congr 1
        omega
      rw [this]
      rfl
    · have h2 := long_form_second_all (a := a) (b := b) (U := U) (fun k hk => h k (by omega))
      have s11 : lfn_slot 11 = NAME_12_13 := by decide
      have s12 : lfn_slot 12 = NAME_12_13 + 2 := by decide
      simp only [long_form_cmp, h1, h2, Exec.ok_bind, long_form_tail, h11, if_false]
      by_cases hm11 : m = 11
      · subst hm11
        rw [s11] at ha
        simp only [rd_of_getElem? ha, rd_of_getElem? hb, Exec.ok_bind]
        by_cases hxy : x = y
        · subst hxy
          have hx : x = 0 := by
            rcases hstop with h | h | h
            · exact h
            · exact h
            · exact absurd rfl h
          simp [hx]
        · simp [hxy]
      · have hm12 : m = 12 := by omega
        subst hm12
        obtain ⟨a11, b11, u11⟩ := h 11 (by omega)
        rw [s11] at a11
        rw [s12] at ha
        simp only [rd_of_getElem? a11, rd_of_getElem? b11, rd_of_getElem? ha, rd_of_getElem? hb,
          Exec.ok_bind, ne_eq, not_true_eq_false, if_false, u11]
        by_cases hxy : x = y
        · simp [hxy]
        · simp [hxy]

/-! ### A well-formed long-form run against a token -/

theorem lfn_unit_of_lt {name : List Nat} {i : Nat} (h : i < name.length) :
    lfn_unit name i = name[i] := by
  simp [lfn_unit, h, List.getD_eq_getElem?_getD, List.getElem?_eq_getElem h]

theorem lfn_unit_length (name : List Nat) : lfn_unit name name.length = 0 := by
  simp [lfn_unit]

theorem lfn_unit_ne_zero {name : List Nat} (hnz : ∀ c ∈ name, c ≠ 0) {i : Nat}
    (h : i < name.length) : lfn_unit name i ≠ 0 := by
  rw [lfn_unit_of_lt h]
  exact hnz _ (List.getElem_mem h)

theorem lfn_unit_cons (a : Nat) (name : List Nat) (i : Nat) :
    lfn_unit (a :: name) (i + 1) = lfn_unit name i := by
  simp [lfn_unit]

/-- The token view `name ++ 0 :: rest` shows the code units of the stored
name up to and including the terminator. -/
theorem token_units (name rest : List Nat) {i : Nat} (h : i ≤ name.length) :
    (name ++ 0 :: rest)[i]? = some (lfn_unit name i) := by
  rcases Nat.lt_or_eq_of_le h with hlt | heq
  · rw [List.getElem?_append_left hlt, lfn_unit_of_lt hlt, List.getElem?_eq_getElem hlt]
  · subst heq
    rw [lfn_unit_length, List.getElem?_append_right (Nat.le_refl _)]
    simp

theorem lfn_count_bounds {name : List Nat} (h1 : 1 ≤ name.length) (h2 : name.length ≤ 255) :
    1 ≤ lfn_count name ∧ lfn_count name ≤ 20 ∧ 13 * (lfn_count name - 1) < name.length ∧
      name.length ≤ 13 * lfn_count name := by
  unfold lfn_count
  omega

theorem seq_byte_facts : ∀ n, n < 21 → 1 ≤ n →
    (n ||| 0x40) &&& 0x1f = n ∧ n ||| 0x40 ≠ 0 ∧ n ||| 0x40 ≠ 0xe5 := by
  decide

theorem run_record_unit {buf : List Nat} {pos : Nat} {name : List Nat}
    (hrun : long_run_at buf pos name) {j k : Nat} (hj : j < lfn_count name) (hk : k < 13) :
    (buf.drop (pos + j * DIR_ENTRY_SIZE))[lfn_slot k]?
      = some (lfn_unit name (13 * (lfn_count name - 1 - j) + k)) := by
  rw [List.getElem?_drop, ← ((hrun.2 j hj).2.2 k hk).1]
  congr 1
  simp only [DIR_ENTRY_SIZE]
  omega

/-- The record `j` of the run against a token view that shows the 13 code
units of that record, all of them characters of the name. -/
theorem run_record_full {buf : List Nat} {pos : Nat} {name w : List Nat}
    (hnz : ∀ c ∈ name, c ≠ 0) (hrun : long_run_at buf pos name) {j : Nat}
    (hj : j < lfn_count name)
    (hin : 13 * (lfn_count name - 1 - j) + 13 ≤ name.length)
    (htok : ∀ i, i < 13 * (lfn_count name - 1 - j) + 13 → w[i]? = some (lfn_unit name i)) :
    long_form_cmp (buf.drop (pos + j * DIR_ENTRY_SIZE))
      (w.drop (13 * (lfn_count name - 1 - j))) = .ok 13 := by
  apply long_form_cmp_full (U := fun k => lfn_unit name (13 * (lfn_count name - 1 - j) + k))
  intro k hk
  refine ⟨run_record_unit hrun hj hk, ?_, lfn_unit_ne_zero hnz (by omega)⟩
  rw [List.getElem?_drop]
  exact htok _ (by omega)

/-- The record `j` of the run against a token view that agrees with it on `m`
code units and then shows `y`, where `y` and the unit `m` of the record do not
both continue the match. -/
theorem run_record_stop {buf : List Nat} {pos : Nat} {name w : List Nat}
    (hnz : ∀ c ∈ name, c ≠ 0) (hrun : long_run_at buf pos name) {j m y : Nat}
    (hj : j < lfn_count name) (hm : m < 13)
    (hin : 13 * (lfn_count name - 1 - j) + m ≤ name.length)
    (htok : ∀ i, i < 13 * (lfn_count name - 1 - j) + m → w[i]? = some (lfn_unit name i))
    (hy : w[13 * (lfn_count name - 1 - j) + m]? = some y)
    (hstop : lfn_unit name (13 * (lfn_count name - 1 - j) + m) = 0 ∨ y = 0 ∨
      lfn_unit name (13 * (lfn_count name - 1 - j) + m) ≠ y) :
    long_form_cmp (buf.drop (pos + j * DIR_ENTRY_SIZE))
      (w.drop (13 * (lfn_count name - 1 - j)))
      = .ok (if lfn_unit name (13 * (lfn_count name - 1 - j) + m) = y
          then (if m < 11 then (m : Int) else ((m + 1 : Nat) : Int)) else -1) := by
  apply long_form_cmp_stop (U := fun k => lfn_unit name (13 * (lfn_count name - 1 - j) + k)) hm
  · intro k hk
    refine ⟨run_record_unit hrun hj (by omega), ?_, lfn_unit_ne_zero hnz (by omega)⟩
    rw [List.getElem?_drop]
    exact htok _ (by omega)
  · exact run_record_unit hrun hj hm
  · rw [List.getElem?_drop]
    exact hy
  · exact hstop

theorem long_run_ok_step {buf token : List Nat} {pos n tok_pos v : Nat} (prev : Option Int)
    (h : long_form_cmp (buf.drop (pos + n * DIR_ENTRY_SIZE)) (token.drop tok_pos)
      = .ok (v : Int)) :
    long_run buf token pos (n + 1) prev tok_pos
      = long_run buf token pos n (some (v : Int)) (tok_pos + v) := by
  have hv : ¬ ((v : Int) = -1) := by omega
  simp [long_run, h, hv]

theorem long_run_fail_step {buf token : List Nat} {pos n tok_pos : Nat} (prev : Option Int)
    (h : long_form_cmp (buf.drop (pos + n * DIR_ENTRY_SIZE)) (token.drop tok_pos) = .ok (-1)) :
    long_run buf token pos (n + 1) prev tok_pos = .ok (-1, tok_pos) := by
  simp [long_run, h]

/-- The inner loop over the whole run, on a token view that shows the name and,
when the last record is not full, its terminator: every record matches, and
the loop ends with `tok_pos` at the end of the name.  The length of the name
modulo 13 is not 11 or 12. -/
theorem long_run_full_name {buf : List Nat} {pos : Nat} {name w : List Nat}
    (h1 : 1 ≤ name.length) (h2 : name.length ≤ 255) (hnz : ∀ c ∈ name, c ≠ 0)
    (hrun : long_run_at buf pos name)
    (htok : ∀ i, i < name.length → w[i]? = some (lfn_unit name i))
    (hend : name.length % 13 ≠ 0 → w[name.length]? = some 0)
    (hmod : name.length % 13 ≠ 11 ∧ name.length % 13 ≠ 12) :
    ∀ n, n < lfn_count name → ∀ prev,
      long_run buf w pos (n + 1) prev (13 * (lfn_count name - 1 - n))
        = .ok (((name.length - 13 * (lfn_count name - 1) : Nat) : Int), name.length) := by
  have hN : lfn_count name = (name.length + 12) / 13 := rfl
  intro n
  induction n with
  | zero =>
    intro hn prev
    by_cases hr : name.length % 13 = 0
    · have hfull := run_record_full (w := w) hnz hrun hn (by omega)
        (fun i hi => htok i (by omega))
      rw [long_run_ok_step prev hfull]
      simp only [long_run, Exec.ok.injEq, Prod.mk.injEq]
      constructor
      · congr 1
        omega
      · omega
    · have hstop := run_record_stop (w := w) (m := name.length % 13) (y := 0) hnz hrun hn
        (Nat.mod_lt _ (by omega)) (by omega) (fun i hi => htok i (by omega))
        (by rw [← hend hr]; congr 1; omega) (Or.inr (Or.inl rfl))
      have hidx : 13 * (lfn_count name - 1 - 0) + name.length % 13 = name.length := by omega
      have hm11 : name.length % 13 < 11 := by omega
      rw [hidx, lfn_unit_length] at hstop
      simp only [if_true, hm11] at hstop
      rw [long_run_ok_step prev hstop]
      simp only [long_run, Exec.ok.injEq, Prod.mk.injEq]
      constructor
      · congr 1
        omega
      · omega
  | succ n ih =>
    intro hn prev
    have hfull := run_record_full (w := w) hnz hrun hn (by omega)
      (fun i hi => htok i (by omega))
    rw [long_run_ok_step prev hfull]
    have : 13 * (lfn_count name - 1 - (n + 1)) + 13 = 13 * (lfn_count name - 1 - n) := by omega
    rw [this]
    exact ih (by omega) _

/-- The inner loop over the run, on a token view that agrees with the stored
name on its first `d` code units and differs from it at unit `d`, inside the
run: the loop ends with `ret = -1`. -/
theorem long_run_mismatch {buf : List Nat} {pos : Nat} {name w : List Nat}
    (hnz : ∀ c ∈ name, c ≠ 0) (hrun : long_run_at buf pos name) {d y : Nat}
    (hd : d ≤ name.length) (hdn : d < 13 * lfn_count name)
    (htok : ∀ i, i < d → w[i]? = some (lfn_unit name i))
    (hy : w[d]? = some y) (hne : lfn_unit name d ≠ y) :
    ∀ n, n < lfn_count name → 13 * (lfn_count name - 1 - n) ≤ d → ∀ prev,
      ∃ tok_pos, long_run buf w pos (n + 1) prev (13 * (lfn_count name - 1 - n))
        = .ok (-1, tok_pos) := by
  intro n
  induction n with
  | zero =>
    intro hn hle prev
    have hstop := run_record_stop (w := w) (m := d - 13 * (lfn_count name - 1 - 0)) (y := y)
      hnz hrun hn (by omega) (by omega) (fun i hi => htok i (by omega))
      (by rw [← hy]; congr 1; omega)
      (by
        right; right
        have : 13 * (lfn_count name - 1 - 0) + (d - 13 * (lfn_count name - 1 - 0)) = d := by
          omega
        rw [this]
        exact hne)
    have hidx : 13 * (lfn_count name - 1 - 0) + (d - 13 * (lfn_count name - 1 - 0)) = d := by
      omega
    rw [hidx] at hstop
    simp only [hne, if_false] at hstop
    exact ⟨_, long_run_fail_step prev hstop⟩
  | succ n ih =>
    intro hn hle prev
    by_cases hin : d < 13 * (lfn_count name - 1 - (n + 1)) + 13
    · have hstop := run_record_stop (w := w) (m := d - 13 * (lfn_count name - 1 - (n + 1)))
        (y := y) hnz hrun hn (by omega) (by omega) (fun i hi => htok i (by omega))
        (by rw [← hy]; congr 1; omega)
        (by
          right; right
          have : 13 * (lfn_count name - 1 - (n + 1)) + (d - 13 * (lfn_count name - 1 - (n + 1)))
              = d := by omega
          rw [this]
          exact hne)
      have hidx : 13 * (lfn_count name - 1 - (n + 1)) + (d - 13 * (lfn_count name - 1 - (n + 1)))
          = d := by omega
      rw [hidx] at hstop
      simp only [hne, if_false] at hstop
      exact ⟨_, long_run_fail_step prev hstop⟩
    · have hfull := run_record_full (w := w) hnz hrun hn (by omega)
        (fun i hi => htok i (by omega))
      rw [long_run_ok_step prev hfull]
      have : 13 * (lfn_count name - 1 - (n + 1)) + 13 = 13 * (lfn_count name - 1 - n) := by omega
      rw [this]
      exact ih (by omega) (by omega) _

theorem scan_step_at_run {buf : List Nat} {pos : Nat} {name : List Nat} (token : List Nat)
    (h1 : 1 ≤ name.length) (h2 : name.length ≤ 255) (hrun : long_run_at buf pos name) :
    scan_step buf token pos
      = (do
          let (ret, tok_pos) ← long_run buf token pos (lfn_count name) none 0
          if ret ≠ -1 then
            let c ← rd .token_oob token tok_pos
            if c = 0 then
              let r ← entry_result buf (pos + lfn_count name * DIR_ENTRY_SIZE)
              return Step.done r
            else
              return Step.next (pos + lfn_count name * DIR_ENTRY_SIZE + DIR_ENTRY_SIZE) token
          else return Step.next (pos + lfn_count name * DIR_ENTRY_SIZE + DIR_ENTRY_SIZE) token) := by
  obtain ⟨hc1, hc2, -, -⟩ := lfn_count_bounds h1 h2
  obtain ⟨s1, s2, s3⟩ := seq_byte_facts (lfn_count name) (by omega) hc1
  have hattr : buf[pos + DIR_ENTRY_ATTR]? = some 0x0f := by
    have := (hrun.2 0 (by omega)).1
    simpa [DIR_ENTRY_ATTR] using this
  simp only [scan_step, rd_of_getElem? hrun.1, Exec.ok_bind, s2, s3, if_false,
    rd_of_getElem? hattr, if_true, long_branch, s1]

/-- The scan step at a well-formed run, for the stored name as token: the
short-form record after the run is returned. -/
theorem scan_step_long_name {buf : List Nat} {pos : Nat} {name : List Nat} {r : EntryResult}
    (rest : List Nat)
    (h1 : 1 ≤ name.length) (h2 : name.length ≤ 255) (hnz : ∀ c ∈ name, c ≠ 0)
    (hmod : name.length % 13 ≠ 11 ∧ name.length % 13 ≠ 12)
    (hrun : long_run_at buf pos name)
    (hrec : entry_result buf (pos + 32 * lfn_count name) = .ok r) :
    scan_step buf (name ++ 0 :: rest) pos = .ok (Step.done r) := by
  obtain ⟨hc1, hc2, hc3, hc4⟩ := lfn_count_bounds h1 h2
  have hloop := long_run_full_name (w := name ++ 0 :: rest) h1 h2 hnz hrun
    (fun i hi => token_units name rest (Nat.le_of_lt hi))
    (fun _ => by rw [token_units name rest (Nat.le_refl _), lfn_unit_length]) hmod
    (lfn_count name - 1) (by omega) none
  have e1 : lfn_count name - 1 + 1 = lfn_count name := by omega
  have e2 : 13 * (lfn_count name - 1 - (lfn_count name - 1)) = 0 := by omega
  rw [e1, e2] at hloop
  have hz : (name ++ 0 :: rest)[name.length]? = some 0 := by
    rw [token_units name rest (Nat.le_refl _), lfn_unit_length]
  have hpos : ¬ (((name.length - 13 * (lfn_count name - 1) : Nat) : Int) = -1) := by omega
  have hoff : pos + lfn_count name * DIR_ENTRY_SIZE = pos + 32 * lfn_count name := by
    simp only [DIR_ENTRY_SIZE]
    omega
  rw [scan_step_at_run _ h1 h2 hrun, hloop]
  simp only [Exec.ok_bind, ne_eq, hpos, not_false_eq_true, if_true, rd_of_getElem? hz, hoff, hrec,
    Exec.pure_eq]

/-- The first code unit at which a token other than the name leaves the
stored name. -/
theorem token_departs (rest : List Nat) :
    ∀ (name t : List Nat), (∀ c ∈ name, c ≠ 0) → (∀ c ∈ t, c ≠ 0) → t ≠ name →
      ∃ d y, d ≤ name.length ∧
        (∀ i, i < d → (t ++ 0 :: rest)[i]? = some (lfn_unit name i)) ∧
        (t ++ 0 :: rest)[d]? = some y ∧ lfn_unit name d ≠ y := by
  intro name
  induction name with
  | nil =>
    intro t _ ht hne
    cases t with
    | nil => exact absurd rfl hne
    | cons c t1 =>
      refine ⟨0, c, Nat.le_refl _, fun i hi => absurd hi (Nat.not_lt_zero i), by simp, ?_⟩
      have : c ≠ 0 := ht c (List.mem_cons_self c t1)
      simpa [lfn_unit] using Ne.symm this
  | cons a name ih =>
    intro t hn ht hne
    have ha : a ≠ 0 := hn a (List.mem_cons_self a name)
    cases t with
    | nil =>
      refine ⟨0, 0, Nat.zero_le _, fun i hi => absurd hi (Nat.not_lt_zero i), by simp, ?_⟩
      simpa [lfn_unit] using ha
    | cons c t1 =>
      by_cases hca : c = a
      · subst hca
        have hne1 : t1 ≠ name := fun h => hne (by rw [h])
        obtain ⟨d, y, hd, hpre, hy, hdiff⟩ := ih t1 (fun x hx => hn x (List.mem_cons_of_mem _ hx))
          (fun x hx => ht x (List.mem_cons_of_mem _ hx)) hne1
        refine ⟨d + 1, y, by simpa using hd, ?_, ?_, ?_⟩
        · intro i hi
          cases i with
          | zero => simp [lfn_unit]
          | succ i =>
            rw [lfn_unit_cons]
            simpa using hpre i (by omega)
        · simpa using hy
        · rw [lfn_unit_cons]
          exact hdiff
      · refine ⟨0, c, Nat.zero_le _, fun i hi => absurd hi (Nat.not_lt_zero i), by simp, ?_⟩
        simpa [lfn_unit] using Ne.symm hca

/-- The scan step at a well-formed run, for a token other than the stored
name: the loop goes on after the short-form record that follows the run,
which is not compared with the token. -/
theorem scan_step_other_name {buf : List Nat} {pos : Nat} {name : List Nat}
    (t rest : List Nat)
    (h1 : 1 ≤ name.length) (h2 : name.length ≤ 255) (hnz : ∀ c ∈ name, c ≠ 0)
    (hrun : long_run_at buf pos name) (ht : ∀ c ∈ t, c ≠ 0) (hne : t ≠ name) :
    scan_step buf (t ++ 0 :: rest) pos
      = .ok (Step.next (pos + 32 * (lfn_count name + 1)) (t ++ 0 :: rest)) := by
  obtain ⟨hc1, hc2, hc3, hc4⟩ := lfn_count_bounds h1 h2
  obtain ⟨d, y, hd, hpre, hy, hdiff⟩ := token_departs rest name t hnz ht hne
  have e1 : lfn_count name - 1 + 1 = lfn_count name := by omega
  have e2 : 13 * (lfn_count name - 1 - (lfn_count name - 1)) = 0 := by omega
  have hoff : pos + lfn_count name * DIR_ENTRY_SIZE + DIR_ENTRY_SIZE
      = pos + 32 * (lfn_count name + 1) := by
    simp only [DIR_ENTRY_SIZE]
    omega
  rw [scan_step_at_run _ h1 h2 hrun]
  by_cases hdn : d < 13 * lfn_count name
  · obtain ⟨tp, hloop⟩ := long_run_mismatch (w := t ++ 0 :: rest) hnz hrun hd hdn hpre hy hdiff
      (lfn_count name - 1) (by omega) (by omega) none
    rw [e1, e2] at hloop
    rw [hloop]
    simp [hoff]
  · have hdl : d = name.length := by omega
    subst hdl
    have hloop := long_run_full_name (w := t ++ 0 :: rest) h1 h2 hnz hrun hpre
      (fun h => by omega) (by omega) (lfn_count name - 1) (by omega) none
    rw [e1, e2] at hloop
    have hpos : ¬ (((name.length - 13 * (lfn_count name - 1) : Nat) : Int) = -1) := by omega
    have hy0 : y ≠ 0 := by
      rw [lfn_unit_length] at hdiff
      exact Ne.symm hdiff
    rw [hloop]
    simp only [Exec.ok_bind, ne_eq, hpos, not_false_eq_true, if_true, rd_of_getElem? hy, hy0,
      if_false, hoff, Exec.pure_eq]

/-! ### Reaching a record of the cluster -/

theorem long_branch_next {buf token : List Nat} {pos b0 p1 : Nat} {t1 : List Nat}
    (h : long_branch buf token pos b0 = .ok (Step.next p1 t1)) : pos + 32 ≤ p1 := by
  simp only [long_branch, Exec.bind_eq_ok] at h
  obtain ⟨⟨ret, tok_pos⟩, -, h⟩ := h
  simp only at h
  split at h
  · simp only [Exec.bind_eq_ok] at h
    obtain ⟨c, -, h⟩ := h
    split at h
    · simp only [Exec.bind_eq_ok, Exec.pure_eq, Exec.ok.injEq] at h
      obtain ⟨_, _, h⟩ := h
      cases h
    · simp only [Exec.pure_eq, Exec.ok.injEq, Step.next.injEq, DIR_ENTRY_SIZE] at h
      omega
  · simp only [Exec.pure_eq, Exec.ok.injEq, Step.next.injEq, DIR_ENTRY_SIZE] at h
    omega

theorem short_branch_next {buf token : List Nat} {pos p1 : Nat} {t1 : List Nat}
    (h : short_branch buf token pos = .ok (Step.next p1 t1)) : pos + 32 ≤ p1 := by
  simp only [short_branch, Exec.bind_eq_ok] at h
  obtain ⟨ret, -, h⟩ := h
  split at h
  · simp only [Exec.bind_eq_ok] at h
    obtain ⟨c, -, ret2, -, h⟩ := h
    split at h
    · simp only [Exec.bind_eq_ok, Exec.pure_eq, Exec.ok.injEq] at h
      obtain ⟨_, _, h⟩ := h
      cases h
    · simp only [Exec.pure_eq, Exec.ok.injEq, Step.next.injEq, DIR_ENTRY_SIZE] at h
      omega
  · simp only [Exec.pure_eq, Exec.ok.injEq, Step.next.injEq, DIR_ENTRY_SIZE] at h
    omega

/-- Every iteration of the scan that goes on moves forward by at least one
record. -/
theorem scan_step_next {buf token : List Nat} {pos p1 : Nat} {t1 : List Nat}
    (h : scan_step buf token pos = .ok (Step.next p1 t1)) : pos + 32 ≤ p1 := by
  simp only [scan_step, Exec.bind_eq_ok] at h
  obtain ⟨b0, -, h⟩ := h
  split at h
  · cases h
  · split at h
    · simp only [Exec.pure_eq, Exec.ok.injEq, Step.next.injEq, DIR_ENTRY_SIZE] at h
      omega
    · simp only [Exec.bind_eq_ok] at h
      obtain ⟨attr, -, h⟩ := h
      split at h
      · exact long_branch_next h
      · exact short_branch_next h

theorem scan_at_le {buf token : List Nat} :
    ∀ {k pos : Nat} {t : List Nat}, scan_at buf token k = some (pos, t) → 32 * k ≤ pos := by
  intro k
  induction k with
  | zero =>
    intro pos t _
    omega
  | succ k ih =>
    intro pos t h
    simp only [scan_at] at h
    cases hk : scan_at buf token k with
    | none => simp [hk] at h
    | some q =>
      obtain ⟨p, t0⟩ := q
      simp only [hk] at h
      have := ih hk
      cases hs : scan_step buf t0 p with
      | fault e => simp [hs] at h
      | ok st =>
        cases st with
        | done r => simp [hs] at h
        | stop => simp [hs] at h
        | next p1 t1 =>
          simp only [hs, Option.some.injEq, Prod.mk.injEq] at h
          have := scan_step_next hs
          omega

/-- When the scan of a call with `token` is at `pos` with the view `t` at the
token pointer after `k` iterations, the whole scan is the scan from `pos` with
`t`. -/
theorem scan_entries_from_at {buf token : List Nat} (c s : Nat) :
    ∀ {k pos : Nat} {t : List Nat}, scan_at buf token k = some (pos, t) → ∀ n,
      scan_entries buf c s (k + n) 0 token = scan_entries buf c s n pos t := by
  intro k
  induction k with
  | zero =>
    intro pos t h n
    simp only [scan_at, Option.some.injEq, Prod.mk.injEq] at h
    obtain ⟨h1, h2⟩ := h
    subst h1
    subst h2
    simp
  | succ k ih =>
    intro pos t h n
    simp only [scan_at] at h
    cases hk : scan_at buf token k with
    | none => simp [hk] at h
    | some q =>
      obtain ⟨p, t0⟩ := q
      simp only [hk] at h
      cases hs : scan_step buf t0 p with
      | fault e => simp [hs] at h
      | ok st =>
        cases st with
        | done r => simp [hs] at h
        | stop => simp [hs] at h
        | next p1 t1 =>
          simp only [hs, Option.some.injEq, Prod.mk.injEq] at h
          obtain ⟨h1, h2⟩ := h
          subst h1
          subst h2
          have e : k + 1 + n = k + (n + 1) := by omega
          rw [e, ih hk (n + 1)]
          simp [scan_entries, hs]

/-- C4 (amended): let a directory cluster hold at `pos` a well-formed long-form
run of `name` (1 to 255 non-zero characters) immediately followed by its
short-form record, whose fields are `r`, and consider the iteration of the scan
loop that starts at the run and the string at the token pointer at that
iteration.  If that string is the long name and the length of the name modulo
13 is neither 11 nor 12, the iteration returns `r`, and every call of
`get_entry_start_cluster` whose scan arrives at the run with that string
succeeds with `r`: start cluster, size and kind are those of the short-form
record.  If that string is anything else, such as the short 8.3 alias, it is
not resolved through the pair: the iteration goes on at the record after the
short-form record with the token pointer unchanged, and the short-form record
is not compared with the token. -/
theorem long_name_resolves_alias_skipped (buf : List Nat) (pos : Nat) (name : List Nat)
    (r : EntryResult)
    (hlen : 1 ≤ name.length ∧ name.length ≤ 255) (hnz : ∀ c ∈ name, c ≠ 0)
    (hrun : long_run_at buf pos name)
    (hrec : entry_result buf (pos + 32 * lfn_count name) = .ok r) :
    (name.length % 13 ≠ 11 → name.length % 13 ≠ 12 → ∀ rest : List Nat,
      scan_step buf (name ++ 0 :: rest) pos = .ok (Step.done r) ∧
      ∀ (disk : List Nat) (g : Geometry) (token : List Nat) (cur size k : Nat),
        read_cluster disk g cur = some buf →
        scan_at buf token k = some (pos, name ++ 0 :: rest) →
        get_entry_start_cluster disk g token cur size = .ok r) ∧
    (∀ t rest : List Nat, (∀ c ∈ t, c ≠ 0) → t ≠ name →
      scan_step buf (t ++ 0 :: rest) pos
        = .ok (Step.next (pos + 32 * (lfn_count name + 1)) (t ++ 0 :: rest)) ∧
      ∀ (token : List Nat) (k : Nat), scan_at buf token k = some (pos, t ++ 0 :: rest) →
        scan_at buf token (k + 1) = some (pos + 32 * (lfn_count name + 1), t ++ 0 :: rest)) := by
  refine ⟨fun hm1 hm2 rest => ?_, fun t rest ht hne => ?_⟩
  · have hstep := scan_step_long_name rest hlen.1 hlen.2 hnz ⟨hm1, hm2⟩ hrun hrec
    refine ⟨hstep, fun disk g token cur size k hbuf hk => ?_⟩
    have hle := scan_at_le hk
    have hlt : pos < buf.length := by
      have := hrun.1
      rw [List.getElem?_eq_some] at this
      exact this.1
    obtain ⟨n, hn⟩ : ∃ n, buf.length + 1 = k + (n + 1) := ⟨buf.length - k, by omega⟩
    simp only [get_entry_start_cluster, hbuf]
    rw [hn, scan_entries_from_at cur size hk (n + 1)]
    simp [scan_entries, hstep]
  · have hstep := scan_step_other_name t rest hlen.1 hlen.2 hnz hrun ht hne
    refine ⟨hstep, fun token k hk => ?_⟩
    simp only [scan_at, hk, hstep]

/-- Witness of `long_name_resolves_alias_skipped`: `notes_dir`, the run of
`readme.markdown` at offset 32, after the record `NOTES.TXT`, and the record
of `README~1.MAR`. -/
theorem long_name_resolves_alias_skipped_witness :
    ((1 ≤ (bytes "readme.markdown").length ∧ (bytes "readme.markdown").length ≤ 255) ∧
      (∀ c ∈ bytes "readme.markdown", c ≠ 0) ∧
      long_run_at notes_dir 32 (bytes "readme.markdown") ∧
      entry_result notes_dir (32 + 32 * lfn_count (bytes "readme.markdown"))
        = .ok ⟨1, 6, 77⟩ ∧
      scan_at notes_dir (cstr "readme.markdown") 1 = some (32, cstr "readme.markdown") ∧
      scan_at notes_dir (cstr "README~1.MAR") 1 = some (32, cstr "README~1.MAR")) ∧
    ((bytes "readme.markdown").length % 13 ≠ 11 → (bytes "readme.markdown").length % 13 ≠ 12 →
      ∀ rest : List Nat,
      scan_step notes_dir (bytes "readme.markdown" ++ 0 :: rest) 32
        = .ok (Step.done ⟨1, 6, 77⟩) ∧
      ∀ (disk : List Nat) (g : Geometry) (token : List Nat) (cur size k : Nat),
        read_cluster disk g cur = some notes_dir →
        scan_at notes_dir token k = some (32, bytes "readme.markdown" ++ 0 :: rest) →
        get_entry_start_cluster disk g token cur size = .ok ⟨1, 6, 77⟩) ∧
    (∀ t rest : List Nat, (∀ c ∈ t, c ≠ 0) → t ≠ bytes "readme.markdown" →
      scan_step notes_dir (t ++ 0 :: rest) 32
        = .ok (Step.next (32 + 32 * (lfn_count (bytes "readme.markdown") + 1))
            (t ++ 0 :: rest)) ∧
      ∀ (token : List Nat) (k : Nat), scan_at notes_dir token k = some (32, t ++ 0 :: rest) →
        scan_at notes_dir token (k + 1)
          = some (32 + 32 * (lfn_count (bytes "readme.markdown") + 1), t ++ 0 :: rest)) :=
  ⟨⟨by decide!, by decide!, by decide!, by decide!, by decide!, by decide!⟩,
    long_name_resolves_alias_skipped notes_dir 32 (bytes "readme.markdown") ⟨1, 6, 77⟩
      (by decide!) (by decide!) (by decide!) (by decide!)⟩

/-- In `readme_dir` the record `README.TXT` comes before the pair of
`readme.markdown`: for the token `readme.markdown` the name field `README`
matches up to the dot, the source advances `token`, the scan arrives at the
run with the string `eadme.markdown`, and `get_entry_start_cluster` returns
-1. -/
theorem long_name_missed_after_token_shift :
    long_run_at readme_dir 32 (bytes "readme.markdown") ∧
    scan_at readme_dir (cstr "readme.markdown") 1 = some (32, cstr "eadme.markdown") ∧
    scan_at readme_dir (cstr "readme.markdown") 2 = some (128, cstr "eadme.markdown") ∧
    get_entry_start_cluster readme_dir (geom 160) (cstr "readme.markdown") 2 0
      = .ok ⟨-1, 2, 0⟩ := by
  decide!

/-! ### The iteration bounds of the embedding are never the reason for a result -/

/-- An iteration bound of the scan that lets it run past the end of the buffer
can be raised without changing the result: `buf.length + 1` iterations, the
bound used by `get_entry_start_cluster`, stand for the unbounded loop. -/
theorem scan_entries_fuel (buf : List Nat) (c s : Nat) :
    ∀ (n m pos : Nat) (token : List Nat), buf.length ≤ pos + 32 * n → n ≤ m →
      scan_entries buf c s m pos token = scan_entries buf c s n pos token := by
  intro n
  induction n with
  | zero =>
    intro m pos token hlen _
    have hnone : buf[pos]? = none := List.getElem?_eq_none (by omega)
    cases m with
    | zero => rfl
    | succ m => simp [scan_entries, scan_step, rd, hnone]
  | succ n ih =>
    intro m pos token hlen hm
    obtain ⟨m, rfl⟩ : ∃ m1, m = m1 + 1 := ⟨m - 1, by omega⟩
    simp only [scan_entries]
    cases hs : scan_step buf token pos with
    | fault e => rfl
    | ok st =>
      cases st with
      | done r => rfl
      | stop => rfl
      | next p1 t1 =>
        have := scan_step_next hs
        simp only [Exec.ok_bind]
        exact ih m p1 t1 (by omega) (by omega)

theorem mem_dropWhile_of_not {p : Nat → Bool} {x : Nat} (hx : p x = false) :
    ∀ {l : List Nat}, x ∈ l → x ∈ l.dropWhile p := by
  intro l
  induction l with
  | nil => intro h; exact h
  | cons a l ih =>
    intro h
    by_cases ha : p a = true
    · rw [List.dropWhile_cons_of_pos ha]
      rcases List.mem_cons.1 h with rfl | h1
      · rw [hx] at ha
        cases ha
      · exact ih h1
    · rw [List.dropWhile_cons_of_neg ha]
      exact h

theorem length_dropWhile_le (p : Nat → Bool) (l : List Nat) :
    (l.dropWhile p).length ≤ l.length := by
  induction l with
  | nil => simp
  | cons a l ih =>
    by_cases ha : p a = true
    · rw [List.dropWhile_cons_of_pos ha]
      simp only [List.length_cons]
      omega
    · rw [List.dropWhile_cons_of_neg ha]

theorem head_dropWhile_false (p : Nat → Bool) :
    ∀ (l : List Nat) (c : Nat), (l.dropWhile p).head? = some c → p c = false := by
  intro l
  induction l with
  | nil => intro c h; simp at h
  | cons a l ih =>
    intro c h
    by_cases ha : p a = true
    · rw [List.dropWhile_cons_of_pos ha] at h
      exact ih c h
    · rw [List.dropWhile_cons_of_neg ha] at h
      simp only [List.head?_cons, Option.some.injEq] at h
      subst h
      simpa using ha

/-- On a NUL-terminated buffer `strtok` does not read outside it, and a token
found leaves a strictly shorter NUL-terminated buffer for the next call. -/
theorem strtok_ok {s : List Nat} (h0 : 0 ∈ s) :
    strtok s = .ok none ∨
    ∃ tok saved, strtok s = .ok (some (tok, saved)) ∧ 0 ∈ saved ∧ saved.length < s.length := by
  unfold strtok
  have hm1 : (0 : Nat) ∈ s.dropWhile (fun c => decide (c = 47)) :=
    mem_dropWhile_of_not (by decide) h0
  have hl1 := length_dropWhile_le (fun c => decide (c = 47)) s
  cases hs1 : s.dropWhile (fun c => decide (c = 47)) with
  | nil =>
    rw [hs1] at hm1
    cases hm1
  | cons c s1 =>
    have hc47 : c ≠ 47 := by
      have := head_dropWhile_false (fun c => decide (c = 47)) s c (by rw [hs1]; rfl)
      simpa using this
    rw [hs1] at hm1 hl1
    simp only [List.head?_cons]
    by_cases hc : c = 0
    · left
      simp [hc]
    · right
      simp only [hc, if_false]
      have hpc : (fun c => decide (c ≠ 47 ∧ c ≠ 0)) c = true := by simp [hc47, hc]
      have hm2 : (0 : Nat) ∈ (c :: s1).dropWhile (fun c => decide (c ≠ 47 ∧ c ≠ 0)) :=
        mem_dropWhile_of_not (by decide) hm1
      have hl2 : ((c :: s1).dropWhile (fun c => decide (c ≠ 47 ∧ c ≠ 0))).length ≤ s1.length := by
        have e : (c :: s1).dropWhile (fun c => decide (c ≠ 47 ∧ c ≠ 0))
            = s1.dropWhile (fun c => decide (c ≠ 47 ∧ c ≠ 0)) := List.dropWhile_cons_of_pos hpc
        rw [e]
        exact length_dropWhile_le _ s1
      cases hs2 : (c :: s1).dropWhile (fun c => decide (c ≠ 47 ∧ c ≠ 0)) with
      | nil =>
        rw [hs2] at hm2
        cases hm2
      | cons d rest =>
        rw [hs2] at hm2 hl2
        simp only [List.length_cons] at hl1 hl2
        refine ⟨_, _, rfl, ?_, ?_⟩
        · by_cases hd : d = 0
          · simp [hd]
          · simp only [hd, if_false]
            rcases List.mem_cons.1 hm2 with h | h
            · exact absurd h.symm hd
            · exact h
        · by_cases hd : d = 0
          · simp only [hd, if_true, List.length_cons]
            omega
          · simp only [hd, if_false]
            omega

theorem tokens_from_ok :
    ∀ (n : Nat) (tok saved : List Nat), 0 ∈ saved → saved.length ≤ n →
      ∃ toks, tokens_from (n + 1) (some (tok, saved)) = .ok toks := by
  intro n
  induction n with
  | zero =>
    intro tok saved h0 hl
    have : saved = [] := List.eq_nil_of_length_eq_zero (by omega)
    rw [this] at h0
    cases h0
  | succ n ih =>
    intro tok saved h0 hl
    rcases strtok_ok h0 with h | ⟨tok1, saved1, h, h01, hl1⟩
    · exact ⟨[tok], by simp [tokens_from, h]⟩
    · obtain ⟨toks, ht⟩ := ih tok1 saved1 h01 (by omega)
      refine ⟨tok :: toks, ?_⟩
      rw [tokens_from]
      simp only [h, Exec.ok_bind, ht, Exec.pure_eq]

/-- For every NUL-terminated path buffer the components are defined: neither a
read outside the buffer nor the iteration bound `filepath.length` stops the
successive `strtok` calls. -/
theorem path_tokens_ok {filepath : List Nat} (h0 : 0 ∈ filepath) :
    ∃ toks, path_tokens filepath = .ok toks := by
  unfold path_tokens
  rcases strtok_ok h0 with h | ⟨tok, saved, h, h01, hl⟩
  · exact ⟨[], by simp [h, tokens_from_none]⟩
  · obtain ⟨n, hn⟩ : ∃ n, filepath.length = n + 1 := ⟨filepath.length - 1, by omega⟩
    obtain ⟨toks, ht⟩ := tokens_from_ok n tok saved h01 (by omega)
    exact ⟨toks, by simp [h, hn, ht]⟩

/-! ### Deleted records (C11) -/

/-- C11: at a scan position whose first byte is `0xe5`, whatever the other
bytes of the record and whatever the token, the iteration neither returns nor
ends the loop: it goes on at the next record with the same token, and the scan
from the deleted record gives the result of the scan from the record that
follows it (the iteration bound `n` being one that stands for the unbounded
loop). -/
theorem deleted_record_skipped (buf token : List Nat) (pos cur size n : Nat)
    (hdel : buf[pos]? = some 0xe5) (hn : buf.length ≤ pos + 32 * n) :
    scan_step buf token pos = .ok (Step.next (pos + 32) token) ∧
    scan_entries buf cur size n pos token = scan_entries buf cur size n (pos + 32) token := by
  have hstep : scan_step buf token pos = .ok (Step.next (pos + 32) token) := by
    simp [scan_step, rd_of_getElem? hdel, DIR_ENTRY_SIZE]
  refine ⟨hstep, ?_⟩
  have hlt : pos < buf.length := by
    rw [List.getElem?_eq_some] at hdel
    exact hdel.1
  obtain ⟨m, rfl⟩ : ∃ m, n = m + 1 := ⟨n - 1, by omega⟩
  rw [scan_entries_fuel buf cur size m (m + 1) (pos + 32) token (by omega) (by omega)]
  simp [scan_entries, hstep]

/-- Witness of `deleted_record_skipped`: a deleted long-form record whose name
bytes are those of the token `abc`, in front of `foo_dir`. -/
theorem deleted_record_skipped_witness :
    ((0xe5 :: (long_record (bytes "abc") 0x41 1 0).tail ++ foo_dir)[0]? = some 0xe5 ∧
      (0xe5 :: (long_record (bytes "abc") 0x41 1 0).tail ++ foo_dir).length ≤ 0 + 32 * 129) ∧
    (scan_step (0xe5 :: (long_record (bytes "abc") 0x41 1 0).tail ++ foo_dir) (cstr "abc") 0
        = .ok (Step.next (0 + 32) (cstr "abc")) ∧
      scan_entries (0xe5 :: (long_record (bytes "abc") 0x41 1 0).tail ++ foo_dir) 2 0 129 0
          (cstr "abc")
        = scan_entries (0xe5 :: (long_record (bytes "abc") 0x41 1 0).tail ++ foo_dir) 2 0 129
          (0 + 32) (cstr "abc")) :=
  ⟨⟨by decide!, by decide!⟩,
    deleted_record_skipped (0xe5 :: (long_record (bytes "abc") 0x41 1 0).tail ++ foo_dir)
      (cstr "abc") 0 2 0 129 (by decide!) (by decide!)⟩

/-! ### Offsets and sizes in 32 bits (C12, C13) -/

/-- C12 (failing input): with clusters of 4096 bytes and the cluster area at
byte 16793600, the directory cluster 1048578 lies at byte
`16793600 + 1048576 * 4096 = 4311760896`; the source computes the product in
`uint32_t`, where it is 0, and seeks to byte 16793600, the place of
cluster 2. -/
theorem cluster_offset_wraps :
    cluster_offset ⟨16793600, 4096, 2⟩ 1048578 = 16793600 ∧
    cluster_offset ⟨16793600, 4096, 2⟩ 2 = 16793600 ∧
    16793600 + (1048578 - 2) * 4096 = 4311760896 := by
  decide!

/-- C13 (failing input): for the boot sector `boot_image` (512-byte sectors, 32
reserved sectors, 4 FAT copies of 2097152 sectors) `read_fat32_metadata` sets
the FAT size to 1073741824 bytes and the cluster-data offset to 16384: the
product `fat32_size * nb_fats` is computed in `uint32_t`, where it is 0.  The
exact offset, which is also the end of the last FAT copy, is 4294983680. -/
theorem clusters_area_offset_wraps :
    read_fat32_metadata boot_image
      = .ok (some ⟨⟨512, 8, 32, 4⟩, ⟨2097152, 2⟩, 1073741824, 16384, 4096⟩) ∧
    32 * 512 + 2097152 * 512 * 4 = 4294983680 ∧
    (16384 : Nat) < 32 * 512 + 2097152 * 512 * 4 := by
  decide!

/-! ### Separators after a long name (C14) and the count of `long_form_cmp` (C16) -/

/-- C14 (failing input): the paths `/document.txt/` and `/document.txt//` have
the same non-empty pieces, and in `document_dir` the first resolves to cluster
7 and 4321 bytes while the second returns 0: `long_form_cmp` counts the
terminator of the 12-character name, and the byte read at `token[13]` is the
NUL of the path for the first and the second `/` for the second. -/
theorem trailing_slashes_change_result :
    pieces (cstr "/document.txt/") = .ok [bytes "document.txt"] ∧
    pieces (cstr "/document.txt//") = .ok [bytes "document.txt"] ∧
    get_file_start_cluster document_dir (geom 96) (cstr "/document.txt/") 0 0 = .ok (7, 4321) ∧
    get_file_start_cluster document_dir (geom 96) (cstr "/document.txt//") 0 0 = .ok (0, 0) := by
  decide!

/-- C16 (failing input): for the record of the 11-character name `my_pictures`
and the token `my_pictures`, `long_form_cmp` returns 12, more than the length
of the token; for the 12-character name `document.txt` it returns 13.  The
inner loop of `get_entry_start_cluster` ends with `tok_pos = 12`, past the
NUL of the token at index 11, and `token[12]` is read outside the string. -/
theorem long_form_cmp_counts_terminator :
    (bytes "my_pictures").length = 11 ∧
    long_form_cmp (lfn_run (bytes "my_pictures") 0) (cstr "my_pictures") = .ok 12 ∧
    (bytes "document.txt").length = 12 ∧
    long_form_cmp (lfn_run (bytes "document.txt") 0) (cstr "document.txt") = .ok 13 ∧
    long_run pictures_dir (cstr "my_pictures") 0 1 none 0 = .ok (12, 12) ∧
    scan_step pictures_dir (cstr "my_pictures") 0 = .fault .token_oob := by
  decide!

/-! ### Reads outside the cluster buffer (C20) -/

/-- C20 (failing input): in the full directory cluster `full_dir` (64 bytes,
two live records, no record with first byte 0) the scan for `C.TXT` reads the
byte at offset 64, outside the buffer; in `overrun_dir` (64 bytes) the
sequence byte `0x43` announces three records and `long_form_cmp` is applied to
the record at offset 64. -/
theorem scan_reads_past_cluster :
    full_dir.length = 64 ∧
    scan_step full_dir (cstr "C.TXT") 0 = .ok (Step.next 32 (cstr "C.TXT")) ∧
    scan_step full_dir (cstr "C.TXT") 32 = .ok (Step.next 64 (cstr "C.TXT")) ∧
    scan_step full_dir (cstr "C.TXT") 64 = .fault .cluster_oob ∧
    get_entry_start_cluster full_dir (geom 64) (cstr "C.TXT") 2 0 = .fault .cluster_oob ∧
    overrun_dir.length = 64 ∧
    get_entry_start_cluster overrun_dir (geom 64) (cstr "abc") 2 0 = .fault .cluster_oob := by
  decide!

/-! ### Termination of the cluster walk (C19) -/

theorem chain_at_end (fat : List Nat) (i : Nat) : chain_at fat i END_OF_CHAIN = none := by
  cases i <;> simp [chain_at]

theorem cluster_walk_mono (fat : List Nat) :
    ∀ (k s nb : Nat) (r : Exec (List Nat × Nat)), cluster_walk fat k s nb = some r →
      cluster_walk fat (k + 1) s nb = some r := by
  intro k
  induction k with
  | zero =>
    intro s nb r h
    cases h
  | succ k ih =>
    intro s nb r h
    rw [cluster_walk] at h ⊢
    by_cases hs : s ≠ END_OF_CHAIN
    · rw [if_pos hs] at h ⊢
      cases hf : fat[s]? with
      | none =>
        simp only [hf] at h
        exact h
      | some nxt =>
        simp only [hf] at h ⊢
        cases hw : cluster_walk fat k nxt (nb + 1) with
        | none => simp [hw] at h
        | some r1 =>
          rw [ih nxt (nb + 1) r1 hw]
          simpa [hw] using h
    · rw [if_neg hs] at h ⊢
      exact h

theorem cluster_walk_mono_le (fat : List Nat) {k m s nb : Nat} {r : Exec (List Nat × Nat)}
    (hkm : k ≤ m) (h : cluster_walk fat k s nb = some r) : cluster_walk fat m s nb = some r := by
  induction m with
  | zero =>
    have : k = 0 := by omega
    subst this
    exact h
  | succ m ih =>
    rcases Nat.lt_or_eq_of_le hkm with hlt | heq
    · exact cluster_walk_mono fat m s nb r (ih (by omega))
    · subst heq
      exact h

/-- A walk that is still running after `k` iterations has visited `k`
clusters. -/
theorem cluster_walk_none (fat : List Nat) :
    ∀ (k s nb : Nat), cluster_walk fat k s nb = none →
      ∀ i, i < k → ∃ a, chain_at fat i s = some a := by
  intro k
  induction k with
  | zero =>
    intro s nb _ i hi
    omega
  | succ k ih =>
    intro s nb h i hi
    rw [cluster_walk] at h
    by_cases hs : s = END_OF_CHAIN
    · simp [hs] at h
    · simp only [ne_eq, hs, not_false_eq_true, if_true] at h
      cases hf : fat[s]? with
      | none => simp [hf] at h
      | some nxt =>
        simp only [hf] at h
        cases hw : cluster_walk fat k nxt (nb + 1) with
        | none =>
          cases i with
          | zero => exact ⟨s, by simp [chain_at, hs]⟩
          | succ j =>
            obtain ⟨a, ha⟩ := ih nxt (nb + 1) hw j (by omega)
            exact ⟨a, by simp [chain_at, hs, hf, ha]⟩
        | some r1 =>
          rw [hw] at h
          cases r1 with
          | fault e => simp at h
          | ok pr => simp at h

/-- A walk that reads outside the FAT does so at a cluster of the chain. -/
theorem cluster_walk_fault (fat : List Nat) :
    ∀ (k s nb : Nat) (e : Fault), cluster_walk fat k s nb = some (.fault e) →
      ∃ i a, i < k ∧ chain_at fat i s = some a ∧ fat[a]? = none := by
  intro k
  induction k with
  | zero =>
    intro s nb e h
    cases h
  | succ k ih =>
    intro s nb e h
    rw [cluster_walk] at h
    by_cases hs : s = END_OF_CHAIN
    · simp [hs] at h
    · simp only [ne_eq, hs, not_false_eq_true, if_true] at h
      cases hf : fat[s]? with
      | none => exact ⟨0, s, by omega, by simp [chain_at, hs], hf⟩
      | some nxt =>
        simp only [hf] at h
        cases hw : cluster_walk fat k nxt (nb + 1) with
        | none => simp [hw] at h
        | some r1 =>
          rw [hw] at h
          cases r1 with
          | fault e1 =>
            obtain ⟨i, a, hi, ha, hfa⟩ := ih nxt (nb + 1) e1 hw
            exact ⟨i + 1, a, by omega, by simp [chain_at, hs, hf, ha], hfa⟩
          | ok pr => simp at h

/-- A walk that ends has printed the clusters of the chain, in order, and
counted them. -/
theorem cluster_walk_ok (fat : List Nat) :
    ∀ (k s nb : Nat) (em : List Nat) (nb1 : Nat),
      cluster_walk fat k s nb = some (.ok (em, nb1)) →
      nb1 = nb + em.length ∧ ∀ i, i < em.length → chain_at fat i s = em[i]? := by
  intro k
  induction k with
  | zero =>
    intro s nb em nb1 h
    cases h
  | succ k ih =>
    intro s nb em nb1 h
    rw [cluster_walk] at h
    by_cases hs : s = END_OF_CHAIN
    · simp only [hs, ne_eq, not_true_eq_false, if_false, Option.some.injEq, Exec.ok.injEq,
        Prod.mk.injEq] at h
      obtain ⟨rfl, rfl⟩ := h
      exact ⟨by simp, fun i hi => by simp at hi⟩
    · simp only [ne_eq, hs, not_false_eq_true, if_true] at h
      cases hf : fat[s]? with
      | none => simp [hf] at h
      | some nxt =>
        simp only [hf] at h
        cases hw : cluster_walk fat k nxt (nb + 1) with
        | none => simp [hw] at h
        | some r1 =>
          rw [hw] at h
          cases r1 with
          | fault e1 => simp at h
          | ok pr =>
            obtain ⟨em1, nb2⟩ := pr
            simp only [Option.some.injEq, Exec.ok.injEq, Prod.mk.injEq] at h
            obtain ⟨rfl, rfl⟩ := h
            obtain ⟨h1, h2⟩ := ih nxt (nb + 1) em1 nb2 hw
            refine ⟨by simp only [List.length_cons]; omega, fun i hi => ?_⟩
            cases i with
            | zero => simp [chain_at, hs]
            | succ j =>
              simp only [List.length_cons] at hi
              simpa [chain_at, hs, hf] using h2 j (by omega)

/-- The clusters of the chain are indexes of the FAT when the start cluster is
one and every link is the end-of-chain value or an index. -/
theorem chain_at_lt (fat : List Nat) :
    ∀ (i m s a : Nat), i ≤ m → s < fat.length →
      (∀ j, j ≤ m → ∀ b c, chain_at fat j s = some b → fat[b]? = some c →
        c = END_OF_CHAIN ∨ c < fat.length) →
      chain_at fat i s = some a → a < fat.length := by
  intro i
  induction i with
  | zero =>
    intro m s a _ hs _ h
    simp only [chain_at] at h
    split at h
    · cases h
    · cases h
      exact hs
  | succ i ih =>
    intro m s a him hs hl h
    simp only [chain_at] at h
    by_cases hse : s = END_OF_CHAIN
    · simp [hse] at h
    · simp only [hse, if_false] at h
      cases hf : fat[s]? with
      | none => simp [hf] at h
      | some c =>
        simp only [hf] at h
        rcases hl 0 (by omega) s c (by simp [chain_at, hse]) hf with hc | hc
        · rw [hc, chain_at_end] at h
          cases h
        · refine ih (m - 1) c a (by omega) hc (fun j hj b d hb hd => ?_) h
          exact hl (j + 1) (by omega) b d (by simp [chain_at, hse, hf, hb]) hd

/-- Pigeonhole: a chain without repetition whose clusters are indexes of the
FAT has at most as many clusters as the FAT has entries. -/
theorem chain_length_le (fat : List Nat) (s k : Nat)
    (hlt : ∀ i a, i < k → chain_at fat i s = some a → a < fat.length)
    (hnodup : ∀ j, j < k → ∀ i, i < j → chain_at fat i s ≠ chain_at fat j s)
    (hk : ∀ i, i < k → ∃ a, chain_at fat i s = some a) : k ≤ fat.length := by
  have hnd : ((List.range k).map (fun i => (chain_at fat i s).getD 0)).Nodup := by
    apply List.Nodup.map_on _ (List.nodup_range k)
    intro x hx y hy hxy
    rw [List.mem_range] at hx hy
    obtain ⟨a, ha⟩ := hk x hx
    obtain ⟨b, hb⟩ := hk y hy
    simp only [ha, hb, Option.getD_some] at hxy
    subst hxy
    by_contra hne
    rcases Nat.lt_or_gt_of_ne hne with h | h
    · exact hnodup y hy x h (by rw [ha, hb])
    · exact hnodup x hx y h (by rw [ha, hb])
  have hsub : (List.range k).map (fun i => (chain_at fat i s).getD 0) ⊆ List.range fat.length := by
    intro v hv
    rw [List.mem_map] at hv
    obtain ⟨i, hi, rfl⟩ := hv
    rw [List.mem_range] at hi
    obtain ⟨a, ha⟩ := hk i hi
    rw [List.mem_range, ha]
    exact hlt i a hi ha
  have := (List.subperm_of_subset hnd hsub).length_le
  simpa using this

/-- C19: for a FAT of `n` entries and a start cluster below `n`, when the
chain from it never visits a cluster twice and the link of every cluster
visited is `0xfffffff` or an index below `n`, the walk of `main` ends within
`n + 1` iterations with at most `n` clusters printed (and a count equal to
their number). -/
theorem cluster_walk_terminates (fat : List Nat) (s : Nat) (hs : s < fat.length)
    (hlinks : ∀ i, i ≤ fat.length → ∀ a c, chain_at fat i s = some a → fat[a]? = some c →
      c = END_OF_CHAIN ∨ c < fat.length)
    (hnodup : ∀ j, j ≤ fat.length → ∀ i, i < j → chain_at fat i s ≠ none →
      chain_at fat i s ≠ chain_at fat j s) :
    ∃ emitted : List Nat,
      (∀ fuel, fat.length + 1 ≤ fuel →
        cluster_walk fat fuel s 0 = some (.ok (emitted, emitted.length))) ∧
      emitted.length ≤ fat.length := by
  have hlt : ∀ k, k ≤ fat.length + 1 → ∀ i a, i < k → chain_at fat i s = some a →
      a < fat.length := fun k hk i a hi ha =>
    chain_at_lt fat i fat.length s a (by omega) hs hlinks ha
  have hnd : ∀ k, k ≤ fat.length + 1 → (∀ i, i < k → ∃ a, chain_at fat i s = some a) →
      ∀ j, j < k → ∀ i, i < j → chain_at fat i s ≠ chain_at fat j s := by
    intro k hk hex j hj i hij
    obtain ⟨a, ha⟩ := hex i (by omega)
    exact hnodup j (by omega) i hij (by rw [ha]; simp)
  cases hw : cluster_walk fat (fat.length + 1) s 0 with
  | none =>
    have hex := cluster_walk_none fat (fat.length + 1) s 0 hw
    have := chain_length_le fat s (fat.length + 1) (hlt _ (Nat.le_refl _))
      (hnd _ (Nat.le_refl _) hex) hex
    omega
  | some r =>
    cases r with
    | fault e =>
      obtain ⟨i, a, hi, ha, hfa⟩ := cluster_walk_fault fat _ s 0 e hw
      have hal := hlt _ (Nat.le_refl _) i a hi ha
      rw [List.getElem?_eq_none_iff] at hfa
      omega
    | ok pr =>
      obtain ⟨em, nb⟩ := pr
      obtain ⟨hnb, hch⟩ := cluster_walk_ok fat _ s 0 em nb hw
      have hnb1 : nb = em.length := by omega
      subst hnb1
      have hex : ∀ i, i < em.length → ∃ a, chain_at fat i s = some a := fun i hi =>
        ⟨em[i], by rw [hch i hi, List.getElem?_eq_getElem hi]⟩
      have hle : em.length ≤ fat.length + 1 := by
        by_contra hgt
        have hex1 : ∀ i, i < fat.length + 1 → ∃ a, chain_at fat i s = some a :=
          fun i hi => hex i (by omega)
        have := chain_length_le fat s (fat.length + 1) (hlt _ (Nat.le_refl _))
          (hnd _ (Nat.le_refl _) hex1) hex1
        omega
      refine ⟨em, fun fuel hf => cluster_walk_mono_le fat hf hw, ?_⟩
      exact chain_length_le fat s em.length (hlt _ hle) (hnd _ hle hex) hex

theorem example_fat_links :
    ∀ i, i ≤ [0, 0, 3, 4, 0xfffffff].length → ∀ a c,
      chain_at [0, 0, 3, 4, 0xfffffff] i 2 = some a → [0, 0, 3, 4, 0xfffffff][a]? = some c →
      c = END_OF_CHAIN ∨ c < [0, 0, 3, 4, 0xfffffff].length := by
  intro i hi a c h1 h2
  simp only [List.length_cons, List.length_nil] at hi
  interval_cases i
  · have : a = 2 := by
      have h : chain_at [0, 0, 3, 4, 0xfffffff] 0 2 = some 2 := by decide
      rw [h] at h1
      exact (Option.some.inj h1).symm
    subst this
    have : c = 3 := (Option.some.inj h2).symm
    subst this
    right
    decide
  · have : a = 3 := by
      have h : chain_at [0, 0, 3, 4, 0xfffffff] 1 2 = some 3 := by decide
      rw [h] at h1
      exact (Option.some.inj h1).symm
    subst this
    have : c = 4 := (Option.some.inj h2).symm
    subst this
    right
    decide
  · have : a = 4 := by
      have h : chain_at [0, 0, 3, 4, 0xfffffff] 2 2 = some 4 := by decide
      rw [h] at h1
      exact (Option.some.inj h1).symm
    subst this
    have : c = 0xfffffff := (Option.some.inj h2).symm
    subst this
    left
    rfl
  · have h : chain_at [0, 0, 3, 4, 0xfffffff] 3 2 = none := by decide
    rw [h] at h1
    cases h1
  · have h : chain_at [0, 0, 3, 4, 0xfffffff] 4 2 = none := by decide
    rw [h] at h1
    cases h1
  · have h : chain_at [0, 0, 3, 4, 0xfffffff] 5 2 = none := by decide
    rw [h] at h1
    cases h1

/-- Witness of `cluster_walk_terminates`: the chain 2, 3, 4 in a FAT of five
entries. -/
theorem cluster_walk_terminates_witness :
    (2 < [0, 0, 3, 4, 0xfffffff].length ∧
      (∀ i, i ≤ [0, 0, 3, 4, 0xfffffff].length → ∀ a c,
        chain_at [0, 0, 3, 4, 0xfffffff] i 2 = some a → [0, 0, 3, 4, 0xfffffff][a]? = some c →
        c = END_OF_CHAIN ∨ c < [0, 0, 3, 4, 0xfffffff].length) ∧
      (∀ j, j ≤ [0, 0, 3, 4, 0xfffffff].length → ∀ i, i < j →
        chain_at [0, 0, 3, 4, 0xfffffff] i 2 ≠ none →
        chain_at [0, 0, 3, 4, 0xfffffff] i 2 ≠ chain_at [0, 0, 3, 4, 0xfffffff] j 2)) ∧
    ∃ emitted : List Nat,
      (∀ fuel, [0, 0, 3, 4, 0xfffffff].length + 1 ≤ fuel →
        cluster_walk [0, 0, 3, 4, 0xfffffff] fuel 2 0 = some (.ok (emitted, emitted.length))) ∧
      emitted.length ≤ [0, 0, 3, 4, 0xfffffff].length :=
  ⟨⟨by decide, example_fat_links, by decide⟩,
    cluster_walk_terminates [0, 0, 3, 4, 0xfffffff] 2 (by decide) example_fat_links (by decide)⟩

/-! ### `short_form_cmp` (C15) -/

/-- The comparison `a[j] == toupper(b[j])` of `short_form_cmp` in terms of the
two bytes: it holds when the field byte is below `0x80` and is the token byte
with an ASCII letter upper-cased, or when both bytes are `0xff`.  A field byte
from `0x80` to `0xfe` is a negative `char`, `toupper` never returns its value,
and no token byte matches it. -/
theorem char_eq_toupper_bytes (x y : Nat) (hx : x < 256) (hy : y < 256) :
    char_val x = toupper (char_val y) ↔ (x < 128 ∧ x = ascii_upper y) ∨ (x = 255 ∧ y = 255) := by
  simp only [toupper, char_val, ascii_upper]
  repeat (first | split | omega)

/-- The name field `E       ` matches the token `e`; a name field that starts
with the byte `0xe9` does not match the token of the same byte; a name field
that starts with the byte `0xff` matches the token of the same byte. -/
theorem short_form_cmp_high_bytes :
    short_form_cmp (69 :: List.replicate 31 32) [101, 0] 8 = .ok 1 ∧
    short_form_cmp (0xe9 :: List.replicate 31 32) [0xe9, 0] 8 = .ok (-1) ∧
    short_form_cmp (0xff :: List.replicate 31 32) [0xff, 0] 8 = .ok 1 := by
  decide!

/-! ### `long_form_cmp` on a record of `k` name characters (C17) -/

theorem token_view_lt {t rest : List Nat} {j : Nat} (h : j < t.length) :
    (t ++ 0 :: rest)[j]? = t[j]? := List.getElem?_append_left h

theorem token_view_end (t rest : List Nat) : (t ++ 0 :: rest)[t.length]? = some 0 := by
  rw [List.getElem?_append_right (Nat.le_refl _)]
  simp

/-- A token view that shows `k` non-zero bytes holds them in the token. -/
theorem token_prefix_in {t rest : List Nat} {U : Nat → Nat} {k : Nat}
    (hU : ∀ j, j < k → U j ≠ 0) (h : ∀ j, j < k → (t ++ 0 :: rest)[j]? = some (U j)) :
    k ≤ t.length := by
  by_contra hlt
  have h1 := h t.length (by omega)
  rw [token_view_end] at h1
  exact hU t.length (by omega) (Option.some.inj h1).symm

/-- Either the token view shows the `k` non-zero bytes `U`, or there is a first
position where it shows another byte. -/
theorem first_departure (t rest : List Nat) (U : Nat → Nat) :
    ∀ k, (∀ j, j < k → U j ≠ 0) →
      (∀ j, j < k → (t ++ 0 :: rest)[j]? = some (U j)) ∨
      ∃ m y, m < k ∧ (∀ j, j < m → (t ++ 0 :: rest)[j]? = some (U j)) ∧
        (t ++ 0 :: rest)[m]? = some y ∧ y ≠ U m := by
  intro k
  induction k with
  | zero =>
    intro _
    exact Or.inl (fun j hj => absurd hj (Nat.not_lt_zero j))
  | succ k ih =>
    intro hU
    rcases ih (fun j hj => hU j (by omega)) with h | ⟨m, y, hm, hpre, hy, hne⟩
    · have hkt := token_prefix_in (fun j hj => hU j (by omega)) h
      have hdef : ∃ y, (t ++ 0 :: rest)[k]? = some y := by
        have : k < (t ++ 0 :: rest).length := by
          simp only [List.length_append, List.length_cons]
          omega
        exact ⟨_, List.getElem?_eq_getElem this⟩
      obtain ⟨y, hy⟩ := hdef
      by_cases hyu : y = U k
      · left
        intro j hj
        rcases Nat.lt_or_eq_of_le (Nat.le_of_lt_succ hj) with h1 | h1
        · exact h j h1
        · rw [h1, hy, hyu]
      · exact Or.inr ⟨k, y, by omega, h, hy, hyu⟩
    · exact Or.inr ⟨m, y, by omega, hpre, hy, hne⟩

/-- C17: for a long-form record `a` whose name part is `k` non-zero low bytes
`U 0 .. U (k - 1)` (at the even offsets of the three fragments) followed, when
`k < 13`, by a zero low byte, and a token `t` (followed by its NUL and by
whatever comes after it in the path buffer): `long_form_cmp` returns a value,
and the value differs from -1 if and only if the first `k` characters of the
token are those `k` bytes and either `k < 13` and the token has exactly `k`
characters, or `k = 13` and the token has at least 13.  The high bytes of the
code units are not constrained, and the bytes are compared as they are. -/
theorem long_form_cmp_spec (a t rest : List Nat) (k : Nat) (U : Nat → Nat) (hk : k ≤ 13)
    (ht : ∀ c ∈ t, c ≠ 0)
    (hU : ∀ j, j < k → a[lfn_slot j]? = some (U j) ∧ U j ≠ 0)
    (hz : k < 13 → a[lfn_slot k]? = some 0) :
    ∃ v, long_form_cmp a (t ++ 0 :: rest) = .ok v ∧
      (v ≠ -1 ↔ ((∀ j, j < k → t[j]? = some (U j)) ∧
        ((k < 13 ∧ t.length = k) ∨ (k = 13 ∧ 13 ≤ t.length)))) := by
  have htnz : ∀ j, j < t.length → ∀ y, t[j]? = some y → y ≠ 0 := by
    intro j _ y hy
    exact ht y (List.getElem?_mem hy)
  rcases first_departure t rest U k (fun j hj => (hU j hj).2) with hall | ⟨m, y, hm, hpre, hy, hne⟩
  · have hkt := token_prefix_in (fun j hj => (hU j hj).2) hall
    have htU : ∀ j, j < k → t[j]? = some (U j) := fun j hj => by
      rw [← (token_view_lt (by omega) : (t ++ 0 :: rest)[j]? = t[j]?)]
      exact hall j hj
    by_cases hk13 : k = 13
    · subst hk13
      refine ⟨13, long_form_cmp_full (fun j hj => ⟨(hU j hj).1, hall j hj, (hU j hj).2⟩), ?_⟩
      constructor
      · intro _
        exact ⟨htU, Or.inr ⟨rfl, hkt⟩⟩
      · intro _
        decide
    · have hlt : k < 13 := by omega
      have hdef : ∃ y, (t ++ 0 :: rest)[k]? = some y := by
        have : k < (t ++ 0 :: rest).length := by
          simp only [List.length_append, List.length_cons]
          omega
        exact ⟨_, List.getElem?_eq_getElem this⟩
      obtain ⟨y, hy⟩ := hdef
      have hval := long_form_cmp_stop hlt (fun j hj => ⟨(hU j hj).1, hall j hj, (hU j hj).2⟩)
        (hz hlt) hy (Or.inl rfl)
      refine ⟨_, hval, ?_⟩
      by_cases hy0 : y = 0
      · subst hy0
        have hlen : t.length = k := by
          by_contra hne
          have hklt : k < t.length := by omega
          rw [token_view_lt hklt] at hy
          exact htnz k hklt 0 hy rfl
        simp only [if_true]
        constructor
        · intro _
          exact ⟨htU, Or.inl ⟨hlt, hlen⟩⟩
        · intro _
          split <;> omega
      · have h0y : ¬ (0 = y) := fun h => hy0 h.symm
        simp only [h0y, if_false]
        constructor
        · intro h
          exact absurd rfl h
        · rintro ⟨_, ⟨_, hlen⟩ | ⟨h13, _⟩⟩
          · rw [← hlen, token_view_end] at hy
            exact absurd (Option.some.inj hy).symm hy0
          · exact absurd h13 hk13
  · have hm13 : m < 13 := by omega
    have hval := long_form_cmp_stop hm13
      (fun j hj => ⟨(hU j (by omega)).1, hpre j hj, (hU j (by omega)).2⟩)
      (hU m hm).1 hy (Or.inr (Or.inr (Ne.symm hne)))
    have hxy : ¬ (U m = y) := fun h => hne h.symm
    simp only [hxy, if_false] at hval
    refine ⟨-1, hval, ?_⟩
    simp only [ne_eq, not_true_eq_false, false_iff, not_and]
    intro htU
    exfalso
    have h1 := htU m hm
    have hml : m < t.length := (List.getElem?_eq_some.1 h1).1
    rw [token_view_lt hml, h1] at hy
    exact hne (Option.some.inj hy).symm

/-- Witness of `long_form_cmp_spec`: the long-form record of `abc` and the
token `abc`. -/
theorem long_form_cmp_spec_witness :
    (3 ≤ 13 ∧ (∀ c ∈ bytes "abc", c ≠ 0) ∧
      (∀ j, j < 3 → (long_record (bytes "abc") 0x41 1 0)[lfn_slot j]?
          = some (lfn_unit (bytes "abc") j) ∧ lfn_unit (bytes "abc") j ≠ 0) ∧
      (3 < 13 → (long_record (bytes "abc") 0x41 1 0)[lfn_slot 3]? = some 0)) ∧
    ∃ v, long_form_cmp (long_record (bytes "abc") 0x41 1 0) (bytes "abc" ++ 0 :: []) = .ok v ∧
      (v ≠ -1 ↔ ((∀ j, j < 3 → (bytes "abc")[j]? = some (lfn_unit (bytes "abc") j)) ∧
        ((3 < 13 ∧ (bytes "abc").length = 3) ∨ (3 = 13 ∧ 13 ≤ (bytes "abc").length)))) :=
  ⟨⟨by decide, by decide!, by decide!, by decide!⟩,
    long_form_cmp_spec (long_record (bytes "abc") 0x41 1 0) (bytes "abc") [] 3
      (fun j => lfn_unit (bytes "abc") j) (by decide) (by decide!) (by decide!) (by decide!)⟩

/-! ### The scan stops at the terminating record (C18) -/

theorem rd_agree {buf1 buf2 : List Nat} {i : Nat} (e : Fault) (h : buf1[i]? = buf2[i]?) :
    rd e buf1 i = rd e buf2 i := by
  simp [rd, h]

theorem short_form_exit_agree {a1 a2 : List Nat} (b : List Nat) (maxlen i : Nat)
    (h : a1[i]? = a2[i]?) :
    short_form_exit a1 b maxlen i = short_form_exit a2 b maxlen i := by
  simp [short_form_exit, rd_agree .cluster_oob h]

theorem short_form_loop_agree {a1 a2 : List Nat} (b : List Nat) (maxlen : Nat)
    (h : ∀ j, j ≤ maxlen → a1[j]? = a2[j]?) :
    ∀ n i, i + n = maxlen →
      short_form_loop a1 b maxlen n i = short_form_loop a2 b maxlen n i := by
  intro n
  induction n with
  | zero =>
    intro i hi
    simp only [short_form_loop]
    exact short_form_exit_agree b maxlen i (h i (by omega))
  | succ n ih =>
    intro i hi
    simp only [short_form_loop, rd_agree .cluster_oob (h i (by omega)),
      short_form_exit_agree b maxlen i (h i (by omega)), ih (i + 1) (by omega)]

theorem short_form_cmp_agree {buf1 buf2 : List Nat} {m : Nat}
    (hag : ∀ i, i < m → buf1[i]? = buf2[i]?) (b : List Nat) (p maxlen : Nat)
    (hp : p + maxlen < m) :
    short_form_cmp (buf1.drop p) b maxlen = short_form_cmp (buf2.drop p) b maxlen := by
  apply short_form_loop_agree b maxlen _ maxlen 0 (by omega)
  intro j hj
  rw [List.getElem?_drop, List.getElem?_drop]
  exact hag _ (by omega)

theorem entry_result_agree {buf1 buf2 : List Nat} {m : Nat}
    (hag : ∀ i, i < m → buf1[i]? = buf2[i]?) (p : Nat) (hp : p + 32 ≤ m) :
    entry_result buf1 p = entry_result buf2 p := by
  simp only [entry_result, rd16, rd32, DIR_ENTRY_ATTR,
    rd_agree .cluster_oob (hag (p + 20) (by omega)),
    rd_agree .cluster_oob (hag (p + 20 + 1) (by omega)),
    rd_agree .cluster_oob (hag (p + 26) (by omega)),
    rd_agree .cluster_oob (hag (p + 26 + 1) (by omega)),
    rd_agree .cluster_oob (hag (p + 28) (by omega)),
    rd_agree .cluster_oob (hag (p + 28 + 1) (by omega)),
    rd_agree .cluster_oob (hag (p + 28 + 2) (by omega)),
    rd_agree .cluster_oob (hag (p + 28 + 3) (by omega)),
    rd_agree .cluster_oob (hag (p + 11) (by omega))]

theorem short_branch_agree {buf1 buf2 : List Nat} {m : Nat}
    (hag : ∀ i, i < m → buf1[i]? = buf2[i]?) (token : List Nat) (p : Nat) (hp : p + 32 ≤ m) :
    short_branch buf1 token p = short_branch buf2 token p := by
  simp only [short_branch, SHORT_NAME_SIZE, SHORT_EXT_SIZE,
    short_form_cmp_agree hag _ p 8 (by omega),
    short_form_cmp_agree hag _ (p + 8) 3 (by omega), entry_result_agree hag p hp]

/-- On a record that is deleted or short-form, the iteration reads only the 32
bytes of the record. -/
theorem scan_step_agree {buf1 buf2 : List Nat} {m : Nat}
    (hag : ∀ i, i < m → buf1[i]? = buf2[i]?) (token : List Nat) (p : Nat) (hp : p + 32 ≤ m)
    (hrec : buf1[p]? = some 0xe5 ∨ buf1[p + 11]? ≠ some 0x0f) :
    scan_step buf1 token p = scan_step buf2 token p := by
  have h0 := hag p (by omega)
  have h11 := hag (p + 11) (by omega)
  simp only [scan_step, ← rd_agree .cluster_oob h0, ← rd_agree .cluster_oob h11, DIR_ENTRY_ATTR]
  cases hb : rd .cluster_oob buf1 p with
  | fault e => rfl
  | ok b0 =>
    simp only [Exec.ok_bind]
    split
    · rfl
    · split
      · rfl
      · rename_i hne
        cases ha : rd .cluster_oob buf1 (p + 11) with
        | fault e => rfl
        | ok attr =>
          have hattr : attr ≠ 0x0f := by
            rcases hrec with h | h
            · rw [rd_eq_ok, h] at hb
              exact absurd (Option.some.inj hb).symm hne
            · intro h1
              rw [rd_eq_ok, h1] at ha
              exact h ha
          simp only [Exec.ok_bind, hattr, if_false]
          exact short_branch_agree hag token p hp

/-- On a record that is deleted or short-form, an iteration that goes on moves
to the next record, and one that returns has read the fields of the record. -/
theorem scan_step_short {buf token : List Nat} {p : Nat}
    (hrec : buf[p]? = some 0xe5 ∨ buf[p + 11]? ≠ some 0x0f) :
    (∀ p1 t1, scan_step buf token p = .ok (Step.next p1 t1) → p1 = p + 32) ∧
    (∀ r, scan_step buf token p = .ok (Step.done r) → entry_result buf p = .ok r) := by
  have hkey : ∀ st, scan_step buf token p = .ok st →
      st = Step.stop ∨ st = Step.next (p + 32) token ∨ short_branch buf token p = .ok st := by
    intro st h
    simp only [scan_step, Exec.bind_eq_ok, rd_eq_ok] at h
    obtain ⟨b0, hb0, h⟩ := h
    split at h
    · cases h
      exact Or.inl rfl
    · split at h
      · cases h
        exact Or.inr (Or.inl rfl)
      · rename_i hne
        simp only [Exec.bind_eq_ok, rd_eq_ok, DIR_ENTRY_ATTR] at h
        obtain ⟨attr, hattr, h⟩ := h
        have hat : attr ≠ 0x0f := by
          rcases hrec with h1 | h1
          · rw [h1] at hb0
            exact absurd (Option.some.inj hb0).symm hne
          · intro h2
            rw [h2] at hattr
            exact h1 hattr
        simp only [hat, if_false] at h
        exact Or.inr (Or.inr h)
  have hbranch : ∀ st, short_branch buf token p = .ok st →
      (∀ p1 t1, st = Step.next p1 t1 → p1 = p + 32) ∧
      (∀ r, st = Step.done r → entry_result buf p = .ok r) := by
    intro st h
    simp only [short_branch, Exec.bind_eq_ok] at h
    obtain ⟨ret, -, h⟩ := h
    split at h
    · simp only [Exec.bind_eq_ok] at h
      obtain ⟨c, -, ret2, -, h⟩ := h
      split at h
      · simp only [Exec.bind_eq_ok, Exec.pure_eq, Exec.ok.injEq] at h
        obtain ⟨r1, hr1, rfl⟩ := h
        refine ⟨fun p1 t1 h => (by cases h), fun r h => ?_⟩
        cases h
        exact hr1
      · simp only [Exec.pure_eq, Exec.ok.injEq] at h
        subst h
        refine ⟨fun p1 t1 h => ?_, fun r h => (by cases h)⟩
        simp only [Step.next.injEq, DIR_ENTRY_SIZE] at h
        exact h.1.symm
    · simp only [Exec.pure_eq, Exec.ok.injEq] at h
      subst h
      refine ⟨fun p1 t1 h => ?_, fun r h => (by cases h)⟩
      simp only [Step.next.injEq, DIR_ENTRY_SIZE] at h
      exact h.1.symm
  constructor
  · intro p1 t1 h
    rcases hkey _ h with h1 | h1 | h1
    · cases h1
    · simp only [Step.next.injEq] at h1
      exact h1.1
    · exact (hbranch _ h1).1 p1 t1 rfl
  · intro r h
    rcases hkey _ h with h1 | h1 | h1
    · cases h1
    · cases h1
    · exact (hbranch _ h1).2 r rfl

theorem scan_entries_agree {buf1 buf2 : List Nat} (c s n : Nat)
    (hag : ∀ i, i < 32 * n + 1 → buf1[i]? = buf2[i]?) (hshape : terminated_at buf1 n) :
    ∀ (d k f1 f2 : Nat) (token : List Nat), k + d = n → d < f1 → d < f2 →
      scan_entries buf1 c s f1 (32 * k) token = scan_entries buf2 c s f2 (32 * k) token ∧
      ∀ r, scan_entries buf1 c s f1 (32 * k) token = .ok r → r.ret ≠ -1 →
        ∃ j, j < n ∧ entry_result buf1 (32 * j) = .ok r := by
  intro d
  induction d with
  | zero =>
    intro k f1 f2 token hk h1 h2
    obtain ⟨f1, rfl⟩ : ∃ g, f1 = g + 1 := ⟨f1 - 1, by omega⟩
    obtain ⟨f2, rfl⟩ : ∃ g, f2 = g + 1 := ⟨f2 - 1, by omega⟩
    have hk1 : k = n := by omega
    subst hk1
    have ht1 := hshape.1
    have ht2 : buf2[32 * k]? = some 0 := by rw [← hag (32 * k) (by omega)]; exact ht1
    have hs1 : scan_step buf1 token (32 * k) = .ok Step.stop := by
      simp [scan_step, rd_of_getElem? ht1]
    have hs2 : scan_step buf2 token (32 * k) = .ok Step.stop := by
      simp [scan_step, rd_of_getElem? ht2]
    simp only [scan_entries, hs1, hs2, Exec.ok_bind, Exec.pure_eq, true_and]
    intro r hr hne
    simp only [Exec.ok.injEq] at hr
    subst hr
    exact absurd rfl hne
  | succ d ih =>
    intro k f1 f2 token hk h1 h2
    obtain ⟨f1, rfl⟩ : ∃ g, f1 = g + 1 := ⟨f1 - 1, by omega⟩
    obtain ⟨f2, rfl⟩ : ∃ g, f2 = g + 1 := ⟨f2 - 1, by omega⟩
    have hkn : k < n := by omega
    have hrec := (hshape.2 k hkn).2
    have hstep := scan_step_agree hag token (32 * k) (by omega) hrec
    have hshort := @scan_step_short buf1 token (32 * k) hrec
    simp only [scan_entries, ← hstep]
    cases hs : scan_step buf1 token (32 * k) with
    | fault e =>
      refine ⟨rfl, fun r hr _ => ?_⟩
      cases hr
    | ok st =>
      cases st with
      | done r =>
        refine ⟨rfl, fun r1 hr _ => ?_⟩
        simp only [Exec.ok_bind, Exec.pure_eq, Exec.ok.injEq] at hr
        subst hr
        exact ⟨k, hkn, hshort.2 r hs⟩
      | stop =>
        refine ⟨rfl, fun r hr hne => ?_⟩
        simp only [Exec.ok_bind, Exec.pure_eq, Exec.ok.injEq] at hr
        subst hr
        exact absurd rfl hne
      | next p1 t1 =>
        have hp1 := hshort.1 p1 t1 hs
        have hp2 : p1 = 32 * (k + 1) := by omega
        subst hp2
        simp only [Exec.ok_bind]
        exact ih (k + 1) f1 f2 t1 (by omega) (by omega) (by omega)

/-- C18: let the first record with first byte 0 of a directory cluster be the
record `n`, the records before it being deleted or live short-form records.
For every token, `get_entry_start_cluster` gives the same result on every
other cluster that has the same bytes up to the first byte of that record
(whatever follows, and whatever the image and the geometry it is read with),
and a result other than -1 is read from one of the records before the
terminating record. -/
theorem scan_stops_at_terminator (disk1 disk2 : List Nat) (g1 g2 : Geometry)
    (token : List Nat) (cur size n : Nat) (buf1 buf2 : List Nat)
    (h1 : read_cluster disk1 g1 cur = some buf1) (h2 : read_cluster disk2 g2 cur = some buf2)
    (hshape : terminated_at buf1 n)
    (hsame : buf1.take (32 * n + 1) = buf2.take (32 * n + 1)) :
    get_entry_start_cluster disk1 g1 token cur size
      = get_entry_start_cluster disk2 g2 token cur size ∧
    ∀ r, get_entry_start_cluster disk1 g1 token cur size = .ok r → r.ret ≠ -1 →
      ∃ j, j < n ∧ entry_result buf1 (32 * j) = .ok r := by
  have hag : ∀ i, i < 32 * n + 1 → buf1[i]? = buf2[i]? := by
    intro i hi
    have e1 : (buf1.take (32 * n + 1))[i]? = buf1[i]? := by
      rw [List.getElem?_take, if_pos hi]
    have e2 : (buf2.take (32 * n + 1))[i]? = buf2[i]? := by
      rw [List.getElem?_take, if_pos hi]
    rw [← e1, ← e2, hsame]
  have hl1 : 32 * n < buf1.length := (List.getElem?_eq_some.1 hshape.1).1
  have hl2 : 32 * n < buf2.length := by
    have h0 : buf2[32 * n]? = some 0 := by rw [← hag (32 * n) (by omega)]; exact hshape.1
    exact (List.getElem?_eq_some.1 h0).1
  have := scan_entries_agree cur size n hag hshape n 0 (buf1.length + 1) (buf2.length + 1) token
    (by omega) (by omega) (by omega)
  simp only [get_entry_start_cluster, h1, h2]
  exact this

/-- Witness of `scan_stops_at_terminator`: `foo_dir` and `foo_dir_junk`, token
`ZZ.TXT`. -/
theorem scan_stops_at_terminator_witness :
    (read_cluster foo_dir (geom 96) 2 = some foo_dir ∧
      read_cluster foo_dir_junk (geom 128) 2 = some foo_dir_junk ∧
      terminated_at foo_dir 2 ∧
      foo_dir.take (32 * 2 + 1) = foo_dir_junk.take (32 * 2 + 1)) ∧
    (get_entry_start_cluster foo_dir (geom 96) (cstr "ZZ.TXT") 2 0
        = get_entry_start_cluster foo_dir_junk (geom 128) (cstr "ZZ.TXT") 2 0 ∧
      ∀ r, get_entry_start_cluster foo_dir (geom 96) (cstr "ZZ.TXT") 2 0 = .ok r → r.ret ≠ -1 →
        ∃ j, j < 2 ∧ entry_result foo_dir (32 * j) = .ok r) :=
  ⟨⟨by decide!, by decide!, by decide!, by decide!⟩,
    scan_stops_at_terminator foo_dir foo_dir_junk (geom 96) (geom 128) (cstr "ZZ.TXT") 2 0 2
      foo_dir foo_dir_junk (by decide!) (by decide!) (by decide!) (by decide!)⟩

/-! ### Where the 32-bit arithmetic is exact -/

/-- The offset passed to `fseek` is the exact one as long as the product
`(N - 2) * cluster_size` fits in 32 bits. -/
theorem cluster_offset_exact (g : Geometry) (N : Nat) (h2 : 2 ≤ N) (hN : N < 2 ^ 32)
    (hprod : (N - 2) * g.cluster_size < 2 ^ 32)
    (hsum : g.clusters_area_offset + (N - 2) * g.cluster_size < 2 ^ 64) :
    cluster_offset g N = g.clusters_area_offset + (N - 2) * g.cluster_size := by
  unfold cluster_offset
  have e : (N + 2 ^ 32 - 2) % 2 ^ 32 = N - 2 := by omega
  rw [e, Nat.mod_eq_of_lt hprod, Nat.mod_eq_of_lt hsum]

/-- The three values set by `read_fat32_metadata` are the exact ones as long as
the exact values fit: the cluster size and the reserved area in an `int`, the
FAT size and the cluster-data offset in 32 bits. -/
theorem set_geometry_exact (bp : bios_param) (fi : fat32_info)
    (h1 : bp.cluster_size * bp.sector_size < 2 ^ 31)
    (h2 : fi.fat32_nb_sectors * bp.sector_size < 2 ^ 32)
    (h3 : bp.sector_size * bp.nb_reserved_sectors < 2 ^ 31)
    (h4 : bp.sector_size * bp.nb_reserved_sectors
      + fi.fat32_nb_sectors * bp.sector_size * bp.nb_fats < 2 ^ 32) :
    set_geometry bp fi = .ok ⟨bp, fi, fi.fat32_nb_sectors * bp.sector_size,
      bp.sector_size * bp.nb_reserved_sectors
        + fi.fat32_nb_sectors * bp.sector_size * bp.nb_fats,
      bp.cluster_size * bp.sector_size⟩ := by
  have h5 : fi.fat32_nb_sectors * bp.sector_size * bp.nb_fats < 2 ^ 32 := by omega
  have h6 : bp.cluster_size * bp.sector_size < 2 ^ 32 := by omega
  simp only [set_geometry, int_mul, h1, h3, if_true, Exec.ok_bind, Exec.pure_eq,
    Nat.mod_eq_of_lt h2, Nat.mod_eq_of_lt h5, Nat.mod_eq_of_lt h4, Nat.mod_eq_of_lt h6]

/-! ### Clusters on which every read lies inside the buffer -/

theorem otf_ok {α : Type} (a : α) : only_token_faults (Exec.ok a) := by
  intro e h
  cases h

theorem otf_bind {α β : Type} {x : Exec α} {f : α → Exec β} (hx : only_token_faults x)
    (hf : ∀ a, x = .ok a → only_token_faults (f a)) : only_token_faults (x >>= f) := by
  cases x with
  | fault e1 =>
    intro e h
    simp only [Exec.fault_bind, Exec.fault.injEq] at h
    subst h
    exact hx e1 rfl
  | ok a => simpa using hf a rfl

theorem otf_rd_token (l : List Nat) (i : Nat) : only_token_faults (rd .token_oob l i) := by
  intro e h
  unfold rd at h
  split at h
  · cases h
  · cases h
    rfl

theorem otf_rd_cluster {buf : List Nat} {i : Nat} (h : i < buf.length) :
    only_token_faults (rd .cluster_oob buf i) := by
  rw [rd_of_getElem? (List.getElem?_eq_getElem h)]
  exact otf_ok _

theorem otf_ite {α : Type} {c : Prop} [Decidable c] {x y : Exec α}
    (hx : only_token_faults x) (hy : only_token_faults y) :
    only_token_faults (if c then x else y) := by
  split
  · exact hx
  · exact hy

theorem otf_short_form_exit {a : List Nat} (b : List Nat) (maxlen : Nat) {i : Nat}
    (h : i < a.length) : only_token_faults (short_form_exit a b maxlen i) := by
  unfold short_form_exit
  refine otf_bind (otf_rd_token _ _) (fun bi _ => otf_ite ?_ (otf_ok _))
  exact otf_bind (otf_rd_cluster h) (fun ai _ => otf_ite (otf_ok _) (otf_ok _))

theorem otf_short_form_loop {a : List Nat} (b : List Nat) {maxlen : Nat}
    (h : maxlen < a.length) :
    ∀ n i, i + n = maxlen → only_token_faults (short_form_loop a b maxlen n i) := by
  intro n
  induction n with
  | zero =>
    intro i hi
    simp only [short_form_loop]
    exact otf_short_form_exit b maxlen (by omega)
  | succ n ih =>
    intro i hi
    simp only [short_form_loop]
    have hex := otf_short_form_exit (a := a) b maxlen (i := i) (by omega)
    refine otf_ite (otf_bind (otf_rd_cluster (by omega)) (fun ai _ => otf_ite ?_ hex)) hex
    refine otf_bind (otf_rd_token _ _) (fun bi _ => otf_ite (otf_ite (otf_ok _) ?_) hex)
    exact ih (i + 1) (by omega)

theorem otf_short_form_cmp {buf : List Nat} (b : List Nat) {p maxlen : Nat}
    (h : p + maxlen < buf.length) :
    only_token_faults (short_form_cmp (buf.drop p) b maxlen) := by
  apply otf_short_form_loop b _ maxlen 0 (by omega)
  rw [List.length_drop]
  omega

theorem otf_entry_result {buf : List Nat} {p : Nat} (h : p + 32 ≤ buf.length) :
    only_token_faults (entry_result buf p) := by
  have hr : ∀ i, i < 32 → rd .cluster_oob buf (p + i) = .ok buf[p + i]! := by
    intro i hi
    have hlt : p + i < buf.length := by omega
    rw [rd_of_getElem? (List.getElem?_eq_getElem hlt), getElem!_pos buf (p + i) hlt]
  have e20 := hr 20 (by omega)
  have e21 := hr 21 (by omega)
  have e26 := hr 26 (by omega)
  have e27 := hr 27 (by omega)
  have e28 := hr 28 (by omega)
  have e29 := hr 29 (by omega)
  have e30 := hr 30 (by omega)
  have e31 := hr 31 (by omega)
  have e11 := hr 11 (by omega)
  simp only [entry_result, rd16, rd32, DIR_ENTRY_ATTR, Nat.add_assoc, Nat.reduceAdd, e20, e21,
    e26, e27, e28, e29, e30, e31, e11, Exec.ok_bind, Exec.pure_eq]
  exact otf_ok _

theorem otf_short_branch {buf : List Nat} (token : List Nat) {p : Nat}
    (h : p + 32 ≤ buf.length) : only_token_faults (short_branch buf token p) := by
  unfold short_branch
  refine otf_bind (otf_short_form_cmp _ (by simp only [SHORT_NAME_SIZE]; omega))
    (fun ret _ => otf_ite ?_ (otf_ok _))
  refine otf_bind (otf_rd_token _ _) (fun c _ => ?_)
  refine otf_bind (otf_short_form_cmp _ (by simp only [SHORT_NAME_SIZE, SHORT_EXT_SIZE]; omega))
    (fun ret2 _ => otf_ite ?_ (otf_ok _))
  exact otf_bind (otf_entry_result h) (fun r _ => otf_ok _)

theorem otf_long_form_after {a : List Nat} (b : List Nat) {base lim : Nat} (i ret : Nat)
    (h : base + lim ≤ a.length) : only_token_faults (long_form_after a b base lim i ret) := by
  unfold long_form_after
  split
  · refine otf_bind (otf_rd_cluster (by omega)) (fun ai _ => ?_)
    exact otf_bind (otf_rd_token _ _) (fun br _ => otf_ite (otf_ok _) (otf_ok _))
  · exact otf_ok _

theorem otf_long_form_frag {a : List Nat} (b : List Nat) {base lim : Nat}
    (h : base + lim ≤ a.length) :
    ∀ n i ret, only_token_faults (long_form_frag a b base lim n i ret) := by
  intro n
  induction n with
  | zero =>
    intro i ret
    simp only [long_form_frag]
    exact otf_long_form_after b i ret h
  | succ n ih =>
    intro i ret
    simp only [long_form_frag]
    have haf := otf_long_form_after (a := a) b i ret h
    split
    · refine otf_bind (otf_rd_cluster (by omega)) (fun ai _ => otf_ite ?_ haf)
      refine otf_bind (otf_rd_token _ _) (fun br _ => otf_ite (otf_ite (otf_ok _) ?_) haf)
      exact ih (i + 2) (ret + 1)
    · exact haf

theorem otf_long_form_cmp {a : List Nat} (b : List Nat) (h : 32 ≤ a.length) :
    only_token_faults (long_form_cmp a b) := by
  unfold long_form_cmp
  refine otf_bind (otf_long_form_frag b (by simp only [NAME_1_5]; omega) 5 0 0) (fun r1 _ => ?_)
  cases r1 with
  | inl v => exact otf_ok _
  | inr ret =>
    refine otf_bind (otf_long_form_frag b (by simp only [NAME_6_11]; omega) 6 0 ret)
      (fun r2 _ => ?_)
    cases r2 with
    | inl v => exact otf_ok _
    | inr ret2 =>
      simp only [long_form_tail]
      refine otf_bind (otf_rd_cluster (by simp only [NAME_12_13]; omega)) (fun a0 _ => ?_)
      refine otf_bind (otf_rd_token _ _) (fun b0 _ => otf_ite (otf_ok _) (otf_ite (otf_ok _) ?_))
      refine otf_bind (otf_rd_cluster (by simp only [NAME_12_13]; omega)) (fun a2 _ => ?_)
      exact otf_bind (otf_rd_token _ _) (fun b1 _ => otf_ite (otf_ok _) (otf_ok _))

theorem otf_long_run {buf : List Nat} (token : List Nat) {pos : Nat} :
    ∀ (n : Nat) (prev : Option Int) (tok_pos : Nat), pos + n * 32 ≤ buf.length →
      (n = 0 → prev ≠ none) → only_token_faults (long_run buf token pos n prev tok_pos) := by
  intro n
  induction n with
  | zero =>
    intro prev tok_pos _ hp
    cases prev with
    | none => exact absurd rfl (hp rfl)
    | some v =>
      simp only [long_run]
      exact otf_ok _
  | succ n ih =>
    intro prev tok_pos hlen _
    simp only [long_run]
    refine otf_bind (otf_long_form_cmp _ ?_) (fun ret _ => otf_ite (otf_ok _) ?_)
    · rw [List.length_drop]
      simp only [DIR_ENTRY_SIZE]
      omega
    · exact ih (some ret) _ (by omega) (fun _ => by simp)

theorem otf_long_branch {buf : List Nat} (token : List Nat) {pos b0 : Nat}
    (h1 : 1 ≤ b0 &&& 0x1f) (h2 : pos + (b0 &&& 0x1f) * 32 + 32 ≤ buf.length) :
    only_token_faults (long_branch buf token pos b0) ∧
    ∀ p1 t1, long_branch buf token pos b0 = .ok (Step.next p1 t1) →
      p1 = pos + (b0 &&& 0x1f) * 32 + 32 := by
  constructor
  · unfold long_branch
    refine otf_bind (otf_long_run token _ none 0 (by omega) (fun h => by omega)) (fun pr _ => ?_)
    obtain ⟨ret, tok_pos⟩ := pr
    refine otf_ite ?_ (otf_ok _)
    refine otf_bind (otf_rd_token _ _) (fun c _ => otf_ite ?_ (otf_ok _))
    refine otf_bind (otf_entry_result ?_) (fun r _ => otf_ok _)
    simp only [DIR_ENTRY_SIZE]
    omega
  · intro p1 t1 h
    simp only [long_branch, Exec.bind_eq_ok] at h
    obtain ⟨⟨ret, tok_pos⟩, -, h⟩ := h
    simp only at h
    split at h
    · simp only [Exec.bind_eq_ok] at h
      obtain ⟨c, -, h⟩ := h
      split at h
      · simp only [Exec.bind_eq_ok, Exec.pure_eq, Exec.ok.injEq] at h
        obtain ⟨_, _, h⟩ := h
        cases h
      · simp only [Exec.pure_eq, Exec.ok.injEq, Step.next.injEq, DIR_ENTRY_SIZE] at h
        exact h.1.symm
    · simp only [Exec.pure_eq, Exec.ok.injEq, Step.next.injEq, DIR_ENTRY_SIZE] at h
      exact h.1.symm

/-- On a cluster whose visited records lie inside the buffer, the scan reads
the cluster buffer only inside it, for every token: the only fault left is a
read outside the path string. -/
theorem scan_bounded_reads_inside (buf : List Nat) (c s : Nat) :
    ∀ (n pos : Nat) (token : List Nat), scan_bounded buf n pos = true →
      only_token_faults (scan_entries buf c s n pos token) := by
  intro n
  induction n with
  | zero =>
    intro pos token h
    simp [scan_bounded] at h
  | succ n ih =>
    intro pos token h
    simp only [scan_bounded] at h
    cases hb : buf[pos]? with
    | none => simp [hb] at h
    | some b0 =>
      simp only [hb] at h
      have hrd0 : rd .cluster_oob buf pos = .ok b0 := rd_of_getElem? hb
      simp only [scan_entries]
      by_cases hz : b0 = 0
      · have hs : scan_step buf token pos = .ok Step.stop := by
          simp [scan_step, hrd0, hz]
        rw [hs]
        exact otf_ok _
      · simp only [hz, if_false] at h
        by_cases hd : b0 = 0xe5
        · simp only [hd, if_true] at h
          have hs : scan_step buf token pos = .ok (Step.next (pos + 32) token) := by
            simp [scan_step, hrd0, hd, DIR_ENTRY_SIZE]
          rw [hs]
          exact ih (pos + 32) token h
        · simp only [hd, if_false] at h
          by_cases hin : pos + 32 ≤ buf.length
          · simp only [hin, if_true] at h
            have h11 : pos + 11 < buf.length := by omega
            have hrd11 : rd .cluster_oob buf (pos + DIR_ENTRY_ATTR) = .ok buf[pos + 11] :=
              rd_of_getElem? (List.getElem?_eq_getElem h11)
            by_cases hattr : buf[pos + 11]? = some 0x0f
            · simp only [hattr, if_true, Bool.and_eq_true, decide_eq_true_eq] at h
              obtain ⟨⟨hnb, hfit⟩, hrest⟩ := h
              have ha : buf[pos + 11] = 0x0f := by
                rw [List.getElem?_eq_getElem h11] at hattr
                exact Option.some.inj hattr
              have hs : scan_step buf token pos = long_branch buf token pos b0 := by
                simp [scan_step, hrd0, hz, hd, hrd11, ha]
              obtain ⟨hotf, hnext⟩ := otf_long_branch token hnb hfit
              rw [hs]
              refine otf_bind hotf (fun st hst => ?_)
              cases st with
              | done r => exact otf_ok _
              | stop => exact otf_ok _
              | next p1 t1 =>
                rw [hnext p1 t1 hst]
                exact ih _ t1 hrest
            · simp only [hattr, if_false] at h
              have ha : buf[pos + 11] ≠ 0x0f := by
                intro h1
                apply hattr
                rw [List.getElem?_eq_getElem h11, h1]
              have hs : scan_step buf token pos = short_branch buf token pos := by
                simp [scan_step, hrd0, hz, hd, hrd11, ha]
              rw [hs]
              refine otf_bind (otf_short_branch token hin) (fun st hst => ?_)
              cases st with
              | done r => exact otf_ok _
              | stop => exact otf_ok _
              | next p1 t1 =>
                have hp := (@scan_step_short buf token pos (Or.inr hattr)).1 p1 t1
                  (by rw [hs]; exact hst)
                rw [hp]
                exact ih _ t1 h
          · simp [hin] at h

/-- The reads of `get_entry_start_cluster` lie inside the cluster buffer on
every cluster whose visited records lie inside it. -/
theorem get_entry_reads_inside (disk : List Nat) (g : Geometry) (token : List Nat)
    (cur size : Nat)
    (h : ∀ buf, read_cluster disk g cur = some buf → scan_bounded buf (buf.length + 1) 0 = true) :
    only_token_faults (get_entry_start_cluster disk g token cur size) := by
  unfold get_entry_start_cluster
  cases hb : read_cluster disk g cur with
  | none => exact otf_ok _
  | some buf => exact scan_bounded_reads_inside buf cur size _ 0 token (h buf hb)

end Fat32
